import Mathlib

/-!
# RobotAxel: a NEAT neuro-evolution engine (Genome, Gym, Settings)

Shallow embedding of `src/robot_axel/{Settings,Random_Generator,Genome,Gym}.cpp`.

Conventions of the embedding.

* `float` values are elements of an arbitrary linearly ordered field `α` carrying a floor
  function (`ℚ` makes every definition executable, `ℝ` gives the ideal semantics), and the
  arithmetic on them is exact.  The rounding of the machine is modelled by three definitions:
  `toFloat32` is the conversion to IEEE 754 binary32 (round to nearest, ties to even), `stof`
  reads a numeral through it, and `Genome.compareRounded` is `Genome::compare` with every
  `float` operation rounded.  Infinities, NaN and the exceptions of `std::stof` are outside
  the model.  `std::exp` is a parameter `exp : α → α`.
* `size_t` values (neuron indices, sizes, the generation) are natural numbers; the one `size_t`
  subtraction that can pass below zero, in `speciesBreedCount`, wraps modulo `2 ^ 64`.
* `unsigned int Settings::current_innovation` is a natural number below `2 ^ 32`; its
  increment wraps modulo `2 ^ 32` as unsigned arithmetic does.
* The two process-wide singletons, the random generator and the innovation counter, are
  threaded explicitly through every operation as a value of type `Env α`.  The generator is the
  stream of values `generateRandom` is going to return.
* `assert` is modelled by `Option`: a failed assertion yields `none`.
-/

set_option autoImplicit false
set_option linter.unusedVariables false
set_option linter.unusedSectionVars false

namespace RobotAxel

/-! ## Settings.hpp -/

namespace Settings

/-- AI input number. -/
def INPUTS : Nat := 76
/-- AI output number. -/
def OUTPUTS : Nat := 6
/-- Maximum AI decision neurons. -/
def NEURON_LIMIT : Nat := 1000
/-- Is the basic genome a fully linked input/output network. -/
def BASIC_FULL_LINK : Bool := true
/-- Maximum population between species. -/
def GYM_POPULATION : Nat := 100
/-- Minimum breed count for a species to be considered not weak. -/
def SPECIES_BREED_THRESHOLD : Nat := 3
/-- Genome minimum for a species to be considered stale. -/
def SPECIES_STALE_THRESHOLD : Nat := 5

section
variable (α : Type) [LinearOrderedField α]

/-- Genome disjoint rating multiplier, `0.4f`. -/
def SPECIES_DELTA_DIJOINT : α := 4 / 10
/-- Genome weight comparison multiplier, `0.6f`. -/
def SPECIES_DELTA_WEIGHTS : α := 6 / 10
/-- Max difference to be considered from a species, `0.5f`. -/
def SPECIES_DELTA_THRESHOLD : α := 5 / 10
/-- Gene link weight range, `2.0f`. -/
def LINK_RANGE : α := 2
/-- Gene link weight offset, `-1.0f`. -/
def LINK_OFFSET : α := -1
/-- Value sigmoid normalization range, `2.0f`. -/
def SIGMOID_RANGE : α := 2
/-- Value sigmoid growth rate, `-4.9f`. -/
def SIGMOID_GROWTH_RATE : α := -(49 / 10)
/-- Value sigmoid offset, `-1.0f`. -/
def SIGMOID_OFFSET : α := -1
/-- Chance of a weight mutation, `0.4f`. -/
def MUTATE_WEIGHT_CHANCE : α := 4 / 10
/-- Chance of mutating every weight, `0.3f`. -/
def MUTATE_WEIGHT_ALL_CHANCE : α := 3 / 10
/-- Chance of a new random weight, `0.2f`. -/
def MUTATE_WEIGHT_NEW_RANDOM_CHANCE : α := 2 / 10
/-- Deviation range of a weight modification, `0.2f`. -/
def MUTATE_WEIGHT_DEVIATION_RANGE : α := 2 / 10
/-- Chance of a node mutation, `0.3f`. -/
def MUTATE_NODE_CHANCE : α := 3 / 10
/-- Chance of a link mutation, `0.3f`. -/
def MUTATE_LINK_CHANCE : α := 3 / 10
/-- Chance of a state mutation, `0.5f`. -/
def MUTATE_STATE_CHANCE : α := 5 / 10
/-- Chance of a full neuron incoming state mutation, `0.0f`. -/
def MUTATE_STATE_INVERT_ALL_NEURON_GENES_CHANCE : α := 0
/-- Chance of a crossover between two genomes of the same species, `0.75f`. -/
def CROSSOVER_CHANCE : α := 75 / 100
/-- Chance of a gene addition in crossover, `0.5f`. -/
def CROSSOVER_GENE_ADDITION : α := 5 / 10

end

end Settings

open Settings

/-! ## The process-wide context: random generator and innovation counter -/

/-- The process-wide mutable state: the stream `draws` of values `generateRandom` returns, the
number `drawn` of values consumed so far, and `Settings::current_innovation`. -/
structure Env (α : Type) where
  draws : Nat → α
  drawn : Nat
  current_innovation : Nat

/-- The width of `unsigned int` (32 bits on the platforms the driver is built for). -/
def UINT_WIDTH : Nat := 32

/-- `Settings::newInnovation`: increments the counter (an `unsigned int`) and returns it. -/
def newInnovation {α : Type} (e : Env α) : Nat × Env α :=
  let c := (e.current_innovation + 1) % 2 ^ UINT_WIDTH
  (c, { e with current_innovation := c })

/-- `Random_Generator::generateRandom`: the next value of the uniform `[0, 1)` stream. -/
def generateRandom {α : Type} (e : Env α) : α × Env α :=
  (e.draws e.drawn, { e with drawn := e.drawn + 1 })

/-- The generator only ever returns values of `[0, 1)`. -/
def Env.UnitDraws {α : Type} [LinearOrderedField α] (e : Env α) : Prop :=
  ∀ n, 0 ≤ e.draws n ∧ e.draws n < 1

/-- The state of a fresh process: no value drawn yet, `current_innovation = 0`
(`Settings.cpp`, line 23). -/
def Env.initial {α : Type} (draws : Nat → α) : Env α := ⟨draws, 0, 0⟩

/-- The state after `n` calls of `newInnovation`. -/
def afterInnovations {α : Type} (e : Env α) : Nat → Env α
  | 0 => e
  | n + 1 => (newInnovation (afterInnovations e n)).2

/-- The number returned by call number `n + 1` of `newInnovation` in a process started in
state `e`, that is, by the call that has `n` earlier calls. -/
def issued {α : Type} (e : Env α) (n : Nat) : Nat :=
  (newInnovation (afterInnovations e n)).1

/-! ## Genome.hpp: Gene, Neuron, Genome -/

/-- `Genome::Gene`. -/
structure Gene (α : Type) where
  innovation : Nat
  from_ : Nat
  to_ : Nat
  weight : α
  enabled : Bool

/-- `Genome::Neuron`: the incoming genes (the source keeps pointers into the network, which
is not modified while a neuron is alive) and the current value. -/
structure Neuron (α : Type) where
  incoming : List (Gene α)
  value : α

/-- `Genome`. -/
structure Genome (α : Type) where
  fitness : α
  generation : Nat
  total_neurons : Nat
  network : List (Gene α)

section
variable {α : Type} [LinearOrderedField α]

instance : Inhabited (Gene α) := ⟨⟨0, 0, 0, 0, false⟩⟩

instance : Inhabited (Neuron α) := ⟨⟨[], 0⟩⟩

/-! ### The `float` type: IEEE 754 binary32 -/

/-- The number `⌊log₂ n⌋` for `n ≥ 1`, found by halving; `fuel` bounds the number of halvings,
and `fuel = n` is enough. -/
def log2Fuel : Nat → Nat → Nat
  | 0, _ => 0
  | fuel + 1, n => if n < 2 then 0 else log2Fuel fuel (n / 2) + 1

/-- The integer nearest to `x`; when `x` is half-way between two integers, the even one. -/
def roundHalfEven [FloorRing α] (x : α) : Int :=
  if x - (Int.floor x : α) < 1 / 2 then Int.floor x
  else if 1 / 2 < x - (Int.floor x : α) then Int.floor x + 1
  else if Int.floor x % 2 = 0 then Int.floor x
  else Int.floor x + 1

/-- The power `2 ^ k` for an integer `k`. -/
def twoPow (k : Int) : α :=
  if 0 ≤ k then 2 ^ k.toNat else 1 / 2 ^ (-k).toNat

/-- The binary exponent of the binary32 format for a magnitude `x ≥ 0`: `⌊log₂ x⌋`, and
`-126` for the subnormal numbers (`x < 2 ^ (-126)`), which all share the least exponent. -/
def float32Exponent [FloorRing α] (x : α) : Int :=
  max ((log2Fuel (Nat.floor (x * 2 ^ 149)) (Nat.floor (x * 2 ^ 149)) : Int) - 149) (-126)

/-- The binary32 number nearest to a magnitude `x ≥ 0`: `x` is rounded to a multiple of
`2 ^ (exponent - 23)`, that is, to 24 significant bits, ties going to the even significand. -/
def roundMagnitude [FloorRing α] (x : α) : α :=
  (roundHalfEven (x / twoPow (float32Exponent x - 23)) : α) * twoPow (float32Exponent x - 23)

/-- The conversion of a real number to `float` (IEEE 754 binary32, round to nearest, ties to
even).  The format is sign and magnitude, so the magnitude is what is rounded.  Magnitudes
from `2 ^ 128` on, which the machine turns into an infinity, are outside the model. -/
def toFloat32 [FloorRing α] (x : α) : α :=
  if x < 0 then -roundMagnitude (-x) else roundMagnitude x

/-- `Gene::randomGeneWeight`. -/
def Gene.randomGeneWeight (g : Gene α) (e : Env α) : Gene α × Env α :=
  let (r, e1) := generateRandom e
  ({ g with weight := r * LINK_RANGE α + LINK_OFFSET α }, e1)

/-- `Gene::deviateGeneWeight`. -/
def Gene.deviateGeneWeight (g : Gene α) (e : Env α) : Gene α × Env α :=
  let (r, e1) := generateRandom e
  let w := g.weight + (r * MUTATE_WEIGHT_DEVIATION_RANGE α - MUTATE_WEIGHT_DEVIATION_RANGE α / 2)
  let w1 := if w < LINK_OFFSET α then LINK_OFFSET α else w
  let w2 := if w1 > LINK_RANGE α + LINK_OFFSET α then LINK_RANGE α + LINK_OFFSET α else w1
  ({ g with weight := w2 }, e1)

/-- `Gene::Gene( from, to, enabled )`: takes a fresh innovation number, then a random weight. -/
def Gene.ctor (from_ to_ : Nat) (enabled : Bool) (e : Env α) : Gene α × Env α :=
  let (i, e1) := newInnovation e
  Gene.randomGeneWeight ⟨i, from_, to_, 0, enabled⟩ e1

/-- `Gene::operator==` (value semantics: the address test implies the innovation test). -/
def Gene.eqv (g other : Gene α) : Bool :=
  if g.innovation = other.innovation then true
  else if g.from_ = other.from_ ∧ g.to_ = other.to_ then true
  else false

/-- `Neuron::Neuron( index, network )`. -/
def Neuron.ctor (index : Nat) (network : List (Gene α)) : Neuron α :=
  if index < INPUTS then ⟨[], 0⟩
  else ⟨network.filter (fun gene => gene.to_ = index), 0⟩

/-- `Neuron::hasLink`. -/
def Neuron.hasLink (n : Neuron α) (neuron_index : Nat) : Bool :=
  n.incoming.any (fun gene => gene.from_ = neuron_index)

/-! ### Genome::evaluate -/

/-- Reads `neurons[ index ].value` (an index outside the vector reads `0`). -/
def valueAt (neurons : List (Neuron α)) (index : Nat) : α :=
  (neurons.getD index default).value

/-- Writes `neurons[ index ].value`. -/
def setValue (neurons : List (Neuron α)) (index : Nat) (v : α) : List (Neuron α) :=
  neurons.set index { neurons.getD index default with value := v }

/-- The inner loop of `evaluate`: adds the weighted value of the source of every enabled
incoming gene to `neurons[ index ].value`. -/
def sumIncoming (index : Nat) : List (Gene α) → List (Neuron α) → List (Neuron α)
  | [], neurons => neurons
  | incoming_gene :: rest, neurons =>
    sumIncoming index rest
      (if incoming_gene.enabled then
        setValue neurons index
          (valueAt neurons index + valueAt neurons incoming_gene.from_ * incoming_gene.weight)
      else neurons)

/-- The "treat sum result" expression of `evaluate`. -/
def sigmoid (exp : α → α) (x : α) : α :=
  SIGMOID_RANGE α / (1 + exp (SIGMOID_GROWTH_RATE α * x)) + SIGMOID_OFFSET α

/-- One iteration of the "update network" loop of `evaluate`. -/
def updateNeuron (exp : α → α) (neurons : List (Neuron α)) (index : Nat) : List (Neuron α) :=
  let incoming := (neurons.getD index default).incoming
  if incoming.isEmpty then neurons
  else
    let summed := sumIncoming index incoming neurons
    setValue summed index (sigmoid exp (valueAt summed index))

/-- The neuron vector of `evaluate` once the neurons are built and the inputs are stored. -/
def loadedNeurons (g : Genome α) (inputs : Fin INPUTS → α) : List (Neuron α) :=
  (List.finRange INPUTS).foldl (fun ns index => setValue ns index.val (inputs index))
    ((List.range g.total_neurons).map (fun index => Neuron.ctor index g.network))

/-- The neuron vector of `evaluate` once the "update network" loop has run. -/
def evaluatedNeurons (exp : α → α) (g : Genome α) (inputs : Fin INPUTS → α) :
    List (Neuron α) :=
  (List.range' INPUTS (g.total_neurons - INPUTS)).foldl (updateNeuron exp)
    (loadedNeurons g inputs)

/-- `Genome::evaluate`: `none` when one of its assertions fails, the `outputs` array after the
call otherwise. -/
def Genome.evaluate (exp : α → α) (g : Genome α) (outputs : Fin OUTPUTS → α)
    (inputs : Fin INPUTS → α) : Option (Fin OUTPUTS → α) :=
  if ¬ (∀ index : Fin INPUTS, 0 ≤ inputs index ∧ inputs index ≤ 1) then none
  else if g.network.isEmpty then some outputs
  else
    let neurons := evaluatedNeurons exp g inputs
    let output_neuron_offset := g.total_neurons - OUTPUTS
    let outputs1 : Fin OUTPUTS → α := fun index => valueAt neurons (index.val + output_neuron_offset)
    if ∀ index : Fin OUTPUTS,
        LINK_OFFSET α ≤ outputs1 index ∧ outputs1 index ≤ LINK_OFFSET α + LINK_RANGE α
    then some outputs1 else none

/-- The structural fields of a gene: its innovation number and its two endpoints. -/
def Gene.skeleton (g : Gene α) : Nat × Nat × Nat := (g.innovation, g.from_, g.to_)

/-! ### Mutation -/

/-- Runs a weight mutation primitive over every gene of the network, in order
(`for ( Gene & gene : this->network ) gene.f();`). -/
def forEachGene (f : Gene α → Env α → Gene α × Env α) :
    List (Gene α) → Env α → List (Gene α) × Env α
  | [], e => ([], e)
  | gene :: rest, e =>
    let (gene1, e1) := f gene e
    let (rest1, e2) := forEachGene f rest e1
    (gene1 :: rest1, e2)

/-- The random index `static_cast<size_t>( std::floor( r * static_cast<float>( size ) ) )`. -/
def randomIndex [FloorRing α] (r : α) (size : Nat) : Nat :=
  Nat.floor (r * (size : α))

/-- `Genome::mutateWeight`; `none` when its assertion fails. -/
def Genome.mutateWeight [FloorRing α] (g : Genome α) (e : Env α) : Option (Genome α × Env α) :=
  if g.network.isEmpty then some (g, e)
  else
    let (r1, e1) := generateRandom e
    if r1 < MUTATE_WEIGHT_ALL_CHANCE α then
      let (r2, e2) := generateRandom e1
      if r2 < MUTATE_WEIGHT_NEW_RANDOM_CHANCE α then
        let (network, e3) := forEachGene Gene.randomGeneWeight g.network e2
        some ({ g with network := network }, e3)
      else
        let (network, e3) := forEachGene Gene.deviateGeneWeight g.network e2
        some ({ g with network := network }, e3)
    else
      let (r2, e2) := generateRandom e1
      let target_index := randomIndex r2 g.network.length
      if ¬ target_index < g.network.length then none
      else
        let (r3, e3) := generateRandom e2
        if r3 < MUTATE_WEIGHT_NEW_RANDOM_CHANCE α then
          let (gene, e4) := (g.network.getD target_index default).randomGeneWeight e3
          some ({ g with network := g.network.set target_index gene }, e4)
        else
          let (gene, e4) := (g.network.getD target_index default).deviateGeneWeight e3
          some ({ g with network := g.network.set target_index gene }, e4)

/-- Inverts `enabled` on the first gene of the network that `operator==` identifies with
`target_gene` (the inner loop of the invert-all branch of `mutateState`). -/
def toggleFirst (target_gene : Gene α) : List (Gene α) → List (Gene α)
  | [] => []
  | gene :: rest =>
    if target_gene.eqv gene then { gene with enabled := !gene.enabled } :: rest
    else gene :: toggleFirst target_gene rest

/-- `Genome::mutateState`; `none` when one of its assertions fails. -/
def Genome.mutateState [FloorRing α] (g : Genome α) (e : Env α) : Option (Genome α × Env α) :=
  if g.network.isEmpty then some (g, e)
  else
    let (r1, e1) := generateRandom e
    if r1 < MUTATE_STATE_INVERT_ALL_NEURON_GENES_CHANCE α then
      let (r2, e2) := generateRandom e1
      let target_index := randomIndex r2 g.total_neurons
      if ¬ target_index < g.total_neurons then none
      else
        let target := Neuron.ctor target_index g.network
        let network := target.incoming.foldl
          (fun network target_gene => toggleFirst target_gene network) g.network
        some ({ g with network := network }, e2)
    else
      let (r2, e2) := generateRandom e1
      let target_index := randomIndex r2 g.network.length
      if ¬ target_index < g.network.length then none
      else
        let gene := g.network.getD target_index default
        let network := g.network.set target_index { gene with enabled := !gene.enabled }
        some ({ g with network := network }, e2)

/-- `Genome::mutateLink`; `none` when its assertion fails. -/
def Genome.mutateLink [FloorRing α] (g : Genome α) (e : Env α) : Option (Genome α × Env α) :=
  let range := g.total_neurons
  let (r1, e1) := generateRandom e
  let non_output_index := randomIndex r1 (range - OUTPUTS)
  if ¬ non_output_index < range then none
  else
    let (r2, e2) := generateRandom e1
    let non_input_index := randomIndex r2 (range - INPUTS) + INPUTS
    if non_output_index = non_input_index then some (g, e2)
    else
      let non_output := Neuron.ctor non_output_index g.network
      let non_input := Neuron.ctor non_input_index g.network
      if non_output.hasLink non_input_index || non_input.hasLink non_output_index then some (g, e2)
      else if non_output_index < non_input_index then
        let (gene, e3) := Gene.ctor non_output_index non_input_index true e2
        some ({ g with network := g.network ++ [gene] }, e3)
      else
        let (gene, e3) := Gene.ctor non_input_index non_output_index true e2
        some ({ g with network := g.network ++ [gene] }, e3)

/-- The "update all genes indexes" loop of `mutateNode`. -/
def shiftIndexes (target_index : Nat) (network : List (Gene α)) : List (Gene α) :=
  network.map (fun gene =>
    { gene with
      from_ := if target_index ≤ gene.from_ then gene.from_ + 1 else gene.from_
      to_ := if target_index ≤ gene.to_ then gene.to_ + 1 else gene.to_ })

/-- `Genome::mutateNode`; `none` when its assertion fails. -/
def Genome.mutateNode [FloorRing α] (g : Genome α) (e : Env α) : Option (Genome α × Env α) :=
  if g.network.isEmpty then some (g, e)
  else
    let (r1, e1) := generateRandom e
    let target_gene_index := randomIndex r1 g.network.length
    if ¬ target_gene_index < g.network.length then none
    else
      let target_gene := g.network.getD target_gene_index default
      if ¬ target_gene.enabled then some (g, e1)
      else
        let network := g.network.set target_gene_index { target_gene with enabled := false }
        let target_index :=
          if g.total_neurons - OUTPUTS < target_gene.to_ then g.total_neurons - OUTPUTS
          else target_gene.to_
        let total_neurons := g.total_neurons + 1
        let (bot_gene, e2) := Gene.ctor target_gene.from_ target_index true e1
        let (top_gene, e3) := Gene.ctor target_index target_gene.from_ true e2
        some ({ g with
          total_neurons := total_neurons
          network := shiftIndexes target_index network ++ [bot_gene, top_gene] }, e3)

/-- `Genome::mutate`; `none` when an assertion of one of the four mutations fails. -/
def Genome.mutate [FloorRing α] (g : Genome α) (e : Env α) : Option (Genome α × Env α) :=
  let (r1, e1) := generateRandom e
  (if r1 < MUTATE_WEIGHT_CHANCE α then g.mutateWeight e1 else some (g, e1)).bind
    fun (g1, e2) =>
  let (r2, e3) := generateRandom e2
  (if r2 < MUTATE_NODE_CHANCE α ∧ g1.total_neurons < NEURON_LIMIT then g1.mutateNode e3
    else some (g1, e3)).bind
    fun (g2, e4) =>
  let (r3, e5) := generateRandom e4
  (if r3 < MUTATE_LINK_CHANCE α then g2.mutateLink e5 else some (g2, e5)).bind
    fun (g3, e6) =>
  let (r4, e7) := generateRandom e6
  if r4 < MUTATE_STATE_CHANCE α then g3.mutateState e7 else some (g3, e7)

/-! ### Compatibility distance -/

/-- One iteration of the outer loop of `compare` on the accumulators
`(disjoint, weights, coincident)`: the inner loop stops at the first gene of `other` with the
innovation number of `gene`. -/
def compareStep (other : List (Gene α)) (acc : α × α × α) (gene : Gene α) : α × α × α :=
  match other.find? (fun other_gene => gene.innovation = other_gene.innovation) with
  | some other_gene => (acc.1, acc.2.1 + |gene.weight - other_gene.weight|, acc.2.2 + 1)
  | none => (acc.1 + 1, acc.2.1, acc.2.2)

/-- `Genome::compare`: the values of `(disjoint, weights)` after the call, given their values
before it, in exact arithmetic.  `Genome.compareRounded` below is the same function with the
rounding of every `float` operation, for the properties that depend on the order of the
additions. -/
def Genome.compare (g other : Genome α) (disjoint weights : α) : α × α :=
  if g.network.isEmpty ∧ other.network.isEmpty then (disjoint, weights)
  else
    let maximum_genes : α := ((max g.network.length other.network.length : Nat) : α)
    if g.network.isEmpty then (1, 1)
    else
      let acc := g.network.foldl (compareStep other.network) (0, 0, 0)
      ((acc.1 + (other.network.length : α)) / maximum_genes,
        if acc.2.2 = 0 then 0 else acc.2.1 / acc.2.2)

/-- One iteration of the outer loop of `compare` when every `float` operation (`-`, `+=`) is
followed by the rounding `rnd`; `fabsf` is exact. -/
def compareStepRounded (rnd : α → α) (other : List (Gene α)) (acc : α × α × α)
    (gene : Gene α) : α × α × α :=
  match other.find? (fun other_gene => gene.innovation = other_gene.innovation) with
  | some other_gene =>
    (acc.1, rnd (acc.2.1 + |rnd (gene.weight - other_gene.weight)|), rnd (acc.2.2 + 1))
  | none => (rnd (acc.1 + 1), acc.2.1, acc.2.2)

/-- `Genome::compare` when every `float` operation, the casts of the sizes to `float`
included, is followed by the rounding `rnd`.  With `rnd = toFloat32` this is the arithmetic of
the machine; with `rnd = id` it is `Genome.compare`. -/
def Genome.compareRounded (rnd : α → α) (g other : Genome α) (disjoint weights : α) : α × α :=
  if g.network.isEmpty ∧ other.network.isEmpty then (disjoint, weights)
  else
    let maximum_genes : α := rnd ((max g.network.length other.network.length : Nat) : α)
    if g.network.isEmpty then (1, 1)
    else
      let acc := g.network.foldl (compareStepRounded rnd other.network) (0, 0, 0)
      (rnd (rnd (acc.1 + rnd (other.network.length : α)) / maximum_genes),
        if acc.2.2 = 0 then 0 else rnd (acc.2.1 / acc.2.2))

/-- The absolute weight differences that `compare` adds to `weights`, in the order in which it
adds them: one for every gene of the caller that has a match in `other`. -/
def matchedDifferences (rnd : α → α) (l other : List (Gene α)) : List α :=
  l.filterMap (fun gene =>
    (other.find? (fun other_gene => gene.innovation = other_gene.innovation)).map
      (fun other_gene => |rnd (gene.weight - other_gene.weight)|))

/-- The innovation numbers of the genes of `l` that have a match in `other`, in the order of
`l`. -/
def sharedInnovations (l other : List (Gene α)) : List Nat :=
  (l.filter (fun gene =>
    other.any (fun other_gene => gene.innovation = other_gene.innovation))).map Gene.innovation

/-! ### Crossover -/

/-- The "looks for possible gene additions from other" loop of `crossover`: the genes appended
to the child. -/
def crossoverAdditions (own : List (Gene α)) : List (Gene α) → Env α → List (Gene α) × Env α
  | [], e => ([], e)
  | other_gene :: rest, e =>
    if own.any (fun gene => other_gene.eqv gene) then crossoverAdditions own rest e
    else
      let (r, e1) := generateRandom e
      let (added, e2) := crossoverAdditions own rest e1
      if r < CROSSOVER_GENE_ADDITION α then (other_gene :: added, e2) else (added, e2)

/-- `Genome::crossover`. -/
def Genome.crossover (g other : Genome α) (e : Env α) : Genome α × Env α :=
  if g.network.isEmpty ∧ other.network.isEmpty then (g, e)
  else
    let total_neurons :=
      if other.total_neurons < g.total_neurons then g.total_neurons else other.total_neurons
    let (added, e1) := crossoverAdditions g.network other.network e
    ({ g with total_neurons := total_neurons, network := g.network ++ added }, e1)

/-! ### Persistence: `serialize` and the `Genome( generate_top )` constructor

The champion file is text: three header lines and then whitespace-separated tokens, four per
gene.  Every piece of that text is a decimal numeral, and the embedding keeps the number each
numeral denotes instead of its characters:

* `std::to_string` of a `size_t` or a `bool` writes the exact integer;
* `std::to_string` of a `float` writes it with six digits after the decimal point (`"%f"`),
  that is, the multiple of `10⁻⁶` nearest to it, the even one when the value is half-way
  (`2⁻⁷ = 0.0078125` is written `0.007812`);
* `std::stof` converts the number a token denotes to `float`: it returns the binary32 number
  nearest to it;
* `static_cast<size_t>` truncates and `static_cast<bool>` tests for non-zero.
-/

/-- The text of a champion file: the numbers written on the three header lines, and the
numbers denoted by the whitespace-separated tokens that follow them. -/
structure GenomeFile (α : Type) where
  generation : α
  fitness : α
  total_neurons : α
  tokens : List α

/-- `std::to_string( float )`: the value printed with six decimals. -/
def floatToString [FloorRing α] (x : α) : α :=
  (roundHalfEven (x * 1000000) : α) / 1000000

/-- `std::stof`: the `float` nearest to the number the token denotes. -/
def stof [FloorRing α] (token : α) : α :=
  toFloat32 token

/-- `Genome::serialize`: the name of the file written and its text. -/
def Genome.serialize [FloorRing α] (g : Genome α) (finish_training : Bool) :
    Bool × GenomeFile α :=
  (finish_training,
    { generation := (g.generation : α)
      fitness := floatToString g.fitness
      total_neurons := (g.total_neurons : α)
      tokens := g.network.flatMap (fun gene =>
        [(gene.from_ : α), (gene.to_ : α), floatToString gene.weight,
          if gene.enabled then 1 else 0]) })

/-- The gene loop of the file-loading branch of the constructor: one gene for every complete
group of four tokens, built by `Gene( from, to, enabled )` and then given the weight read. -/
def loadGenes [FloorRing α] : List α → Env α → List (Gene α) × Env α
  | t0 :: t1 :: t2 :: t3 :: rest, e =>
    let (newGene, e1) :=
      Gene.ctor (Nat.floor (stof t0)) (Nat.floor (stof t1)) (decide (stof t3 ≠ 0)) e
    let (genes, e2) := loadGenes rest e1
    ({ newGene with weight := stof t2 } :: genes, e2)
  | _, e => ([], e)

/-- The gene loops of the default branch of the constructor: for every output neuron, one
enabled gene from every input neuron. -/
def linkGenes : List (Nat × Nat) → Env α → List (Gene α) × Env α
  | [], e => ([], e)
  | (input_index, output_index) :: rest, e =>
    let (gene, e1) := Gene.ctor input_index output_index true e
    let (genes, e2) := linkGenes rest e1
    (gene :: genes, e2)

/-- The `(input_index, output_index)` pairs in the order the default branch visits them. -/
def fullLinkPairs (total_neurons : Nat) : List (Nat × Nat) :=
  (List.range' INPUTS (total_neurons - INPUTS)).flatMap (fun output_index =>
    (List.range INPUTS).map (fun input_index => (input_index, output_index)))

/-- `Genome::Genome( generate_top )`.  `file` is the text of `genomes/top_genome_final.txt`
when that file can be opened. -/
def Genome.ctor [FloorRing α] (generate_top : Bool) (file : Option (GenomeFile α))
    (e : Env α) : Genome α × Env α :=
  if generate_top then
    match file with
    | some myfile =>
      let loaded := loadGenes myfile.tokens e
      ({ fitness := stof myfile.fitness
         generation := Nat.floor (stof myfile.generation)
         total_neurons := Nat.floor (stof myfile.total_neurons)
         network := loaded.1 }, loaded.2)
    | none =>
      let total_neurons := INPUTS + OUTPUTS
      if BASIC_FULL_LINK then
        let linked := linkGenes (fullLinkPairs total_neurons) e
        ({ fitness := 0, generation := 0, total_neurons := total_neurons, network := linked.1 },
          linked.2)
      else ({ fitness := 0, generation := 0, total_neurons := total_neurons, network := [] }, e)
  else ({ fitness := 0, generation := 0, total_neurons := 0, network := [] }, e)

/-! ### Invariants of the data model -/

/-- The index invariant of a genome: at least `INPUTS + OUTPUTS` neurons, and both endpoints
of every gene below `total_neurons`. -/
def Genome.IndexBounds (g : Genome α) : Prop :=
  INPUTS + OUTPUTS ≤ g.total_neurons ∧
    ∀ gene ∈ g.network, gene.from_ < g.total_neurons ∧ gene.to_ < g.total_neurons

/-- The evaluation-order invariant of a genome: every enabled gene runs from a lower to a
higher neuron index. -/
def Genome.Ordered (g : Genome α) : Prop :=
  ∀ gene ∈ g.network, gene.enabled = true → gene.from_ < gene.to_

/-- The innovation numbers of the genes of a genome are pairwise distinct. -/
def Genome.UniqueInnovations (g : Genome α) : Prop :=
  (g.network.map Gene.innovation).Nodup

instance (g : Genome α) : Decidable g.IndexBounds := by
  unfold Genome.IndexBounds; infer_instance

instance (g : Genome α) : Decidable g.Ordered := by
  unfold Genome.Ordered; infer_instance

instance (g : Genome α) : Decidable g.UniqueInnovations := by
  unfold Genome.UniqueInnovations; infer_instance

/-- The innovation invariant that holds between two gene constructions: the innovation
numbers of the genome are pairwise distinct and not greater than the counter, and the counter
can still issue `budget` numbers before the 32-bit increment wraps. -/
def Genome.FreshBelow (g : Genome α) (e : Env α) (budget : Nat) : Prop :=
  g.UniqueInnovations ∧ (∀ gene ∈ g.network, gene.innovation ≤ e.current_innovation) ∧
    e.current_innovation + budget < 2 ^ UINT_WIDTH

/-! ## Gym.hpp: Species and Gym -/

/-- `Gym::Species`. -/
structure Species (α : Type) where
  genomes : List (Genome α)

/-- `Gym`. -/
structure Gym (α : Type) where
  all_species : List (Species α)
  current_species : Nat
  current_genome : Nat
  generation : Nat
  top_fitness_genome : Genome α

/-- The `std::sort` call of `cullSpecies`, whose comparator is
`g1.getFitness() > g2.getFitness()`: the genomes in descending order of fitness.  `std::sort`
leaves the relative order of genomes of equal fitness unspecified; the embedding keeps it. -/
def sortByFitness (genomes : List (Genome α)) : List (Genome α) :=
  genomes.insertionSort (fun g1 g2 => g1.fitness ≥ g2.fitness)

/-- The loop of `Gym::cullSpecies` over `all_species`.  The `return` taken at a species of
exactly one genome leaves that species and all the species after it as they are. -/
def cullLoop (half_cull : Bool) : List (Species α) → List (Species α)
  | [] => []
  | species :: rest =>
    if species.genomes.length = 1 then species :: rest
    else
      let sorted := sortByFitness species.genomes
      let remaining := if half_cull then sorted.length / 2 else 1
      { genomes := sorted.take remaining } :: cullLoop half_cull rest

/-- `Gym::cullSpecies`. -/
def Gym.cullSpecies (gym : Gym α) (half_cull : Bool) : Gym α :=
  { gym with all_species := cullLoop half_cull gym.all_species }

instance : Inhabited (Genome α) := ⟨⟨0, 0, 0, []⟩⟩

instance : Inhabited (Species α) := ⟨⟨[]⟩⟩

/-- The width of `size_t` (64 bits on the platforms the driver is built for). -/
def SIZE_WIDTH : Nat := 64

/-- `Species::fromSpecies`: the caller's `disjoint` and `weights` start at `0`, and `compare` is
called on the first genome of the species. -/
def Species.fromSpecies (species : Species α) (genome : Genome α) : Bool :=
  let rating := (species.genomes.getD 0 default).compare genome 0 0
  decide (SPECIES_DELTA_DIJOINT α * rating.1 + SPECIES_DELTA_WEIGHTS α * rating.2
    < SPECIES_DELTA_THRESHOLD α)

/-- `Species::averageFitness`. -/
def Species.averageFitness (species : Species α) : α :=
  let total := species.genomes.foldl (fun total genome => total + genome.fitness) 0
  if species.genomes.isEmpty then total else total / (species.genomes.length : α)

/-- `Species::speciesBreedCount`: the floor is cast to `size_t` and `1` is subtracted in
`size_t` arithmetic, which wraps when the floor is `0`. -/
def Species.speciesBreedCount [FloorRing α] (species : Species α)
    (total_average_fitness : α) : Nat :=
  (Nat.floor (species.averageFitness / total_average_fitness * (GYM_POPULATION : α))
    + 2 ^ SIZE_WIDTH - 1) % 2 ^ SIZE_WIDTH

/-- `Species::breedChild`. -/
def Species.breedChild [FloorRing α] (species : Species α) (e : Env α) : Genome α × Env α :=
  let parent_one := species.genomes.getD 0 default
  let draw1 := generateRandom e
  if draw1.1 < CROSSOVER_CHANCE α then
    let draw2 := generateRandom draw1.2
    let parent_index_two := randomIndex draw2.1 species.genomes.length
    let parent_two := species.genomes.getD parent_index_two default
    parent_one.crossover parent_two draw2.2
  else (parent_one, draw1.2)

/-- `Gym::currentGenome`. -/
def Gym.currentGenome (gym : Gym α) : Genome α :=
  (gym.all_species.getD gym.current_species default).genomes.getD gym.current_genome default

/-- The loop of `Gym::addGenomeToRespectiveSpecies` over `all_species`, and the new species
created when the loop finds no match. -/
def addToSpecies (genome : Genome α) : List (Species α) → List (Species α)
  | [] => [{ genomes := [genome] }]
  | species :: rest =>
    if species.fromSpecies genome then { genomes := species.genomes ++ [genome] } :: rest
    else species :: addToSpecies genome rest

/-- `Gym::addGenomeToRespectiveSpecies`. -/
def Gym.addGenomeToRespectiveSpecies (gym : Gym α) (genome : Genome α) : Gym α :=
  { gym with all_species := addToSpecies genome gym.all_species }

/-- The `std::sort` call of `removeStaleSpecies`, whose comparator is
`s1.genomes[ 0 ].getFitness() > s2.genomes[ 0 ].getFitness()`: the species in descending order
of the fitness of their first genome (species of equal rank keep their order). -/
def sortSpecies (all_species : List (Species α)) : List (Species α) :=
  all_species.insertionSort
    (fun s1 s2 => (s1.genomes.getD 0 default).fitness ≥ (s2.genomes.getD 0 default).fitness)

instance : IsTotal (Species α)
    (fun s1 s2 => (s1.genomes.getD 0 default).fitness ≥ (s2.genomes.getD 0 default).fitness) :=
  ⟨fun s1 s2 => le_total _ _⟩

instance : IsTrans (Species α)
    (fun s1 s2 => (s1.genomes.getD 0 default).fitness ≥ (s2.genomes.getD 0 default).fitness) :=
  ⟨fun _ _ _ h1 h2 => le_trans h2 h1⟩

instance : IsTotal (Genome α) (fun g1 g2 => g1.fitness ≥ g2.fitness) :=
  ⟨fun g1 g2 => le_total _ _⟩

instance : IsTrans (Genome α) (fun g1 g2 => g1.fitness ≥ g2.fitness) :=
  ⟨fun _ _ _ h1 h2 => le_trans h2 h1⟩

/-- `Gym::removeStaleSpecies`: the erase loop starts at the second species. -/
def Gym.removeStaleSpecies (gym : Gym α) : Gym α :=
  if gym.all_species.length = 1 then gym
  else
    match sortSpecies gym.all_species with
    | [] => { gym with all_species := [] }
    | first :: rest =>
      { gym with all_species :=
          first :: rest.filter (fun species =>
            ¬ species.genomes.length < SPECIES_STALE_THRESHOLD) }

/-- `Gym::totalAverageFitness`. -/
def Gym.totalAverageFitness (gym : Gym α) : α :=
  gym.all_species.foldl (fun total species => total + species.averageFitness) 0

/-- `Gym::removeWeakSpecies`: the total is computed once, and the erase loop starts at the
second species. -/
def Gym.removeWeakSpecies [FloorRing α] (gym : Gym α) : Gym α :=
  if gym.all_species.length = 1 then gym
  else
    let total_average_fitness := gym.totalAverageFitness
    match gym.all_species with
    | [] => gym
    | first :: rest =>
      { gym with all_species :=
          first :: rest.filter (fun species =>
            ¬ species.speciesBreedCount total_average_fitness < SPECIES_BREED_THRESHOLD) }

/-- The inner loop of `breedChildren`: `breedCount` children of one species. -/
def breedLoop [FloorRing α] (species : Species α) : Nat → Env α → List (Genome α) × Env α
  | 0, e => ([], e)
  | breedCount + 1, e =>
    let child := species.breedChild e
    let more := breedLoop species breedCount child.2
    (child.1 :: more.1, more.2)

/-- The outer loop of `breedChildren` over `all_species`. -/
def breedAll [FloorRing α] (total_average_fitness : α) :
    List (Species α) → Env α → List (Genome α) × Env α
  | [], e => ([], e)
  | species :: rest, e =>
    let mine := breedLoop species (species.speciesBreedCount total_average_fitness) e
    let others := breedAll total_average_fitness rest mine.2
    (mine.1 ++ others.1, others.2)

/-- `Gym::breedChildren`. -/
def Gym.breedChildren [FloorRing α] (gym : Gym α) (e : Env α) : List (Genome α) × Env α :=
  breedAll gym.totalAverageFitness gym.all_species e

/-- The "add mutated children to species" loop of `advanceGeneration`; `none` when an
assertion of `mutate` fails. -/
def injectChildren [FloorRing α] :
    List (Genome α) → Gym α → Env α → Option (Gym α × Env α)
  | [], gym, e => some (gym, e)
  | child :: rest, gym, e =>
    match child.mutate e with
    | none => none
    | some mutated => injectChildren rest (gym.addGenomeToRespectiveSpecies mutated.1) mutated.2

/-- The last loop of `advanceGeneration`: every genome is stamped with the generation. -/
def stampGeneration (generation : Nat) (all_species : List (Species α)) : List (Species α) :=
  all_species.map (fun species =>
    { genomes := species.genomes.map (fun genome => { genome with generation := generation }) })

/-- The gym at the point where `advanceGeneration` takes its snapshot: species culled by
half, stale species removed, weak species removed, and `top_fitness_genome` overwritten with
`all_species[ 0 ].genomes[ 0 ]`. -/
def Gym.snapshot [FloorRing α] (gym : Gym α) : Gym α :=
  let culled := ((gym.cullSpecies true).removeStaleSpecies).removeWeakSpecies
  { culled with
    top_fitness_genome := (culled.all_species.getD 0 default).genomes.getD 0 default }

/-- `Gym::advanceGeneration`; `none` when its assertion or one of `mutate` fails.  The file
written by `serialize( false )` is the text of `(gym.snapshot).top_fitness_genome`. -/
def Gym.advanceGeneration [FloorRing α] (gym : Gym α) (e : Env α) : Option (Gym α × Env α) :=
  if gym.all_species.isEmpty then none
  else
    let snapshot := gym.snapshot
    let children := snapshot.breedChildren e
    match injectChildren children.1 (snapshot.cullSpecies false) children.2 with
    | none => none
    | some injected =>
      let generation := injected.1.generation + 1
      some ({ injected.1 with
              generation := generation
              all_species := stampGeneration generation injected.1.all_species }, injected.2)

/-- `Gym::appraiseCurrent`: `currentGenome().setFitness( fitness )`. -/
def Gym.appraiseCurrent (gym : Gym α) (fitness : α) : Gym α :=
  let species := gym.all_species.getD gym.current_species default
  let genome := species.genomes.getD gym.current_genome default
  { gym with
    all_species := gym.all_species.set gym.current_species
      { genomes := species.genomes.set gym.current_genome { genome with fitness := fitness } } }

/-- `Gym::advanceInTrain`; `none` when an assertion of `advanceGeneration` fails. -/
def Gym.advanceInTrain [FloorRing α] (gym : Gym α) (e : Env α) : Option (Gym α × Env α) :=
  let current_genome := gym.current_genome + 1
  if current_genome < (gym.all_species.getD gym.current_species default).genomes.length then
    some ({ gym with current_genome := current_genome }, e)
  else
    let current_species := gym.current_species + 1
    if current_species < gym.all_species.length then
      some ({ gym with current_species := current_species, current_genome := 0 }, e)
    else
      Gym.advanceGeneration { gym with current_species := 0, current_genome := 0 } e

/-- A caller that calls `Gym::advanceInTrain` `calls` times in a row. -/
def advanceInTrainTimes [FloorRing α] : Nat → Gym α → Env α → Option (Gym α × Env α)
  | 0, gym, e => some (gym, e)
  | calls + 1, gym, e =>
    match advanceInTrainTimes calls gym e with
    | none => none
    | some state => state.1.advanceInTrain state.2

/-- The population loop of the constructor `Gym::Gym`, with `individuals` iterations to go;
`none` when its assertion or one of `mutate` fails. -/
def populate [FloorRing α] : Nat → Gym α → Env α → Option (Gym α × Env α)
  | 0, gym, e => some (gym, e)
  | individuals + 1, gym, e =>
    let new_genome := gym.top_fitness_genome
    if ¬ (new_genome.network.length = gym.top_fitness_genome.network.length ∧
        new_genome.total_neurons = gym.top_fitness_genome.total_neurons) then none
    else
      match new_genome.mutate e with
      | none => none
      | some mutated =>
        populate individuals (gym.addGenomeToRespectiveSpecies mutated.1) mutated.2

/-- `Gym::Gym`.  `file` is the text of `genomes/top_genome_final.txt` when that file can be
opened. -/
def Gym.ctor [FloorRing α] (file : Option (GenomeFile α)) (e : Env α) :
    Option (Gym α × Env α) :=
  let top := Genome.ctor true file e
  populate GYM_POPULATION
    { all_species := []
      current_species := 0
      current_genome := 0
      generation := top.1.generation
      top_fitness_genome := top.1 } top.2

/-- `Gym::~Gym`: the name and the text of the file the destructor writes. -/
def Gym.dtor [FloorRing α] (gym : Gym α) : Bool × GenomeFile α :=
  if gym.top_fitness_genome.fitness < gym.currentGenome.fitness then
    gym.currentGenome.serialize true
  else gym.top_fitness_genome.serialize true

/-- The gym states a client can reach: construction, then any sequence of calls of
`appraiseCurrent` and `advanceInTrain` (the other public members are `const`). -/
inductive Gym.Reachable [FloorRing α] : Gym α → Env α → Prop
  | construct (file : Option (GenomeFile α)) (e : Env α) (gym : Gym α) (e1 : Env α) :
      Gym.ctor file e = some (gym, e1) → Gym.Reachable gym e1
  | appraise (gym : Gym α) (e : Env α) (fitness : α) :
      Gym.Reachable gym e → Gym.Reachable (gym.appraiseCurrent fitness) e
  | advance (gym : Gym α) (e : Env α) (gym1 : Gym α) (e1 : Env α) :
      Gym.Reachable gym e → gym.advanceInTrain e = some (gym1, e1) → Gym.Reachable gym1 e1

/-- The non-emptiness invariant of a gym: at least one species, and at least one genome in
every species. -/
def Gym.NonEmpty (gym : Gym α) : Prop :=
  gym.all_species ≠ [] ∧ ∀ species ∈ gym.all_species, species.genomes ≠ []

/-- The number of genomes of a gym. -/
def Gym.population (gym : Gym α) : Nat :=
  (gym.all_species.map (fun species => species.genomes.length)).sum

/-! ### The generational loop as the specification words it

The stages of §4.4 of the specification, each written from its sentence there (and from §4.3
and §9 where §4.4 refers to them), not from the member functions of the source.  What the
specification leaves to the operations on one species or one genome (`breed_child`, `mutate`,
`add_to_respective_species`, `average_fitness`, the stable descending sorts) is taken from the
embedding of these operations. -/

/-- Stage 1, half-cull: "For every species with ≥2 members: sort descending by fitness, retain
the top half (`⌊n/2⌋`)"; by §9 a singleton species is "a per-species continue, not a global
break". -/
def specHalfCull (all_species : List (Species α)) : List (Species α) :=
  all_species.map (fun species =>
    if 2 ≤ species.genomes.length then
      { genomes := (sortByFitness species.genomes).take (species.genomes.length / 2) }
    else species)

/-- Stage 2, remove-stale: "Sort species descending by their champion's fitness.  Starting
from the second species, drop every species whose member count is
`< SPECIES_STALE_THRESHOLD`." -/
def specRemoveStale (all_species : List (Species α)) : List (Species α) :=
  match sortSpecies all_species with
  | [] => []
  | first :: rest =>
    first :: rest.filter (fun species => ¬ species.genomes.length < SPECIES_STALE_THRESHOLD)

/-- The breed count of §4.3: "`floor((avg / total_avg) · GYM_POPULATION) − 1`, clamped at 0". -/
def specBreedCount [FloorRing α] (species : Species α) (total_avg : α) : Nat :=
  Nat.floor (species.averageFitness / total_avg * (GYM_POPULATION : α)) - 1

/-- Stage 4, remove-weak: "Compute `total_avg = Σ avg_fitness(s)`.  From the second species
onward, drop every species whose `species_breed_count(total_avg) < SPECIES_BREED_THRESHOLD`." -/
def specRemoveWeak [FloorRing α] (all_species : List (Species α)) : List (Species α) :=
  match all_species with
  | [] => []
  | first :: rest =>
    first :: rest.filter (fun species =>
      ¬ specBreedCount species (all_species.map Species.averageFitness).sum
        < SPECIES_BREED_THRESHOLD)

/-- Stage 5, breed: "For each surviving species, request `species_breed_count` children and
collect them", the count being taken against the total of the surviving species. -/
def specBreed [FloorRing α] (total_avg : α) :
    List (Species α) → Env α → List (Genome α) × Env α
  | [], e => ([], e)
  | species :: rest, e =>
    let mine := breedLoop species (specBreedCount species total_avg) e
    let others := specBreed total_avg rest mine.2
    (mine.1 ++ others.1, others.2)

/-- Stage 6, full-cull: "Reduce every species to its single top genome." -/
def specFullCull (all_species : List (Species α)) : List (Species α) :=
  all_species.map (fun species => { genomes := (sortByFitness species.genomes).take 1 })

/-- The eight stages of §4.4 in the order of the specification: half-cull, remove-stale,
snapshot champion (stage 3: "Copy `all_species[0].genomes[0]` into `top_fitness_genome`"),
remove-weak, breed, full-cull, re-inject (stage 7: "Mutate each child and
`add_to_respective_species`") and stage 8: "Increment `generation`; stamp every genome's
`generation` field." -/
def Gym.specifiedPipeline [FloorRing α] (gym : Gym α) (e : Env α) : Option (Gym α × Env α) :=
  let fresh := specRemoveStale (specHalfCull gym.all_species)
  let champion := (fresh.getD 0 default).genomes.getD 0 default
  let strong := specRemoveWeak fresh
  let children := specBreed (strong.map Species.averageFitness).sum strong e
  match injectChildren children.1
      { gym with all_species := specFullCull strong, top_fitness_genome := champion }
      children.2 with
  | none => none
  | some injected =>
    let generation := injected.1.generation + 1
    some ({ injected.1 with
            generation := generation
            all_species := stampGeneration generation injected.1.all_species }, injected.2)

/-! ### The network function of the specification -/

/-- The recursion behind `val`, made structural by a bound `fuel` on its depth: with no fuel
left the value is `0`. -/
def valFuel (exp : α → α) (network : List (Gene α)) (inputs : Fin INPUTS → α) :
    Nat → Nat → α
  | 0, _ => 0
  | fuel + 1, i =>
    if h : i < INPUTS then inputs ⟨i, h⟩
    else if (network.filter (fun g => g.to_ = i)).isEmpty then 0
    else
      SIGMOID_RANGE α / (1 + exp (SIGMOID_GROWTH_RATE α *
        (((network.filter (fun g => g.to_ = i)).filter (fun g => g.enabled)).map
          (fun g => valFuel exp network inputs fuel g.from_ * g.weight)).sum)) + SIGMOID_OFFSET α

/-- The network function as the specification defines it: `val i = inputs[i]` for an input
neuron, `val i = 0` for a neuron no gene targets, and otherwise the sigmoid of the sum of
`val g.from * g.weight` over the enabled genes `g` with `g.to = i`.  Neuron `i` gets fuel
`i + 1`, which is enough whenever the sources of the enabled genes precede their targets
(`val_eq`). -/
def val (exp : α → α) (network : List (Gene α)) (inputs : Fin INPUTS → α) (i : Nat) : α :=
  valFuel exp network inputs (i + 1) i

/-! ### Concrete data used by the witnesses -/

/-- A genome over `ℚ` with the single enabled gene `0 → 76` of weight `1/2`. -/
def oneGeneGenome : Genome ℚ := ⟨0, 0, 82, [⟨1, 0, 76, 1 / 2, true⟩]⟩

/-- The input vector whose entries are all `1/2`. -/
def halfInputs : Fin INPUTS → ℚ := fun _ => 1 / 2

/-- The output array whose entries are all `0`. -/
def zeroOutputs : Fin OUTPUTS → ℚ := fun _ => 0

/-- A nonnegative stand-in for the exponential on `ℚ`. -/
def constExp : ℚ → ℚ := fun _ => 1

/-- The stream `1/2, 0, 0, 0, 0, 1/2, 1/2, ...`: under it `mutate` performs a node mutation
and nothing else. -/
def nodeDraws : Nat → ℚ := fun n => if n = 0 then 1 / 2 else if n ≤ 4 then 0 else 1 / 2

/-- The one-gene genome `0 → 76` whose weight is `2⁻²⁰`, a value of type `float`. -/
def tinyWeightGenome : Genome ℚ := ⟨0, 0, 82, [⟨1, 0, 76, 1 / 1048576, true⟩]⟩

/-- A genome over `ℚ` without genes, of the given fitness. -/
def bareGenome (fitness : ℚ) : Genome ℚ := ⟨fitness, 0, 82, []⟩

/-- A gym whose first species holds one genome and whose second species holds four, stored in
ascending order of fitness. -/
def singletonFirstGym : Gym ℚ :=
  { all_species :=
      [⟨[bareGenome 5]⟩, ⟨[bareGenome 1, bareGenome 2, bareGenome 3, bareGenome 4]⟩]
    current_species := 0
    current_genome := 0
    generation := 0
    top_fitness_genome := bareGenome 5 }

/-- A genome over `ℚ` without genes. -/
def emptyGenome : Genome ℚ := ⟨0, 0, 82, []⟩

/-- A one-gene genome whose gene `1 → 76` has the innovation number `2`. -/
def secondGeneGenome : Genome ℚ := ⟨0, 0, 82, [⟨2, 1, 76, 1 / 2, true⟩]⟩

/-- The stream whose values are all `1/2`: under it `mutate` performs no mutation and
`breedChild` always takes the crossover branch. -/
def halfDraws : Nat → ℚ := fun _ => 1 / 2

/-- A gym of 12 genomes: a first species of two genomes of fitness `75` and a second species
of ten genomes of fitness `25`. -/
def budgetGym : Gym ℚ :=
  { all_species := [⟨[bareGenome 75, bareGenome 75]⟩, ⟨List.replicate 10 (bareGenome 25)⟩]
    current_species := 0
    current_genome := 0
    generation := 0
    top_fitness_genome := bareGenome 75 }

/-- A gym whose first species holds one genome of fitness `0` and whose second species holds
five genomes, the fittest of which is stored second. -/
def unsortedGym : Gym ℚ :=
  { all_species :=
      [⟨[bareGenome 0]⟩,
        ⟨[bareGenome 1, bareGenome 9, bareGenome 1, bareGenome 1, bareGenome 1]⟩]
    current_species := 0
    current_genome := 0
    generation := 0
    top_fitness_genome := bareGenome 9 }

/-- A gym of one species of two genomes of fitness `1` whose stored champion has fitness
`5`. -/
def fadedGym : Gym ℚ :=
  { all_species := [⟨[bareGenome 1, bareGenome 1]⟩]
    current_species := 0
    current_genome := 0
    generation := 1
    top_fitness_genome := bareGenome 5 }


/-- A genome whose two genes carry the same innovation number and the weights `-1` and `1`. -/
def twinGenome : Genome ℚ := ⟨0, 0, 82, [⟨1, 0, 76, -1, true⟩, ⟨1, 1, 76, 1, true⟩]⟩

/-- A gym without species. -/
def emptyGym : Gym ℚ :=
  { all_species := []
    current_species := 0
    current_genome := 0
    generation := 0
    top_fitness_genome := emptyGenome }

/-- A champion file of one gene `0 → 76`: generation `3`, fitness `7`, `82` neurons. -/
def championFile : GenomeFile ℚ :=
  { generation := 3, fitness := 7, total_neurons := 82, tokens := [0, 76, 1 / 2, 1] }

/-- A gym of three genomes in two species, with its cursor on the first genome. -/
def walkGym : Gym ℚ :=
  { all_species := [⟨[bareGenome 1, bareGenome 2]⟩, ⟨[bareGenome 3]⟩]
    current_species := 0
    current_genome := 0
    generation := 0
    top_fitness_genome := bareGenome 3 }

/-- The default genome as the constructor builds it in a fresh process when every draw is
`1/2`: each weight is `1/2 * LINK_RANGE + LINK_OFFSET = 0`. -/
def zeroWeightGenome : Genome ℚ := (Genome.ctor true none ⟨halfDraws, 0, 0⟩).1

/-- A one-gene genome that has reached the neuron limit. -/
def limitGenome : Genome ℚ := ⟨0, 0, 1000, [⟨1, 0, 994, 1 / 2, true⟩]⟩

/-- The number of cursor positions that come before `(species, genome)` in lexicographic
order: the genomes of the species before `species`, and `genome` genomes of that species. -/
def Gym.rank {α : Type} (gym : Gym α) (species genome : Nat) : Nat :=
  ((gym.all_species.map (fun species => species.genomes.length)).take species).sum + genome

/-- A genome whose only gene runs from the first non-input neuron to the first input neuron,
as the second gene of a node mutation does. -/
def reversedGenome : Genome ℚ := ⟨0, 0, 82, [⟨1, 76, 0, 1 / 2, true⟩]⟩

/-- A stream for a fresh process: `1/2` while the default genome is built (draws `0..455`),
then a `mutate` that performs a node mutation on the first gene and nothing else (draws
`456..462`), then a draw that picks the last gene of the network. -/
def inputShiftDraws : Nat → ℚ := fun n =>
  if n < 457 then 1 / 2 else if n < 461 then 0 else if n < 463 then 1 / 2 else 915 / 916

/-- A genome of three genes with the innovation numbers `1, 2, 3` and the `float` weights
`0.1f`, `0.2f` and `1.0f`. -/
def decimalGenome : Genome ℚ :=
  ⟨0, 0, 82, [⟨1, 0, 76, toFloat32 (1 / 10), true⟩, ⟨2, 1, 76, toFloat32 (1 / 5), true⟩,
    ⟨3, 2, 76, 1, true⟩]⟩

/-- The three genes of `decimalGenome` with weight `0`, in the same order. -/
def alignedGenome : Genome ℚ :=
  ⟨0, 0, 82, [⟨1, 0, 76, 0, true⟩, ⟨2, 1, 76, 0, true⟩, ⟨3, 2, 76, 0, true⟩]⟩

/-- The three genes of `decimalGenome` with weight `0`, in the opposite order. -/
def oppositeGenome : Genome ℚ :=
  ⟨0, 0, 82, [⟨3, 2, 76, 0, true⟩, ⟨2, 1, 76, 0, true⟩, ⟨1, 0, 76, 0, true⟩]⟩

/-- A genome of generation `2 ^ 24 + 1` without genes. -/
def lateGenome : Genome ℚ := ⟨0, 16777217, 82, []⟩

/-- A genome of one gene whose weight is the `float` `0.1f`, with the `float` fitness `2⁻⁷`. -/
def tenthGenome : Genome ℚ := ⟨1 / 128, 3, 82, [⟨1, 0, 76, toFloat32 (1 / 10), true⟩]⟩
/-! ## The binary32 conversion -/

theorem roundHalfEven_intCast [FloorRing α] (z : Int) : roundHalfEven (z : α) = z := by
  unfold roundHalfEven
  rw [Int.floor_intCast, sub_self, if_pos (by norm_num)]

/-- Rounding to the nearest integer moves a number by at most one half. -/
theorem abs_sub_roundHalfEven [FloorRing α] (x : α) :
    |x - (roundHalfEven x : α)| ≤ 1 / 2 := by
  have h1 := Int.floor_le x
  have h2 := Int.lt_floor_add_one x
  unfold roundHalfEven
  split_ifs with c1 c2 c3
  · rw [abs_le]
    constructor <;> linarith
  · push_cast
    rw [abs_le]
    constructor <;> linarith
  · rw [abs_le]
    have := not_lt.1 c2
    constructor <;> linarith
  · push_cast
    rw [abs_le]
    have := not_lt.1 c1
    constructor <;> linarith

theorem twoPow_of_nonpos (k : Int) (hk : k ≤ 0) : (twoPow k : α) = 1 / 2 ^ (-k).toNat := by
  unfold twoPow
  split_ifs with h
  · have h0 : k = 0 := le_antisymm hk h
    subst h0
    simp
  · rfl

theorem roundMagnitude_zero [FloorRing α] : roundMagnitude (0 : α) = 0 := by
  unfold roundMagnitude
  rw [zero_div]
  have h := roundHalfEven_intCast (α := α) 0
  rw [Int.cast_zero] at h
  rw [h, Int.cast_zero, zero_mul]

/-- The conversion to binary32 commutes with the change of sign. -/
theorem toFloat32_neg [FloorRing α] (x : α) : toFloat32 (-x) = -toFloat32 x := by
  unfold toFloat32
  rcases lt_trichotomy x 0 with h | h | h
  · rw [if_pos h, if_neg (not_lt.2 (le_of_lt (neg_pos.2 h))), neg_neg]
  · subst h
    simp [roundMagnitude_zero]
  · rw [if_pos (neg_lt_zero.2 h), if_neg (not_lt.2 (le_of_lt h)), neg_neg]

theorem log2Fuel_le (fuel n k : Nat) (h : n < 2 ^ (k + 1)) : log2Fuel fuel n ≤ k := by
  induction fuel generalizing n k with
  | zero => exact Nat.zero_le _
  | succ fuel ih =>
    unfold log2Fuel
    split_ifs with h2
    · exact Nat.zero_le _
    · cases k with
      | zero =>
        exfalso
        simp at h
        omega
      | succ k =>
        have := ih (n / 2) k (by rw [pow_succ] at h; omega)
        omega

/-- Every natural number below `2 ^ 24` is a binary32 number. -/
theorem toFloat32_natCast [FloorRing α] (n : Nat) (hn : n < 2 ^ 24) :
    toFloat32 (n : α) = n := by
  unfold toFloat32
  rw [if_neg (not_lt.2 (Nat.cast_nonneg n))]
  unfold roundMagnitude
  have hfloor : Nat.floor ((n : α) * 2 ^ 149) = n * 2 ^ 149 := by
    have : (n : α) * 2 ^ 149 = ((n * 2 ^ 149 : Nat) : α) := by push_cast; ring
    rw [this, Nat.floor_natCast]
  have hlog : log2Fuel (n * 2 ^ 149) (n * 2 ^ 149) ≤ 172 := by
    apply log2Fuel_le
    calc n * 2 ^ 149 < 2 ^ 24 * 2 ^ 149 := Nat.mul_lt_mul_of_pos_right hn (by positivity)
      _ = 2 ^ (172 + 1) := by rw [← pow_add]
  have hexp : float32Exponent (n : α) - 23 ≤ 0 := by
    unfold float32Exponent
    rw [hfloor]
    have : ((log2Fuel (n * 2 ^ 149) (n * 2 ^ 149) : Nat) : Int) ≤ 172 := by exact_mod_cast hlog
    have := max_le (a := ((log2Fuel (n * 2 ^ 149) (n * 2 ^ 149) : Nat) : Int) - 149)
      (b := -126) (c := 23) (by omega) (by omega)
    omega
  rw [twoPow_of_nonpos _ hexp]
  have hcast : (n : α) / (1 / 2 ^ (-(float32Exponent (n : α) - 23)).toNat) =
      (((n * 2 ^ (-(float32Exponent (n : α) - 23)).toNat : Nat) : Int) : α) := by
    push_cast
    rw [div_div_eq_mul_div, div_one]
  rw [hcast, roundHalfEven_intCast]
  push_cast
  have hpos : (2 : α) ^ (-(float32Exponent (n : α) - 23)).toNat ≠ 0 := by positivity
  field_simp

theorem stof_natCast [FloorRing α] (n : Nat) (hn : n < 2 ^ 24) :
    Nat.floor (stof (n : α)) = n := by
  unfold stof
  rw [toFloat32_natCast n hn, Nat.floor_natCast]

/-- `std::to_string` moves a `float` by at most half a millionth. -/
theorem abs_sub_floatToString [FloorRing α] (x : α) :
    |x - floatToString x| ≤ 5 / 10000000 := by
  unfold floatToString
  have h2 := abs_sub_roundHalfEven (x * 1000000)
  have h3 : x - (roundHalfEven (x * 1000000) : α) / 1000000 =
      (x * 1000000 - roundHalfEven (x * 1000000)) / 1000000 := by ring
  rw [h3, abs_div, abs_of_pos (by norm_num : (0 : α) < 1000000), div_le_iff₀ (by norm_num)]
  calc |x * 1000000 - ↑(roundHalfEven (x * 1000000))| ≤ 1 / 2 := h2
    _ = 5 / 10000000 * 1000000 := by norm_num


/-! ## Lemmas on the neuron vector -/

theorem setValue_length (ns : List (Neuron α)) (i : Nat) (v : α) :
    (setValue ns i v).length = ns.length := by
  simp [setValue]

theorem valueAt_setValue (ns : List (Neuron α)) (i j : Nat) (v : α) :
    valueAt (setValue ns i v) j = if j = i ∧ i < ns.length then v else valueAt ns j := by
  unfold valueAt setValue
  simp only [List.getD_eq_getElem?_getD, List.getElem?_set]
  by_cases hji : i = j
  · subst hji
    by_cases hl : i < ns.length
    · simp [hl]
    · simp [hl, List.getElem?_eq_none (Nat.le_of_not_lt hl)]
  · have : ¬ j = i := fun h => hji h.symm
    simp [hji, this]

theorem incoming_setValue (ns : List (Neuron α)) (i j : Nat) (v : α) :
    ((setValue ns i v).getD j default).incoming = (ns.getD j default).incoming := by
  unfold setValue
  simp only [List.getD_eq_getElem?_getD, List.getElem?_set]
  by_cases hji : i = j
  · subst hji
    by_cases hl : i < ns.length
    · simp [hl]
    · simp [hl, List.getElem?_eq_none (Nat.le_of_not_lt hl)]
  · simp [hji]

theorem sumIncoming_length (index : Nat) (inc : List (Gene α)) (ns : List (Neuron α)) :
    (sumIncoming index inc ns).length = ns.length := by
  induction inc generalizing ns with
  | nil => rfl
  | cons g rest ih =>
    simp only [sumIncoming]
    rw [ih]
    split <;> simp [setValue_length]

theorem valueAt_sumIncoming_of_ne (index j : Nat) (hj : j ≠ index) (inc : List (Gene α))
    (ns : List (Neuron α)) : valueAt (sumIncoming index inc ns) j = valueAt ns j := by
  induction inc generalizing ns with
  | nil => rfl
  | cons g rest ih =>
    simp only [sumIncoming]
    rw [ih]
    split
    · rw [valueAt_setValue]; simp [hj]
    · rfl

theorem incoming_sumIncoming (index j : Nat) (inc : List (Gene α)) (ns : List (Neuron α)) :
    ((sumIncoming index inc ns).getD j default).incoming = (ns.getD j default).incoming := by
  induction inc generalizing ns with
  | nil => rfl
  | cons g rest ih =>
    simp only [sumIncoming]
    rw [ih]
    split
    · rw [incoming_setValue]
    · rfl

theorem valueAt_of_length_le (ns : List (Neuron α)) (j : Nat) (h : ns.length ≤ j) :
    valueAt ns j = 0 := by
  unfold valueAt
  rw [List.getD_eq_default _ _ h]
  rfl


theorem updateNeuron_length (exp : α → α) (ns : List (Neuron α)) (i : Nat) :
    (updateNeuron exp ns i).length = ns.length := by
  unfold updateNeuron
  simp only
  split
  · rfl
  · rw [setValue_length, sumIncoming_length]

theorem incoming_updateNeuron (exp : α → α) (ns : List (Neuron α)) (i j : Nat) :
    ((updateNeuron exp ns i).getD j default).incoming = (ns.getD j default).incoming := by
  unfold updateNeuron
  simp only
  split
  · rfl
  · rw [incoming_setValue, incoming_sumIncoming]

theorem valueAt_updateNeuron_of_ne (exp : α → α) (ns : List (Neuron α)) (i j : Nat)
    (hj : j ≠ i) : valueAt (updateNeuron exp ns i) j = valueAt ns j := by
  unfold updateNeuron
  simp only
  split
  · rfl
  · rw [valueAt_setValue, valueAt_sumIncoming_of_ne i j hj]
    simp [hj]

theorem valueAt_updateNeuron_self (exp : α → α) (ns : List (Neuron α)) (i : Nat)
    (hi : i < ns.length) :
    valueAt (updateNeuron exp ns i) i =
      if (ns.getD i default).incoming.isEmpty then valueAt ns i
      else sigmoid exp (valueAt (sumIncoming i (ns.getD i default).incoming ns) i) := by
  unfold updateNeuron
  simp only
  split
  · rfl
  · rw [valueAt_setValue]
    simp [sumIncoming_length, hi]

/-- The sigmoid of `evaluate` takes its values in `[-1, 1]` as soon as `exp` is nonnegative. -/
theorem sigmoid_range (exp : α → α) (hexp : ∀ x, 0 ≤ exp x) (x : α) :
    -1 ≤ sigmoid exp x ∧ sigmoid exp x ≤ 1 := by
  unfold sigmoid SIGMOID_RANGE SIGMOID_GROWTH_RATE SIGMOID_OFFSET
  have h := hexp (-(49 / 10) * x)
  have hpos : (0 : α) < 1 + exp (-(49 / 10) * x) := by linarith
  constructor
  · have : (0 : α) ≤ 2 / (1 + exp (-(49 / 10) * x)) := by positivity
    linarith
  · have : (2 : α) / (1 + exp (-(49 / 10) * x)) ≤ 2 := by
      rw [div_le_iff₀ hpos]
      linarith
    linarith

theorem updateNeuron_range (exp : α → α) (hexp : ∀ x, 0 ≤ exp x) (ns : List (Neuron α))
    (i j : Nat) (h : -1 ≤ valueAt ns j ∧ valueAt ns j ≤ 1) :
    -1 ≤ valueAt (updateNeuron exp ns i) j ∧ valueAt (updateNeuron exp ns i) j ≤ 1 := by
  by_cases hj : j = i
  · subst hj
    by_cases hl : j < ns.length
    · rw [valueAt_updateNeuron_self exp ns j hl]
      split
      · exact h
      · exact sigmoid_range exp hexp _
    · rw [valueAt_of_length_le _ _ (by rw [updateNeuron_length]; omega)]
      constructor <;> norm_num
  · rw [valueAt_updateNeuron_of_ne exp ns i j hj]
    exact h

theorem foldl_updateNeuron_range (exp : α → α) (hexp : ∀ x, 0 ≤ exp x) (l : List Nat)
    (ns : List (Neuron α)) (j : Nat) (h : -1 ≤ valueAt ns j ∧ valueAt ns j ≤ 1) :
    -1 ≤ valueAt (l.foldl (updateNeuron exp) ns) j ∧
      valueAt (l.foldl (updateNeuron exp) ns) j ≤ 1 := by
  induction l generalizing ns with
  | nil => exact h
  | cons i rest ih => exact ih _ (updateNeuron_range exp hexp ns i j h)

/-! ### The neuron vector before the update loop -/

theorem foldl_setValue_length (inputs : Fin INPUTS → α) (l : List (Fin INPUTS))
    (ns : List (Neuron α)) :
    (l.foldl (fun ns index => setValue ns index.val (inputs index)) ns).length = ns.length := by
  induction l generalizing ns with
  | nil => rfl
  | cons i rest ih => simp only [List.foldl_cons]; rw [ih, setValue_length]

theorem foldl_setValue_incoming (inputs : Fin INPUTS → α) (l : List (Fin INPUTS))
    (ns : List (Neuron α)) (j : Nat) :
    ((l.foldl (fun ns index => setValue ns index.val (inputs index)) ns).getD j default).incoming
      = (ns.getD j default).incoming := by
  induction l generalizing ns with
  | nil => rfl
  | cons i rest ih => simp only [List.foldl_cons]; rw [ih, incoming_setValue]

theorem foldl_setValue_of_ge (inputs : Fin INPUTS → α) (l : List (Fin INPUTS))
    (ns : List (Neuron α)) (j : Nat) (hj : INPUTS ≤ j) :
    valueAt (l.foldl (fun ns index => setValue ns index.val (inputs index)) ns) j
      = valueAt ns j := by
  induction l generalizing ns with
  | nil => rfl
  | cons i rest ih =>
    simp only [List.foldl_cons]
    rw [ih, valueAt_setValue]
    have : ¬ j = i.val := by have := i.isLt; omega
    simp [this]

theorem foldl_setValue_of_mem (inputs : Fin INPUTS → α) (l : List (Fin INPUTS))
    (ns : List (Neuron α)) (j : Fin INPUTS) (hj : j ∈ l) (hl : j.val < ns.length) :
    valueAt (l.foldl (fun ns index => setValue ns index.val (inputs index)) ns) j.val
      = inputs j := by
  induction l using List.reverseRecOn with
  | nil => simp at hj
  | append_singleton rest i ih =>
    rw [List.foldl_append]
    simp only [List.foldl_cons, List.foldl_nil]
    rw [valueAt_setValue, foldl_setValue_length]
    by_cases hji : j = i
    · subst hji; simp [hl]
    · have hv : ¬ j.val = i.val := fun h => hji (Fin.ext h)
      simp only [hv, false_and, if_false]
      apply ih
      simpa [hji] using hj

theorem loadedNeurons_length (g : Genome α) (inputs : Fin INPUTS → α) :
    (loadedNeurons g inputs).length = g.total_neurons := by
  unfold loadedNeurons
  rw [foldl_setValue_length]
  simp

theorem incoming_loadedNeurons (g : Genome α) (inputs : Fin INPUTS → α) (j : Nat)
    (hj : j < g.total_neurons) :
    ((loadedNeurons g inputs).getD j default).incoming = (Neuron.ctor j g.network).incoming := by
  unfold loadedNeurons
  rw [foldl_setValue_incoming]
  simp [List.getD_eq_getElem?_getD, hj]

theorem valueAt_loadedNeurons_of_ge (g : Genome α) (inputs : Fin INPUTS → α) (j : Nat)
    (hj : INPUTS ≤ j) : valueAt (loadedNeurons g inputs) j = 0 := by
  unfold loadedNeurons
  rw [foldl_setValue_of_ge inputs _ _ j hj]
  unfold valueAt
  by_cases hl : j < g.total_neurons
  · simp only [List.getD_eq_getElem?_getD]
    simp [hl, Neuron.ctor]
    split <;> rfl
  · rw [List.getD_eq_default _ _ (by simp; omega)]
    rfl

theorem valueAt_loadedNeurons_of_lt (g : Genome α) (inputs : Fin INPUTS → α) (j : Fin INPUTS)
    (hj : j.val < g.total_neurons) : valueAt (loadedNeurons g inputs) j.val = inputs j := by
  unfold loadedNeurons
  apply foldl_setValue_of_mem
  · exact List.mem_finRange j
  · simpa using hj

/-! ## C1: output range of `evaluate` -/

theorem valueAt_evaluatedNeurons_range (exp : α → α) (hexp : ∀ x, 0 ≤ exp x) (g : Genome α)
    (inputs : Fin INPUTS → α) (j : Nat) (hj : INPUTS ≤ j) :
    -1 ≤ valueAt (evaluatedNeurons exp g inputs) j ∧
      valueAt (evaluatedNeurons exp g inputs) j ≤ 1 := by
  unfold evaluatedNeurons
  apply foldl_updateNeuron_range exp hexp
  rw [valueAt_loadedNeurons_of_ge g inputs j hj]
  constructor <;> norm_num

/-- On inputs of `[0, 1]`, a genome with a non-empty network and at least `INPUTS + OUTPUTS`
neurons passes every assertion of `evaluate`, which returns the values of the last `OUTPUTS`
neurons. -/
theorem evaluate_eq_some (exp : α → α) (hexp : ∀ x, 0 ≤ exp x) (g : Genome α)
    (hne : g.network ≠ []) (htot : INPUTS + OUTPUTS ≤ g.total_neurons)
    (outputs : Fin OUTPUTS → α) (inputs : Fin INPUTS → α)
    (hin : ∀ index, 0 ≤ inputs index ∧ inputs index ≤ 1) :
    g.evaluate exp outputs inputs =
      some (fun k => valueAt (evaluatedNeurons exp g inputs)
        (k.val + (g.total_neurons - OUTPUTS))) := by
  have hrange : ∀ k : Fin OUTPUTS,
      LINK_OFFSET α ≤ valueAt (evaluatedNeurons exp g inputs) (k.val + (g.total_neurons - OUTPUTS))
      ∧ valueAt (evaluatedNeurons exp g inputs) (k.val + (g.total_neurons - OUTPUTS))
        ≤ LINK_OFFSET α + LINK_RANGE α := by
    intro k
    have h := valueAt_evaluatedNeurons_range exp hexp g inputs
      (k.val + (g.total_neurons - OUTPUTS)) (by unfold INPUTS OUTPUTS at *; omega)
    unfold LINK_OFFSET LINK_RANGE
    constructor
    · exact h.1
    · linarith [h.2]
  unfold Genome.evaluate
  have hemp : g.network.isEmpty = false := by
    cases hg : g.network with
    | nil => exact absurd hg hne
    | cons a l => rfl
  simp only [hin, implies_true, not_true_eq_false, if_false, hemp, hrange, if_true]
  simp

/-- C1: for a genome with a non-empty network, at least `INPUTS + OUTPUTS` neurons and gene
indices below `total_neurons`, and inputs in `[0, 1]`, `evaluate` passes all its assertions and
every output it writes lies in `[LINK_OFFSET, LINK_OFFSET + LINK_RANGE] = [-1, 1]`. -/
theorem evaluate_output_range (exp : α → α) (hexp : ∀ x, 0 ≤ exp x) (g : Genome α)
    (hne : g.network ≠ []) (htot : INPUTS + OUTPUTS ≤ g.total_neurons)
    (hidx : ∀ gene ∈ g.network, gene.from_ < g.total_neurons ∧ gene.to_ < g.total_neurons)
    (outputs : Fin OUTPUTS → α) (inputs : Fin INPUTS → α)
    (hin : ∀ index, 0 ≤ inputs index ∧ inputs index ≤ 1) :
    ∃ outs, g.evaluate exp outputs inputs = some outs ∧
      (∀ k, LINK_OFFSET α ≤ outs k ∧ outs k ≤ LINK_OFFSET α + LINK_RANGE α) ∧
      LINK_OFFSET α = -1 ∧ LINK_OFFSET α + LINK_RANGE α = 1 := by
  refine ⟨_, evaluate_eq_some exp hexp g hne htot outputs inputs hin, ?_, rfl,
    by unfold LINK_OFFSET LINK_RANGE; norm_num⟩
  intro k
  have h := valueAt_evaluatedNeurons_range exp hexp g inputs
    (k.val + (g.total_neurons - OUTPUTS)) (by unfold INPUTS OUTPUTS at *; omega)
  unfold LINK_OFFSET LINK_RANGE
  constructor
  · exact h.1
  · linarith [h.2]

/-- Witness of C1 on the one-gene genome. -/
theorem evaluate_output_range_witness :
    ∃ outs, oneGeneGenome.evaluate constExp zeroOutputs halfInputs = some outs ∧
      (∀ k, LINK_OFFSET ℚ ≤ outs k ∧ outs k ≤ LINK_OFFSET ℚ + LINK_RANGE ℚ) ∧
      LINK_OFFSET ℚ = -1 ∧ LINK_OFFSET ℚ + LINK_RANGE ℚ = 1 :=
  evaluate_output_range constExp (fun _ => by unfold constExp; norm_num) oneGeneGenome
    (by simp [oneGeneGenome]) (by simp [oneGeneGenome, INPUTS, OUTPUTS])
    (by simp [oneGeneGenome]) zeroOutputs halfInputs
    (fun _ => by unfold halfInputs; norm_num)

/-! ## C2: `evaluate` computes the network function -/

theorem valFuel_eq_of_lt (exp : α → α) (network : List (Gene α)) (inputs : Fin INPUTS → α)
    (hord : ∀ g ∈ network, g.enabled = true → g.from_ < g.to_) :
    ∀ (i f1 f2 : Nat), i < f1 → i < f2 →
      valFuel exp network inputs f1 i = valFuel exp network inputs f2 i := by
  intro i
  induction i using Nat.strong_induction_on with
  | _ i ih =>
    intro f1 f2 h1 h2
    obtain ⟨f1, rfl⟩ : ∃ k, f1 = k + 1 := ⟨f1 - 1, by omega⟩
    obtain ⟨f2, rfl⟩ : ∃ k, f2 = k + 1 := ⟨f2 - 1, by omega⟩
    have hmap : ((network.filter (fun g => g.to_ = i)).filter (fun g => g.enabled)).map
          (fun g => valFuel exp network inputs f1 g.from_ * g.weight) =
        ((network.filter (fun g => g.to_ = i)).filter (fun g => g.enabled)).map
          (fun g => valFuel exp network inputs f2 g.from_ * g.weight) := by
      apply List.map_congr_left
      intro g hg
      simp only [List.mem_filter, decide_eq_true_eq] at hg
      have hlt := hord g hg.1.1 hg.2
      rw [ih g.from_ (by omega) f1 f2 (by omega) (by omega)]
    rw [valFuel, valFuel, hmap]

/-- The defining equation of `val`. -/
theorem val_eq (exp : α → α) (network : List (Gene α)) (inputs : Fin INPUTS → α)
    (hord : ∀ g ∈ network, g.enabled = true → g.from_ < g.to_) (i : Nat) :
    val exp network inputs i =
      if h : i < INPUTS then inputs ⟨i, h⟩
      else if (network.filter (fun g => g.to_ = i)).isEmpty then 0
      else sigmoid exp
        (((network.filter (fun g => g.to_ = i)).filter (fun g => g.enabled)).map
          (fun g => val exp network inputs g.from_ * g.weight)).sum := by
  have hmap : ((network.filter (fun g => g.to_ = i)).filter (fun g => g.enabled)).map
        (fun g => valFuel exp network inputs i g.from_ * g.weight) =
      ((network.filter (fun g => g.to_ = i)).filter (fun g => g.enabled)).map
        (fun g => val exp network inputs g.from_ * g.weight) := by
    apply List.map_congr_left
    intro g hg
    simp only [List.mem_filter, decide_eq_true_eq] at hg
    have hlt := hord g hg.1.1 hg.2
    unfold val
    rw [valFuel_eq_of_lt exp network inputs hord g.from_ i (g.from_ + 1) (by omega) (by omega)]
  unfold sigmoid
  rw [← hmap]
  unfold val
  rw [valFuel]

/-- The inner loop adds to `neurons[ index ].value` the weighted values of the sources of the
enabled incoming genes, provided none of them is the neuron itself. -/
theorem valueAt_sumIncoming_self (index : Nat) (inc : List (Gene α)) (ns : List (Neuron α))
    (hi : index < ns.length) (hne : ∀ g ∈ inc, g.enabled = true → g.from_ ≠ index) :
    valueAt (sumIncoming index inc ns) index =
      valueAt ns index +
        ((inc.filter (fun g => g.enabled)).map (fun g => valueAt ns g.from_ * g.weight)).sum := by
  induction inc generalizing ns with
  | nil => simp [sumIncoming]
  | cons g rest ih =>
    have hrest : ∀ g ∈ rest, g.enabled = true → g.from_ ≠ index :=
      fun g hg => hne g (List.mem_cons_of_mem _ hg)
    simp only [sumIncoming]
    by_cases hen : g.enabled = true
    · simp only [hen, if_true, List.filter_cons_of_pos, List.map_cons, List.sum_cons]
      rw [ih _ (by rw [setValue_length]; exact hi) hrest, valueAt_setValue]
      simp only [hi, and_self, if_true]
      have hmap : (rest.filter (fun g => g.enabled)).map
            (fun g' => valueAt (setValue ns index
              (valueAt ns index + valueAt ns g.from_ * g.weight)) g'.from_ * g'.weight) =
          (rest.filter (fun g => g.enabled)).map (fun g' => valueAt ns g'.from_ * g'.weight) := by
        apply List.map_congr_left
        intro g' hg'
        simp only [List.mem_filter] at hg'
        rw [valueAt_setValue]
        simp [hrest g' hg'.1 hg'.2]
      rw [hmap]
      ring
    · have hen' : g.enabled = false := by simpa using hen
      simp only [hen', Bool.false_eq_true, if_false]
      rw [ih _ hi hrest]
      simp [hen']

theorem foldl_updateNeuron_length (exp : α → α) (l : List Nat) (ns : List (Neuron α)) :
    (l.foldl (updateNeuron exp) ns).length = ns.length := by
  induction l generalizing ns with
  | nil => rfl
  | cons i rest ih => simp only [List.foldl_cons]; rw [ih, updateNeuron_length]

theorem foldl_updateNeuron_incoming (exp : α → α) (l : List Nat) (ns : List (Neuron α))
    (j : Nat) :
    ((l.foldl (updateNeuron exp) ns).getD j default).incoming = (ns.getD j default).incoming := by
  induction l generalizing ns with
  | nil => rfl
  | cons i rest ih => simp only [List.foldl_cons]; rw [ih, incoming_updateNeuron]

/-- Loop invariant of "update network": once the first `n` neurons after the inputs are
processed, every processed neuron and every input neuron holds its `val`, and every other
neuron still holds `0`. -/
theorem valueAt_foldl_updateNeuron (exp : α → α) (g : Genome α) (inputs : Fin INPUTS → α)
    (hord : ∀ gene ∈ g.network, gene.enabled = true → gene.from_ < gene.to_) :
    ∀ n, INPUTS + n ≤ g.total_neurons → ∀ j, j < g.total_neurons →
      valueAt ((List.range' INPUTS n).foldl (updateNeuron exp) (loadedNeurons g inputs)) j =
        if j < INPUTS + n then val exp g.network inputs j else 0 := by
  intro n
  induction n with
  | zero =>
    intro _ j hj
    simp only [List.range'_zero, List.foldl_nil, Nat.add_zero]
    by_cases hji : j < INPUTS
    · rw [if_pos hji, val_eq exp g.network inputs hord, dif_pos hji]
      exact valueAt_loadedNeurons_of_lt g inputs ⟨j, hji⟩ hj
    · rw [if_neg hji]
      exact valueAt_loadedNeurons_of_ge g inputs j (by omega)
  | succ n ih =>
    intro hn j hj
    have ihn := ih (by omega)
    rw [List.range'_1_concat, List.foldl_append]
    simp only [List.foldl_cons, List.foldl_nil]
    generalize hns : (List.range' INPUTS n).foldl (updateNeuron exp) (loadedNeurons g inputs) = ns
      at ihn ⊢
    have hlen : ns.length = g.total_neurons := by
      rw [← hns, foldl_updateNeuron_length, loadedNeurons_length]
    by_cases hji : j = INPUTS + n
    · subst hji
      have hinc : (ns.getD (INPUTS + n) default).incoming =
          g.network.filter (fun gene => gene.to_ = INPUTS + n) := by
        rw [← hns, foldl_updateNeuron_incoming, incoming_loadedNeurons g inputs _ hj]
        simp [Neuron.ctor]
      have hil : INPUTS + n < ns.length := by rw [hlen]; exact hj
      have hzero : valueAt ns (INPUTS + n) = 0 := by
        rw [ihn _ hj, if_neg (Nat.lt_irrefl _)]
      rw [valueAt_updateNeuron_self exp ns _ hil, hinc,
        if_pos (show INPUTS + n < INPUTS + (n + 1) by omega),
        val_eq exp g.network inputs hord, dif_neg (show ¬ INPUTS + n < INPUTS by omega)]
      by_cases hempty : (g.network.filter (fun gene => gene.to_ = INPUTS + n)).isEmpty = true
      · rw [if_pos hempty, if_pos hempty, hzero]
      · rw [if_neg hempty, if_neg hempty]
        congr 1
        rw [valueAt_sumIncoming_self _ _ _ hil, hzero, zero_add]
        · congr 1
          apply List.map_congr_left
          intro gene hgene
          simp only [List.mem_filter, decide_eq_true_eq] at hgene
          have hlt := hord gene hgene.1.1 hgene.2
          rw [ihn gene.from_ (by omega), if_pos (by omega)]
        · intro gene hgene hen
          simp only [List.mem_filter, decide_eq_true_eq] at hgene
          have hlt := hord gene hgene.1 hen
          omega
    · rw [valueAt_updateNeuron_of_ne exp ns _ j hji, ihn j hj]
      by_cases hlt : j < INPUTS + n
      · rw [if_pos hlt, if_pos (by omega)]
      · rw [if_neg hlt, if_neg (by omega)]

/-- C2: for a genome with a non-empty network, at least `INPUTS + OUTPUTS` neurons, gene
indices below `total_neurons` and `from < to` on every enabled gene, `evaluate` (run on inputs
of `[0, 1]`) writes `outputs[k] = val (total_neurons - OUTPUTS + k)`, where `val` is the
network function of the specification: `val i = inputs[i]` for `i < INPUTS`, `val i = 0` when
no gene targets `i`, and otherwise the sigmoid of the sum over the enabled genes `g` with
`g.to = i` of `val g.from * g.weight`. -/
theorem evaluate_eq_val (exp : α → α) (hexp : ∀ x, 0 ≤ exp x) (g : Genome α)
    (hne : g.network ≠ []) (htot : INPUTS + OUTPUTS ≤ g.total_neurons)
    (hidx : ∀ gene ∈ g.network, gene.from_ < g.total_neurons ∧ gene.to_ < g.total_neurons)
    (hord : ∀ gene ∈ g.network, gene.enabled = true → gene.from_ < gene.to_)
    (outputs : Fin OUTPUTS → α) (inputs : Fin INPUTS → α)
    (hin : ∀ index, 0 ≤ inputs index ∧ inputs index ≤ 1) :
    g.evaluate exp outputs inputs =
        some (fun k => val exp g.network inputs (g.total_neurons - OUTPUTS + k.val)) ∧
      ∀ i, val exp g.network inputs i =
        if h : i < INPUTS then inputs ⟨i, h⟩
        else if (g.network.filter (fun gene => gene.to_ = i)).isEmpty then 0
        else SIGMOID_RANGE α / (1 + exp (SIGMOID_GROWTH_RATE α *
          (((g.network.filter (fun gene => gene.to_ = i)).filter (fun gene => gene.enabled)).map
            (fun gene => val exp g.network inputs gene.from_ * gene.weight)).sum))
          + SIGMOID_OFFSET α := by
  refine ⟨?_, fun i => val_eq exp g.network inputs hord i⟩
  rw [evaluate_eq_some exp hexp g hne htot outputs inputs hin]
  congr 1
  funext k
  unfold evaluatedNeurons
  have hk := k.isLt
  rw [valueAt_foldl_updateNeuron exp g inputs hord (g.total_neurons - INPUTS)
    (by unfold INPUTS OUTPUTS at *; omega) _ (by unfold OUTPUTS at *; omega),
    if_pos (by unfold INPUTS OUTPUTS at *; omega), Nat.add_comm]

/-- Witness of C2 on the one-gene genome. -/
theorem evaluate_eq_val_witness :
    oneGeneGenome.evaluate constExp zeroOutputs halfInputs =
        some (fun k => val constExp oneGeneGenome.network halfInputs
          (oneGeneGenome.total_neurons - OUTPUTS + k.val)) ∧
      ∀ i, val constExp oneGeneGenome.network halfInputs i =
        if h : i < INPUTS then halfInputs ⟨i, h⟩
        else if (oneGeneGenome.network.filter (fun gene => gene.to_ = i)).isEmpty then 0
        else SIGMOID_RANGE ℚ / (1 + constExp (SIGMOID_GROWTH_RATE ℚ *
          (((oneGeneGenome.network.filter (fun gene => gene.to_ = i)).filter
            (fun gene => gene.enabled)).map
            (fun gene => val constExp oneGeneGenome.network halfInputs gene.from_ * gene.weight)).sum))
          + SIGMOID_OFFSET ℚ :=
  evaluate_eq_val constExp (fun _ => by unfold constExp; norm_num) oneGeneGenome
    (by simp [oneGeneGenome]) (by simp [oneGeneGenome, INPUTS, OUTPUTS])
    (by simp [oneGeneGenome]) (by simp [oneGeneGenome]) zeroOutputs halfInputs
    (fun _ => by unfold halfInputs; norm_num)

/-! ## C3, C4: node mutation on a concrete genome -/

theorem nodeDraws_unit : (⟨nodeDraws, 0, 1⟩ : Env ℚ).UnitDraws := by
  intro n
  simp only [nodeDraws]
  split
  · norm_num
  · split <;> norm_num

theorem oneGeneGenome_indexBounds : oneGeneGenome.IndexBounds := by
  simp [Genome.IndexBounds, oneGeneGenome, INPUTS, OUTPUTS]

theorem mutateNode_oneGene :
    oneGeneGenome.mutateNode ⟨nodeDraws, 2, 1⟩ =
      some (⟨0, 0, 83, [⟨1, 0, 77, 1 / 2, false⟩, ⟨2, 0, 76, -1, true⟩, ⟨3, 76, 0, -1, true⟩]⟩,
        ⟨nodeDraws, 5, 3⟩) := by
  simp [Genome.mutateNode, oneGeneGenome, generateRandom, randomIndex, nodeDraws, Gene.ctor,
    newInnovation, Gene.randomGeneWeight, shiftIndexes, OUTPUTS, LINK_RANGE, LINK_OFFSET,
    UINT_WIDTH]

theorem mutate_oneGene :
    oneGeneGenome.mutate ⟨nodeDraws, 0, 1⟩ =
      some (⟨0, 0, 83, [⟨1, 0, 77, 1 / 2, false⟩, ⟨2, 0, 76, -1, true⟩, ⟨3, 76, 0, -1, true⟩]⟩,
        ⟨nodeDraws, 7, 3⟩) := by
  have h0 : ¬ nodeDraws 0 < MUTATE_WEIGHT_CHANCE ℚ := by
    norm_num [nodeDraws, MUTATE_WEIGHT_CHANCE]
  have h1 : nodeDraws 1 < MUTATE_NODE_CHANCE ℚ ∧ oneGeneGenome.total_neurons < NEURON_LIMIT := by
    norm_num [nodeDraws, MUTATE_NODE_CHANCE, oneGeneGenome, NEURON_LIMIT]
  have h5 : ¬ nodeDraws 5 < MUTATE_LINK_CHANCE ℚ := by
    norm_num [nodeDraws, MUTATE_LINK_CHANCE]
  have h6 : ¬ nodeDraws 6 < MUTATE_STATE_CHANCE ℚ := by
    norm_num [nodeDraws, MUTATE_STATE_CHANCE]
  simp only [Genome.mutate, generateRandom, h0, if_false, Option.bind, Nat.zero_add, h1,
    and_self, if_true, Nat.reduceAdd, mutateNode_oneGene, h5, h6]
/-! ## Effect of the mutations on the structure of a genome -/

theorem randomIndex_lt [FloorRing α] (r : α) (size : Nat) (h0 : 0 ≤ r) (h1 : r < 1)
    (hs : 0 < size) : randomIndex r size < size := by
  unfold randomIndex
  have hpos : (0 : α) < (size : α) := by exact_mod_cast hs
  rw [Nat.floor_lt (mul_nonneg h0 hpos.le)]
  calc r * (size : α) < 1 * (size : α) := mul_lt_mul_of_pos_right h1 hpos
    _ = (size : α) := one_mul _

theorem map_set_of_eq {β γ : Type} [Inhabited β] (f : β → γ) (l : List β) (i : Nat) (x : β)
    (h : f x = f (l.getD i default)) : (l.set i x).map f = l.map f := by
  induction l generalizing i with
  | nil => rfl
  | cons a rest ih =>
    cases i with
    | zero => simpa using h
    | succ i => simpa using ih i (by simpa using h)

theorem forEachGene_spec (f : Gene α → Env α → Gene α × Env α)
    (hf : ∀ g e, (f g e).1.skeleton = g.skeleton ∧ (f g e).1.enabled = g.enabled ∧
      (f g e).2.draws = e.draws ∧ (f g e).2.current_innovation = e.current_innovation)
    (l : List (Gene α)) (e : Env α) :
    (forEachGene f l e).1.map Gene.skeleton = l.map Gene.skeleton ∧
    (forEachGene f l e).1.map Gene.enabled = l.map Gene.enabled ∧
    (forEachGene f l e).2.draws = e.draws ∧
    (forEachGene f l e).2.current_innovation = e.current_innovation := by
  induction l generalizing e with
  | nil => simp [forEachGene]
  | cons g rest ih =>
    obtain ⟨h1, h2, h3, h4⟩ := hf g e
    obtain ⟨i1, i2, i3, i4⟩ := ih (f g e).2
    simp only [forEachGene, List.map_cons]
    refine ⟨by rw [h1, i1], by rw [h2, i2], by rw [i3, h3], by rw [i4, h4]⟩

theorem randomGeneWeight_spec (g : Gene α) (e : Env α) :
    (g.randomGeneWeight e).1.skeleton = g.skeleton ∧ (g.randomGeneWeight e).1.enabled = g.enabled ∧
      (g.randomGeneWeight e).2.draws = e.draws ∧
      (g.randomGeneWeight e).2.current_innovation = e.current_innovation :=
  ⟨rfl, rfl, rfl, rfl⟩

theorem deviateGeneWeight_spec (g : Gene α) (e : Env α) :
    (g.deviateGeneWeight e).1.skeleton = g.skeleton ∧ (g.deviateGeneWeight e).1.enabled = g.enabled ∧
      (g.deviateGeneWeight e).2.draws = e.draws ∧
      (g.deviateGeneWeight e).2.current_innovation = e.current_innovation :=
  ⟨rfl, rfl, rfl, rfl⟩

/-- A weight mutation passes its assertion and changes nothing but weights. -/
theorem mutateWeight_spec [FloorRing α] (g : Genome α) (e : Env α) (he : e.UnitDraws) :
    ∃ g1 e1, g.mutateWeight e = some (g1, e1) ∧ g1.total_neurons = g.total_neurons ∧
      g1.network.map Gene.skeleton = g.network.map Gene.skeleton ∧
      g1.network.map Gene.enabled = g.network.map Gene.enabled ∧
      e1.draws = e.draws ∧ e1.current_innovation = e.current_innovation := by
  unfold Genome.mutateWeight
  by_cases hemp : g.network.isEmpty = true
  · rw [if_pos hemp]
    exact ⟨g, e, rfl, rfl, rfl, rfl, rfl, rfl⟩
  · rw [if_neg hemp]
    simp only [generateRandom]
    split
    · split
      · exact ⟨_, _, rfl, rfl, (forEachGene_spec _ randomGeneWeight_spec _ _).1,
          (forEachGene_spec _ randomGeneWeight_spec _ _).2.1,
          (forEachGene_spec _ randomGeneWeight_spec _ _).2.2.1,
          (forEachGene_spec _ randomGeneWeight_spec _ _).2.2.2⟩
      · exact ⟨_, _, rfl, rfl, (forEachGene_spec _ deviateGeneWeight_spec _ _).1,
          (forEachGene_spec _ deviateGeneWeight_spec _ _).2.1,
          (forEachGene_spec _ deviateGeneWeight_spec _ _).2.2.1,
          (forEachGene_spec _ deviateGeneWeight_spec _ _).2.2.2⟩
    · have hlen : 0 < g.network.length := by
        cases hg : g.network with
        | nil => simp [hg] at hemp
        | cons a l => simp
      have hlt := randomIndex_lt (e.draws (e.drawn + 1)) g.network.length
        (he _).1 (he _).2 hlen
      simp only [hlt, not_true_eq_false, if_false]
      split
      · exact ⟨_, _, rfl, rfl, map_set_of_eq _ _ _ _ rfl, map_set_of_eq _ _ _ _ rfl, rfl, rfl⟩
      · exact ⟨_, _, rfl, rfl, map_set_of_eq _ _ _ _ rfl, map_set_of_eq _ _ _ _ rfl, rfl, rfl⟩

theorem toggleFirst_skeleton (t : Gene α) (l : List (Gene α)) :
    (toggleFirst t l).map Gene.skeleton = l.map Gene.skeleton := by
  induction l with
  | nil => rfl
  | cons g rest ih =>
    simp only [toggleFirst]
    split
    · rfl
    · simp [ih]

theorem foldl_toggleFirst_skeleton (inc l : List (Gene α)) :
    (inc.foldl (fun network target_gene => toggleFirst target_gene network) l).map Gene.skeleton
      = l.map Gene.skeleton := by
  induction inc generalizing l with
  | nil => rfl
  | cons t rest ih => simp only [List.foldl_cons]; rw [ih, toggleFirst_skeleton]

/-- A state mutation passes its assertions and changes nothing but `enabled` flags. -/
theorem mutateState_spec [FloorRing α] (g : Genome α) (e : Env α) (he : e.UnitDraws)
    (htot : 0 < g.total_neurons) :
    ∃ g1 e1, g.mutateState e = some (g1, e1) ∧ g1.total_neurons = g.total_neurons ∧
      g1.network.map Gene.skeleton = g.network.map Gene.skeleton ∧
      e1.draws = e.draws ∧ e1.current_innovation = e.current_innovation := by
  unfold Genome.mutateState
  by_cases hemp : g.network.isEmpty = true
  · rw [if_pos hemp]
    exact ⟨g, e, rfl, rfl, rfl, rfl, rfl⟩
  · rw [if_neg hemp]
    simp only [generateRandom]
    split
    · have hlt := randomIndex_lt (e.draws (e.drawn + 1)) g.total_neurons (he _).1 (he _).2 htot
      simp only [hlt, not_true_eq_false, if_false]
      exact ⟨_, _, rfl, rfl, foldl_toggleFirst_skeleton _ _, rfl, rfl⟩
    · have hlen : 0 < g.network.length := by
        cases hg : g.network with
        | nil => simp [hg] at hemp
        | cons a l => simp
      have hlt := randomIndex_lt (e.draws (e.drawn + 1)) g.network.length
        (he _).1 (he _).2 hlen
      simp only [hlt, not_true_eq_false, if_false]
      exact ⟨_, _, rfl, rfl, map_set_of_eq _ _ _ _ rfl, rfl, rfl⟩

theorem ctor_spec (from_ to_ : Nat) (enabled : Bool) (e : Env α) :
    (Gene.ctor from_ to_ enabled e).1.innovation = (e.current_innovation + 1) % 2 ^ UINT_WIDTH ∧
    (Gene.ctor from_ to_ enabled e).1.from_ = from_ ∧
    (Gene.ctor from_ to_ enabled e).1.to_ = to_ ∧
    (Gene.ctor from_ to_ enabled e).1.enabled = enabled ∧
    (Gene.ctor from_ to_ enabled e).2.draws = e.draws ∧
    (Gene.ctor from_ to_ enabled e).2.current_innovation =
      (e.current_innovation + 1) % 2 ^ UINT_WIDTH :=
  ⟨rfl, rfl, rfl, rfl, rfl, rfl⟩

/-- A link mutation passes its assertion; it either leaves the genome and the innovation
counter alone or appends one enabled gene with a fresh innovation number, which runs from a
non-output neuron to a later non-input neuron. -/
theorem mutateLink_spec [FloorRing α] (g : Genome α) (e : Env α) (he : e.UnitDraws)
    (htot : INPUTS + OUTPUTS ≤ g.total_neurons) :
    ∃ g1 e1, g.mutateLink e = some (g1, e1) ∧ e1.draws = e.draws ∧
      g1.total_neurons = g.total_neurons ∧
      ((g1.network = g.network ∧ e1.current_innovation = e.current_innovation) ∨
        ∃ gene, g1.network = g.network ++ [gene] ∧
          gene.innovation = (e.current_innovation + 1) % 2 ^ UINT_WIDTH ∧
          e1.current_innovation = (e.current_innovation + 1) % 2 ^ UINT_WIDTH ∧
          gene.enabled = true ∧ gene.from_ < gene.to_ ∧
          gene.from_ < g.total_neurons - OUTPUTS ∧ INPUTS ≤ gene.to_ ∧
          gene.to_ < g.total_neurons) := by
  unfold Genome.mutateLink
  simp only [generateRandom]
  have h1 := randomIndex_lt (e.draws e.drawn) (g.total_neurons - OUTPUTS) (he _).1 (he _).2
    (by unfold INPUTS OUTPUTS at *; omega)
  have h2 := randomIndex_lt (e.draws (e.drawn + 1)) (g.total_neurons - INPUTS) (he _).1 (he _).2
    (by unfold INPUTS OUTPUTS at *; omega)
  have h1' : randomIndex (e.draws e.drawn) (g.total_neurons - OUTPUTS) < g.total_neurons := by
    omega
  simp only [h1', not_true_eq_false, if_false]
  split
  · exact ⟨_, _, rfl, rfl, rfl, Or.inl ⟨rfl, rfl⟩⟩
  · split
    · exact ⟨_, _, rfl, rfl, rfl, Or.inl ⟨rfl, rfl⟩⟩
    · split
      · rename_i hlt
        refine ⟨_, _, rfl, rfl, rfl, Or.inr ⟨_, rfl, rfl, rfl, rfl, hlt, h1, ?_, ?_⟩⟩
        · exact Nat.le_add_left _ _
        · show randomIndex (e.draws (e.drawn + 1)) (g.total_neurons - INPUTS) + INPUTS
            < g.total_neurons
          omega
      · rename_i hne _ hlt
        refine ⟨_, _, rfl, rfl, rfl, Or.inr ⟨_, rfl, rfl, rfl, rfl, ?_, ?_, ?_, ?_⟩⟩
        · show randomIndex (e.draws (e.drawn + 1)) (g.total_neurons - INPUTS) + INPUTS
            < randomIndex (e.draws e.drawn) (g.total_neurons - OUTPUTS)
          omega
        · show randomIndex (e.draws (e.drawn + 1)) (g.total_neurons - INPUTS) + INPUTS
            < g.total_neurons - OUTPUTS
          omega
        · show INPUTS ≤ randomIndex (e.draws e.drawn) (g.total_neurons - OUTPUTS)
          omega
        · exact h1'

/-- The pivot of a node mutation: the target of the split gene, capped at the first output
neuron. -/
theorem mutateNode_spec [FloorRing α] (g : Genome α) (e : Env α) (he : e.UnitDraws) :
    ∃ g1 e1, g.mutateNode e = some (g1, e1) ∧ e1.draws = e.draws ∧
      ((g1 = g ∧ e1.current_innovation = e.current_innovation) ∨
        ∃ i bot top, i < g.network.length ∧ (g.network.getD i default).enabled = true ∧
          g1.total_neurons = g.total_neurons + 1 ∧
          g1.network =
            shiftIndexes
              (if g.total_neurons - OUTPUTS < (g.network.getD i default).to_
                then g.total_neurons - OUTPUTS else (g.network.getD i default).to_)
              (g.network.set i { g.network.getD i default with enabled := false })
              ++ [bot, top] ∧
          bot.innovation = (e.current_innovation + 1) % 2 ^ UINT_WIDTH ∧
          bot.from_ = (g.network.getD i default).from_ ∧
          bot.to_ = (if g.total_neurons - OUTPUTS < (g.network.getD i default).to_
                then g.total_neurons - OUTPUTS else (g.network.getD i default).to_) ∧
          bot.enabled = true ∧
          top.innovation =
            ((e.current_innovation + 1) % 2 ^ UINT_WIDTH + 1) % 2 ^ UINT_WIDTH ∧
          top.from_ = (if g.total_neurons - OUTPUTS < (g.network.getD i default).to_
                then g.total_neurons - OUTPUTS else (g.network.getD i default).to_) ∧
          top.to_ = (g.network.getD i default).from_ ∧
          top.enabled = true ∧
          e1.current_innovation =
            ((e.current_innovation + 1) % 2 ^ UINT_WIDTH + 1) % 2 ^ UINT_WIDTH) := by
  unfold Genome.mutateNode
  by_cases hemp : g.network.isEmpty = true
  · rw [if_pos hemp]
    exact ⟨g, e, rfl, rfl, Or.inl ⟨rfl, rfl⟩⟩
  · rw [if_neg hemp]
    simp only [generateRandom]
    have hlen : 0 < g.network.length := by
      cases hg : g.network with
      | nil => simp [hg] at hemp
      | cons a l => simp
    have hlt := randomIndex_lt (e.draws e.drawn) g.network.length (he _).1 (he _).2 hlen
    simp only [hlt, not_true_eq_false, if_false]
    split
    · exact ⟨_, _, rfl, rfl, Or.inl ⟨rfl, rfl⟩⟩
    · rename_i hen
      refine ⟨_, _, rfl, rfl, Or.inr ⟨_, _, _, hlt, by simpa using hen, rfl, rfl, rfl, rfl, rfl,
        rfl, rfl, rfl, rfl, rfl, rfl⟩⟩

/-- The four mutation classes of `mutate` run in sequence: properties `P0 .. P4` that each
class carries to the next one, whether it fires or not, are carried by `mutate`. -/
theorem mutate_chain [FloorRing α] (P0 P1 P2 P3 P4 : Genome α → Env α → Prop)
    (hW : ∀ g e, P0 g e → P1 g (generateRandom e).2 ∧
      ∃ g1 e1, g.mutateWeight (generateRandom e).2 = some (g1, e1) ∧ P1 g1 e1)
    (hN : ∀ g e, P1 g e → P2 g (generateRandom e).2 ∧
      (g.total_neurons < NEURON_LIMIT →
        ∃ g1 e1, g.mutateNode (generateRandom e).2 = some (g1, e1) ∧ P2 g1 e1))
    (hL : ∀ g e, P2 g e → P3 g (generateRandom e).2 ∧
      ∃ g1 e1, g.mutateLink (generateRandom e).2 = some (g1, e1) ∧ P3 g1 e1)
    (hS : ∀ g e, P3 g e → P4 g (generateRandom e).2 ∧
      ∃ g1 e1, g.mutateState (generateRandom e).2 = some (g1, e1) ∧ P4 g1 e1)
    (g : Genome α) (e : Env α) (h : P0 g e) :
    ∃ g4 e4, g.mutate e = some (g4, e4) ∧ P4 g4 e4 := by
  have step1 : ∃ g1 e1,
      (if (generateRandom e).1 < MUTATE_WEIGHT_CHANCE α then g.mutateWeight (generateRandom e).2
        else some (g, (generateRandom e).2)) = some (g1, e1) ∧ P1 g1 e1 := by
    split
    · exact (hW g e h).2
    · exact ⟨_, _, rfl, (hW g e h).1⟩
  obtain ⟨g1, e1, hs1, h1⟩ := step1
  have step2 : ∃ g2 e2,
      (if (generateRandom e1).1 < MUTATE_NODE_CHANCE α ∧ g1.total_neurons < NEURON_LIMIT
        then g1.mutateNode (generateRandom e1).2
        else some (g1, (generateRandom e1).2)) = some (g2, e2) ∧ P2 g2 e2 := by
    split
    · rename_i hc
      exact (hN g1 e1 h1).2 hc.2
    · exact ⟨_, _, rfl, (hN g1 e1 h1).1⟩
  obtain ⟨g2, e2, hs2, h2⟩ := step2
  have step3 : ∃ g3 e3,
      (if (generateRandom e2).1 < MUTATE_LINK_CHANCE α then g2.mutateLink (generateRandom e2).2
        else some (g2, (generateRandom e2).2)) = some (g3, e3) ∧ P3 g3 e3 := by
    split
    · exact (hL g2 e2 h2).2
    · exact ⟨_, _, rfl, (hL g2 e2 h2).1⟩
  obtain ⟨g3, e3, hs3, h3⟩ := step3
  have step4 : ∃ g4 e4,
      (if (generateRandom e3).1 < MUTATE_STATE_CHANCE α then g3.mutateState (generateRandom e3).2
        else some (g3, (generateRandom e3).2)) = some (g4, e4) ∧ P4 g4 e4 := by
    split
    · exact (hS g3 e3 h3).2
    · exact ⟨_, _, rfl, (hS g3 e3 h3).1⟩
  obtain ⟨g4, e4, hs4, h4⟩ := step4
  refine ⟨g4, e4, ?_, h4⟩
  unfold Genome.mutate
  simp only [hs1, Option.bind, hs2, hs3, hs4]

/-! ## C5: gene index bounds are preserved -/

theorem mem_of_map_skeleton_eq {l l1 : List (Gene α)}
    (h : l1.map Gene.skeleton = l.map Gene.skeleton) {gene : Gene α} (hm : gene ∈ l1) :
    ∃ gene0 ∈ l, gene0.innovation = gene.innovation ∧ gene0.from_ = gene.from_ ∧
      gene0.to_ = gene.to_ := by
  have : gene.skeleton ∈ l.map Gene.skeleton := by
    rw [← h]; exact List.mem_map_of_mem _ hm
  obtain ⟨gene0, h0, hk⟩ := List.mem_map.1 this
  simp only [Gene.skeleton, Prod.mk.injEq] at hk
  exact ⟨gene0, h0, hk.1, hk.2.1, hk.2.2⟩

theorem indexBounds_of_skeleton {g g1 : Genome α} (ht : g1.total_neurons = g.total_neurons)
    (h : g1.network.map Gene.skeleton = g.network.map Gene.skeleton) (hg : g.IndexBounds) :
    g1.IndexBounds := by
  refine ⟨by rw [ht]; exact hg.1, fun gene hm => ?_⟩
  obtain ⟨gene0, h0, -, hf, hto⟩ := mem_of_map_skeleton_eq h hm
  rw [ht, ← hf, ← hto]
  exact hg.2 gene0 h0

theorem mem_shiftIndexes {t : Nat} {l : List (Gene α)} {gene : Gene α}
    (hm : gene ∈ shiftIndexes t l) :
    ∃ gene0 ∈ l, gene.innovation = gene0.innovation ∧ gene.enabled = gene0.enabled ∧
      gene.weight = gene0.weight ∧
      gene.from_ = (if t ≤ gene0.from_ then gene0.from_ + 1 else gene0.from_) ∧
      gene.to_ = (if t ≤ gene0.to_ then gene0.to_ + 1 else gene0.to_) := by
  unfold shiftIndexes at hm
  obtain ⟨gene0, h0, rfl⟩ := List.mem_map.1 hm
  exact ⟨gene0, h0, rfl, rfl, rfl, rfl, rfl⟩

theorem mem_set_disabled {l : List (Gene α)} {i : Nat} {gene : Gene α}
    (hm : gene ∈ l.set i { l.getD i default with enabled := false }) :
    ∃ gene0 ∈ l, gene.innovation = gene0.innovation ∧ gene.from_ = gene0.from_ ∧
      gene.to_ = gene0.to_ ∧ gene.weight = gene0.weight ∧
      (gene.enabled = true → gene0.enabled = true) := by
  have hsk : (l.set i { l.getD i default with enabled := false }).map
      (fun g => (g.innovation, g.from_, g.to_, g.weight)) =
      l.map (fun g => (g.innovation, g.from_, g.to_, g.weight)) :=
    map_set_of_eq _ _ _ _ rfl
  rcases List.mem_or_eq_of_mem_set hm with h | h
  · exact ⟨gene, h, rfl, rfl, rfl, rfl, id⟩
  · have : gene.skeleton ∈ l.map Gene.skeleton := by
      have h1 := List.mem_map_of_mem (fun g => (g.innovation, g.from_, g.to_, g.weight)) hm
      rw [hsk] at h1
      obtain ⟨gene0, h0, hk⟩ := List.mem_map.1 h1
      simp only [Prod.mk.injEq] at hk
      exact List.mem_map.2 ⟨gene0, h0, by simp [Gene.skeleton, hk]⟩
    have h1 := List.mem_map_of_mem (fun g => (g.innovation, g.from_, g.to_, g.weight)) hm
    rw [hsk] at h1
    obtain ⟨gene0, h0, hk⟩ := List.mem_map.1 h1
    simp only [Prod.mk.injEq] at hk
    refine ⟨gene0, h0, hk.1.symm, hk.2.1.symm, hk.2.2.1.symm, hk.2.2.2.symm, ?_⟩
    intro hen
    rw [h] at hen
    simp at hen

theorem crossoverAdditions_spec (own : List (Gene α)) (l : List (Gene α)) (e : Env α) :
    (crossoverAdditions own l e).1.Sublist l ∧
    (∀ gene ∈ (crossoverAdditions own l e).1, ∀ mine ∈ own, gene.eqv mine = false) ∧
    (crossoverAdditions own l e).2.draws = e.draws ∧
    (crossoverAdditions own l e).2.current_innovation = e.current_innovation := by
  induction l generalizing e with
  | nil => simp [crossoverAdditions]
  | cons other_gene rest ih =>
    simp only [crossoverAdditions]
    split
    · obtain ⟨h1, h2, h3, h4⟩ := ih e
      exact ⟨h1.cons _, h2, h3, h4⟩
    · rename_i hnot
      obtain ⟨h1, h2, h3, h4⟩ := ih (generateRandom e).2
      split
      · refine ⟨h1.cons₂ _, ?_, h3, h4⟩
        intro gene hm mine hmine
        rcases List.mem_cons.1 hm with rfl | hm
        · simp only [List.any_eq_true, not_exists, not_and, Bool.not_eq_true] at hnot
          exact hnot mine hmine
        · exact h2 gene hm mine hmine
      · exact ⟨h1.cons _, h2, h3, h4⟩

theorem mutateNode_indexBounds [FloorRing α] (g : Genome α) (e : Env α) (he : e.UnitDraws)
    (hg : g.IndexBounds) :
    ∃ g1 e1, g.mutateNode e = some (g1, e1) ∧ g1.IndexBounds ∧ e1.draws = e.draws := by
  obtain ⟨g1, e1, hs, hd, h⟩ := mutateNode_spec g e he
  refine ⟨g1, e1, hs, ?_, hd⟩
  rcases h with ⟨rfl, -⟩ | ⟨i, bot, top, hi, hen, ht, hnet, -, hbf, hbt, -, -, htf, htt, -, -⟩
  · exact hg
  · have htg := hg.2 (g.network.getD i default)
      (by rw [List.getD_eq_getElem _ _ hi]; exact List.getElem_mem _)
    have hpivot : (if g.total_neurons - OUTPUTS < (g.network.getD i default).to_
        then g.total_neurons - OUTPUTS else (g.network.getD i default).to_)
        ≤ (g.network.getD i default).to_ := by
      split <;> omega
    generalize (if g.total_neurons - OUTPUTS < (g.network.getD i default).to_
        then g.total_neurons - OUTPUTS else (g.network.getD i default).to_) = t at *
    refine ⟨by rw [ht]; have := hg.1; omega, fun gene hm => ?_⟩
    rw [hnet] at hm
    rw [ht]
    rcases List.mem_append.1 hm with hm | hm
    · obtain ⟨gene1, h1, -, -, -, hf, hto⟩ := mem_shiftIndexes hm
      obtain ⟨gene0, h0, -, hf0, hto0, -, -⟩ := mem_set_disabled h1
      have hb := hg.2 gene0 h0
      rw [hf, hto, hf0, hto0]
      constructor <;> split <;> omega
    · simp only [List.mem_cons, List.mem_singleton, List.not_mem_nil, or_false] at hm
      rcases hm with rfl | rfl
      · rw [hbf, hbt]
        constructor <;> omega
      · rw [htf, htt]
        constructor <;> omega

theorem mutateLink_indexBounds [FloorRing α] (g : Genome α) (e : Env α) (he : e.UnitDraws)
    (hg : g.IndexBounds) :
    ∃ g1 e1, g.mutateLink e = some (g1, e1) ∧ g1.IndexBounds ∧ e1.draws = e.draws := by
  obtain ⟨g1, e1, hs, hd, ht, h⟩ := mutateLink_spec g e he hg.1
  refine ⟨g1, e1, hs, ⟨by rw [ht]; exact hg.1, fun gene hm => ?_⟩, hd⟩
  rw [ht]
  rcases h with ⟨hnet, -⟩ | ⟨gene1, hnet, -, -, -, hlt, hf, -, hto⟩
  · rw [hnet] at hm
    exact hg.2 gene hm
  · rw [hnet] at hm
    rcases List.mem_append.1 hm with hm | hm
    · exact hg.2 gene hm
    · simp only [List.mem_singleton] at hm
      subst hm
      omega

/-- C5: if every gene of a genome (and of the other parent) has both endpoints below
`total_neurons`, with `total_neurons ≥ INPUTS + OUTPUTS`, then for every stream of draws of
`[0, 1)` the operations `mutateWeight`, `mutateState`, `mutateLink`, `mutateNode` and `mutate`
pass their assertions and return a genome with the same property, and so does `crossover`. -/
theorem index_bounds_preserved [FloorRing α] (g other : Genome α) (e : Env α)
    (hg : g.IndexBounds) (ho : other.IndexBounds) (he : e.UnitDraws) :
    (∃ g1 e1, g.mutateWeight e = some (g1, e1) ∧ g1.IndexBounds) ∧
    (∃ g1 e1, g.mutateState e = some (g1, e1) ∧ g1.IndexBounds) ∧
    (∃ g1 e1, g.mutateLink e = some (g1, e1) ∧ g1.IndexBounds) ∧
    (∃ g1 e1, g.mutateNode e = some (g1, e1) ∧ g1.IndexBounds) ∧
    (∃ g1 e1, g.mutate e = some (g1, e1) ∧ g1.IndexBounds) ∧
    (g.crossover other e).1.IndexBounds := by
  have hW : ∀ (g : Genome α) (e : Env α), g.IndexBounds → e.UnitDraws →
      ∃ g1 e1, g.mutateWeight e = some (g1, e1) ∧ g1.IndexBounds ∧ e1.draws = e.draws := by
    intro g e hg he
    obtain ⟨g1, e1, hs, ht, hsk, -, hd, -⟩ := mutateWeight_spec g e he
    exact ⟨g1, e1, hs, indexBounds_of_skeleton ht hsk hg, hd⟩
  have hS : ∀ (g : Genome α) (e : Env α), g.IndexBounds → e.UnitDraws →
      ∃ g1 e1, g.mutateState e = some (g1, e1) ∧ g1.IndexBounds ∧ e1.draws = e.draws := by
    intro g e hg he
    obtain ⟨g1, e1, hs, ht, hsk, hd, -⟩ := mutateState_spec g e he
      (by have := hg.1; unfold INPUTS OUTPUTS at this; omega)
    exact ⟨g1, e1, hs, indexBounds_of_skeleton ht hsk hg, hd⟩
  have hdraw : ∀ e : Env α, e.UnitDraws → (generateRandom e).2.UnitDraws := fun e he => he
  refine ⟨?_, ?_, ?_, ?_, ?_, ?_⟩
  · obtain ⟨g1, e1, hs, hb, -⟩ := hW g e hg he
    exact ⟨g1, e1, hs, hb⟩
  · obtain ⟨g1, e1, hs, hb, -⟩ := hS g e hg he
    exact ⟨g1, e1, hs, hb⟩
  · obtain ⟨g1, e1, hs, hb, -⟩ := mutateLink_indexBounds g e he hg
    exact ⟨g1, e1, hs, hb⟩
  · obtain ⟨g1, e1, hs, hb, -⟩ := mutateNode_indexBounds g e he hg
    exact ⟨g1, e1, hs, hb⟩
  · have key := mutate_chain (fun (g : Genome α) (e : Env α) => g.IndexBounds ∧ e.UnitDraws)
      (fun g e => g.IndexBounds ∧ e.UnitDraws) (fun g e => g.IndexBounds ∧ e.UnitDraws)
      (fun g e => g.IndexBounds ∧ e.UnitDraws) (fun g e => g.IndexBounds ∧ e.UnitDraws)
      (fun g e h => ⟨⟨h.1, hdraw e h.2⟩, by
        obtain ⟨g1, e1, hs, hb, hd⟩ := hW g _ h.1 (hdraw e h.2)
        exact ⟨g1, e1, hs, hb, fun n => by rw [hd]; exact h.2 n⟩⟩)
      (fun g e h => ⟨⟨h.1, hdraw e h.2⟩, fun _ => by
        obtain ⟨g1, e1, hs, hb, hd⟩ := mutateNode_indexBounds g _ (hdraw e h.2) h.1
        exact ⟨g1, e1, hs, hb, fun n => by rw [hd]; exact h.2 n⟩⟩)
      (fun g e h => ⟨⟨h.1, hdraw e h.2⟩, by
        obtain ⟨g1, e1, hs, hb, hd⟩ := mutateLink_indexBounds g _ (hdraw e h.2) h.1
        exact ⟨g1, e1, hs, hb, fun n => by rw [hd]; exact h.2 n⟩⟩)
      (fun g e h => ⟨⟨h.1, hdraw e h.2⟩, by
        obtain ⟨g1, e1, hs, hb, hd⟩ := hS g _ h.1 (hdraw e h.2)
        exact ⟨g1, e1, hs, hb, fun n => by rw [hd]; exact h.2 n⟩⟩)
      g e ⟨hg, he⟩
    obtain ⟨g4, e4, hs, hb, -⟩ := key
    exact ⟨g4, e4, hs, hb⟩
  · unfold Genome.crossover
    split
    · exact hg
    · refine ⟨?_, fun gene hm => ?_⟩
      · show INPUTS + OUTPUTS ≤
          (if other.total_neurons < g.total_neurons then g.total_neurons
            else other.total_neurons)
        have := hg.1
        have := ho.1
        split <;> omega
      · show gene.from_ <
            (if other.total_neurons < g.total_neurons then g.total_neurons
              else other.total_neurons) ∧
          gene.to_ <
            (if other.total_neurons < g.total_neurons then g.total_neurons
              else other.total_neurons)
        have hm' : gene ∈ g.network ++ (crossoverAdditions g.network other.network e).1 := hm
        rcases List.mem_append.1 hm' with hm1 | hm1
        · have := hg.2 gene hm1
          split <;> omega
        · have := ho.2 gene ((crossoverAdditions_spec g.network other.network e).1.subset hm1)
          split <;> omega

/-- Witness of C5 on the one-gene genome. -/
theorem index_bounds_preserved_witness :
    (∃ g1 e1, oneGeneGenome.mutateWeight ⟨nodeDraws, 0, 1⟩ = some (g1, e1) ∧ g1.IndexBounds) ∧
    (∃ g1 e1, oneGeneGenome.mutateState ⟨nodeDraws, 0, 1⟩ = some (g1, e1) ∧ g1.IndexBounds) ∧
    (∃ g1 e1, oneGeneGenome.mutateLink ⟨nodeDraws, 0, 1⟩ = some (g1, e1) ∧ g1.IndexBounds) ∧
    (∃ g1 e1, oneGeneGenome.mutateNode ⟨nodeDraws, 0, 1⟩ = some (g1, e1) ∧ g1.IndexBounds) ∧
    (∃ g1 e1, oneGeneGenome.mutate ⟨nodeDraws, 0, 1⟩ = some (g1, e1) ∧ g1.IndexBounds) ∧
    (oneGeneGenome.crossover oneGeneGenome ⟨nodeDraws, 0, 1⟩).1.IndexBounds :=
  index_bounds_preserved oneGeneGenome oneGeneGenome ⟨nodeDraws, 0, 1⟩
    oneGeneGenome_indexBounds oneGeneGenome_indexBounds nodeDraws_unit

/-- C3 (defect of `mutateNode`): the one-gene genome `0 → 76` satisfies the index bounds and
`from < to` on every gene, yet a `mutate` whose draws trigger the node mutation alone returns a
genome that holds the enabled gene `76 → 0`, which has `to < from`. -/
theorem mutate_breaks_order :
    oneGeneGenome.IndexBounds ∧ (∀ gene ∈ oneGeneGenome.network, gene.from_ < gene.to_) ∧
    (⟨nodeDraws, 0, 1⟩ : Env ℚ).UnitDraws ∧
    ∃ g e, oneGeneGenome.mutate ⟨nodeDraws, 0, 1⟩ = some (g, e) ∧
      ∃ gene ∈ g.network, gene.enabled = true ∧ gene.to_ < gene.from_ := by
  refine ⟨oneGeneGenome_indexBounds, by simp [oneGeneGenome], nodeDraws_unit, _, _,
    mutate_oneGene, ⟨3, 76, 0, -1, true⟩, by simp, rfl, by decide⟩

/-- C4 (defect of `mutateNode`): splitting the gene `(a, b) = (0, 76)` of the one-gene genome
inserts the new neuron at `n = 76` and renumbers `b` to `77`, but the two appended genes are
`(0, 76)` and `(76, 0)`: the second one is `(n, a)`, not `(n, b') = (76, 77)`. -/
theorem mutateNode_second_gene_reversed :
    oneGeneGenome.network.map (fun gene => (gene.from_, gene.to_, gene.enabled))
      = [(0, 76, true)] ∧
    ∃ g e, oneGeneGenome.mutateNode ⟨nodeDraws, 2, 1⟩ = some (g, e) ∧
      g.network.map (fun gene => (gene.from_, gene.to_, gene.enabled))
        = [(0, 77, false), (0, 76, true), (76, 0, true)] :=
  ⟨rfl, _, _, mutateNode_oneGene, rfl⟩

/-! ## C6: the innovation counter -/

theorem afterInnovations_counter (e : Env α) (n : Nat) :
    (afterInnovations e n).current_innovation = (e.current_innovation + n) % 2 ^ UINT_WIDTH ∨
    (n = 0 ∧ (afterInnovations e n).current_innovation = e.current_innovation) := by
  induction n with
  | zero => exact Or.inr ⟨rfl, rfl⟩
  | succ n ih =>
    left
    show ((afterInnovations e n).current_innovation + 1) % 2 ^ UINT_WIDTH = _
    rcases ih with h | ⟨rfl, h⟩
    · rw [h]; unfold UINT_WIDTH; simp only [Nat.reducePow]; omega
    · rw [h]

theorem issued_eq (e : Env α) (n : Nat) :
    issued e n = (e.current_innovation + n + 1) % 2 ^ UINT_WIDTH := by
  show ((afterInnovations e n).current_innovation + 1) % 2 ^ UINT_WIDTH = _
  rcases afterInnovations_counter e n with h | ⟨rfl, h⟩
  · rw [h]; unfold UINT_WIDTH; simp only [Nat.reducePow]; omega
  · rw [h]

/-- C6 as stated fails: in a fresh process call number `2 ^ 32 - 1` of `newInnovation`
returns `4294967295` and the next call returns `0`, so the numbers issued are not strictly
increasing over the whole process. -/
theorem innovation_wraps :
    issued (Env.initial (fun _ => (0 : ℚ))) 4294967294 = 4294967295 ∧
    issued (Env.initial (fun _ => (0 : ℚ))) 4294967295 = 0 ∧
    ¬ ∀ i j, i < j →
      issued (Env.initial (fun _ => (0 : ℚ))) i < issued (Env.initial (fun _ => (0 : ℚ))) j := by
  have h1 : issued (Env.initial (fun _ => (0 : ℚ))) 4294967294 = 4294967295 := by
    rw [issued_eq]; rfl
  have h2 : issued (Env.initial (fun _ => (0 : ℚ))) 4294967295 = 0 := by
    rw [issued_eq]; rfl
  refine ⟨h1, h2, fun h => ?_⟩
  have := h 4294967294 4294967295 (by decide)
  rw [h1, h2] at this
  exact absurd this (by decide)

/-- C6, amended: in a process started with `current_innovation = 0` the first number issued by
`newInnovation` is `1`, and as long as the 32-bit counter has not wrapped (call number
`j + 1 < 2 ^ 32`) every call returns a number strictly greater than the number returned by any
earlier call; a gene built by `Gene( from, to, enabled )` carries the number issued by the call
it makes. -/
theorem innovation_monotone (e : Env α) (h0 : e.current_innovation = 0) (i j : Nat)
    (hij : i < j) (hj : j + 1 < 2 ^ UINT_WIDTH) :
    issued e 0 = 1 ∧ issued e i < issued e j ∧
      ∀ (from_ to_ : Nat) (enabled : Bool),
        (Gene.ctor from_ to_ enabled (afterInnovations e j)).1.innovation = issued e j := by
  refine ⟨?_, ?_, fun _ _ _ => rfl⟩
  · rw [issued_eq, h0]
    unfold UINT_WIDTH
    norm_num
  · rw [issued_eq, issued_eq, h0]
    unfold UINT_WIDTH at *
    rw [Nat.mod_eq_of_lt (by omega), Nat.mod_eq_of_lt (by omega)]
    omega

/-- Witness of the amended C6: the first three calls of a fresh process. -/
theorem innovation_monotone_witness :
    issued (Env.initial (fun _ => (0 : ℚ))) 0 = 1 ∧
      issued (Env.initial (fun _ => (0 : ℚ))) 1 < issued (Env.initial (fun _ => (0 : ℚ))) 2 ∧
      ∀ (from_ to_ : Nat) (enabled : Bool),
        (Gene.ctor from_ to_ enabled
          (afterInnovations (Env.initial (fun _ => (0 : ℚ))) 2)).1.innovation
          = issued (Env.initial (fun _ => (0 : ℚ))) 2 :=
  innovation_monotone (Env.initial (fun _ => (0 : ℚ))) rfl 1 2 (by decide)
    (by unfold UINT_WIDTH; norm_num)

/-! ## C7: uniqueness of the innovation numbers of a genome -/

theorem uniqueInnovations_of_skeleton {g g1 : Genome α}
    (h : g1.network.map Gene.skeleton = g.network.map Gene.skeleton)
    (hg : g.UniqueInnovations) : g1.UniqueInnovations := by
  unfold Genome.UniqueInnovations at *
  have : g1.network.map Gene.innovation = g.network.map Gene.innovation := by
    have h1 := congrArg (List.map Prod.fst) h
    simpa [List.map_map, Function.comp_def, Gene.skeleton] using h1
  rw [this]
  exact hg

theorem freshBelow_of_skeleton {g g1 : Genome α} {e e1 : Env α} {k : Nat}
    (h : g1.network.map Gene.skeleton = g.network.map Gene.skeleton)
    (hc : e1.current_innovation = e.current_innovation) (hg : g.FreshBelow e k) :
    g1.FreshBelow e1 k := by
  refine ⟨uniqueInnovations_of_skeleton h hg.1, fun gene hm => ?_, by rw [hc]; exact hg.2.2⟩
  obtain ⟨gene0, h0, hi, -, -⟩ := mem_of_map_skeleton_eq h hm
  rw [hc, ← hi]
  exact hg.2.1 gene0 h0

theorem map_innovation_shiftIndexes (t : Nat) (l : List (Gene α)) :
    (shiftIndexes t l).map Gene.innovation = l.map Gene.innovation := by
  unfold shiftIndexes
  simp [List.map_map, Function.comp_def]

theorem mutateLink_freshBelow [FloorRing α] (g : Genome α) (e : Env α) (he : e.UnitDraws)
    (htot : INPUTS + OUTPUTS ≤ g.total_neurons) (k : Nat) (hg : g.FreshBelow e (k + 1)) :
    ∃ g1 e1, g.mutateLink e = some (g1, e1) ∧ g1.FreshBelow e1 k ∧ e1.draws = e.draws ∧
      g1.total_neurons = g.total_neurons := by
  obtain ⟨g1, e1, hs, hd, ht, h⟩ := mutateLink_spec g e he htot
  refine ⟨g1, e1, hs, ?_, hd, ht⟩
  obtain ⟨hu, hle, hc⟩ := hg
  have hmod : (e.current_innovation + 1) % 2 ^ UINT_WIDTH = e.current_innovation + 1 :=
    Nat.mod_eq_of_lt (by omega)
  rcases h with ⟨hnet, hcnt⟩ | ⟨gene, hnet, hin, hcnt, -⟩
  · refine ⟨?_, ?_, by rw [hcnt]; omega⟩
    · unfold Genome.UniqueInnovations; rw [hnet]; exact hu
    · rw [hnet, hcnt]; exact hle
  · rw [hmod] at hin hcnt
    refine ⟨?_, ?_, by rw [hcnt]; omega⟩
    · unfold Genome.UniqueInnovations
      rw [hnet, List.map_append, List.map_singleton, List.nodup_append]
      refine ⟨hu, List.nodup_singleton _, ?_⟩
      intro x hx hx'
      simp only [List.mem_singleton] at hx'
      obtain ⟨gene0, h0, rfl⟩ := List.mem_map.1 hx
      have := hle gene0 h0
      omega
    · intro gene1 hm
      rw [hnet] at hm
      rw [hcnt]
      rcases List.mem_append.1 hm with hm | hm
      · have := hle gene1 hm; omega
      · simp only [List.mem_singleton] at hm
        subst hm; omega

theorem mutateNode_freshBelow [FloorRing α] (g : Genome α) (e : Env α) (he : e.UnitDraws)
    (k : Nat) (hg : g.FreshBelow e (k + 2)) :
    ∃ g1 e1, g.mutateNode e = some (g1, e1) ∧ g1.FreshBelow e1 k ∧ e1.draws = e.draws ∧
      g.total_neurons ≤ g1.total_neurons := by
  obtain ⟨g1, e1, hs, hd, h⟩ := mutateNode_spec g e he
  obtain ⟨hu, hle, hc⟩ := hg
  have hmod : (e.current_innovation + 1) % 2 ^ UINT_WIDTH = e.current_innovation + 1 :=
    Nat.mod_eq_of_lt (by omega)
  have hmod2 : (e.current_innovation + 1 + 1) % 2 ^ UINT_WIDTH = e.current_innovation + 2 :=
    Nat.mod_eq_of_lt (by omega)
  rcases h with ⟨rfl, hcnt⟩ | ⟨i, bot, top, hi, hen, ht, hnet, hbi, -, -, -, hti, -, -, -, hcnt⟩
  · exact ⟨g1, e1, hs, ⟨hu, by rw [hcnt]; exact hle, by rw [hcnt]; omega⟩, hd, le_refl _⟩
  · refine ⟨g1, e1, hs, ?_, hd, by omega⟩
    rw [hmod] at hbi
    rw [hmod, hmod2] at hti hcnt
    have hmap : g1.network.map Gene.innovation =
        g.network.map Gene.innovation ++ [e.current_innovation + 1, e.current_innovation + 2] := by
      rw [hnet, List.map_append, map_innovation_shiftIndexes]
      simp only [List.map_cons, List.map_nil, hbi, hti]
      congr 1
      exact map_set_of_eq _ _ _ _ rfl
    refine ⟨?_, ?_, by rw [hcnt]; omega⟩
    · unfold Genome.UniqueInnovations
      rw [hmap, List.nodup_append]
      refine ⟨hu, by simp, ?_⟩
      intro x hx hx'
      obtain ⟨gene0, h0, rfl⟩ := List.mem_map.1 hx
      have := hle gene0 h0
      simp only [List.mem_cons, List.mem_singleton, List.not_mem_nil, or_false] at hx'
      omega
    · intro gene1 hm
      have hx := List.mem_map_of_mem Gene.innovation hm
      rw [hmap] at hx
      rw [hcnt]
      rcases List.mem_append.1 hx with hx | hx
      · obtain ⟨gene0, h0, h1⟩ := List.mem_map.1 hx
        have := hle gene0 h0
        omega
      · simp only [List.mem_cons, List.mem_singleton, List.not_mem_nil, or_false] at hx
        omega

theorem linkGenes_innovations (l : List (Nat × Nat)) (e : Env α) :
    (linkGenes l e).1.map Gene.innovation =
      (List.range l.length).map (fun k => (e.current_innovation + k + 1) % 2 ^ UINT_WIDTH) := by
  induction l generalizing e with
  | nil => rfl
  | cons p rest ih =>
    obtain ⟨a, b⟩ := p
    simp only [linkGenes, List.map_cons, List.length_cons, List.range_succ_eq_map, List.map_map]
    rw [ih]
    congr 1
    apply List.map_congr_left
    intro k _
    show ((e.current_innovation + 1) % 2 ^ UINT_WIDTH + k + 1) % 2 ^ UINT_WIDTH = _
    unfold UINT_WIDTH
    simp only [Nat.reducePow, Function.comp]
    omega

theorem loadGenes_innovations [FloorRing α] (tokens : List α) (e : Env α) :
    (loadGenes tokens e).1.map Gene.innovation =
      (List.range (tokens.length / 4)).map
        (fun k => (e.current_innovation + k + 1) % 2 ^ UINT_WIDTH) := by
  induction tokens, e using loadGenes.induct with
  | case1 t0 t1 t2 t3 rest e gene1 e1 hctor rest1 e2 hload ih =>
    have hlen : (t0 :: t1 :: t2 :: t3 :: rest).length / 4 = rest.length / 4 + 1 := by
      simp only [List.length_cons]; omega
    have he1 : e1.current_innovation = (e.current_innovation + 1) % 2 ^ UINT_WIDTH := by
      rw [← (ctor_spec _ _ _ e).2.2.2.2.2, hctor]
    have hg1 : gene1.innovation = (e.current_innovation + 1) % 2 ^ UINT_WIDTH := by
      rw [← (ctor_spec _ _ _ e).1, hctor]
    rw [hlen]
    simp only [loadGenes, hctor, List.map_cons, List.range_succ_eq_map, List.map_map]
    rw [ih, hg1, he1]
    congr 1
    apply List.map_congr_left
    intro k _
    unfold UINT_WIDTH
    simp only [Nat.reducePow, Function.comp]
    omega
  | case2 tokens e hno =>
    have hlen : tokens.length / 4 = 0 := by
      match tokens, hno with
      | [], _ => simp
      | [_], _ => simp
      | [_, _], _ => simp
      | [_, _, _], _ => simp
      | t0 :: t1 :: t2 :: t3 :: rest, hno => exact absurd rfl (hno t0 t1 t2 t3 rest)
    rw [hlen]
    unfold loadGenes
    split
    · exact absurd rfl (hno _ _ _ _ _)
    · rfl

theorem nodup_consecutive (c n : Nat) (hn : n ≤ 2 ^ UINT_WIDTH) :
    ((List.range n).map (fun k => (c + k + 1) % 2 ^ UINT_WIDTH)).Nodup := by
  apply List.Nodup.map_on _ (List.nodup_range n)
  intro i hi j hj h
  rw [List.mem_range] at hi hj
  unfold UINT_WIDTH at *
  simp only [Nat.reducePow] at *
  omega

theorem freshBelow_mono {g : Genome α} {e : Env α} {k k1 : Nat} (hk : k1 ≤ k)
    (h : g.FreshBelow e k) : g.FreshBelow e k1 :=
  ⟨h.1, h.2.1, by have := h.2.2; omega⟩

theorem eqv_of_innovation_eq {a b : Gene α} (h : a.innovation = b.innovation) :
    a.eqv b = true := by
  simp [Gene.eqv, h]

theorem crossover_uniqueInnovations (g other : Genome α) (e : Env α)
    (hg : g.UniqueInnovations) (ho : other.UniqueInnovations) :
    (g.crossover other e).1.UniqueInnovations := by
  unfold Genome.crossover
  split
  · exact hg
  · obtain ⟨hsub, hne, -, -⟩ := crossoverAdditions_spec g.network other.network e
    show ((g.network ++ (crossoverAdditions g.network other.network e).1).map
      Gene.innovation).Nodup
    rw [List.map_append, List.nodup_append]
    refine ⟨hg, List.Nodup.sublist (hsub.map _) ho, ?_⟩
    intro x hx hx'
    obtain ⟨mine, hmine, rfl⟩ := List.mem_map.1 hx
    obtain ⟨gene, hgene, hi⟩ := List.mem_map.1 hx'
    have := hne gene hgene mine hmine
    rw [eqv_of_innovation_eq hi] at this
    exact Bool.noConfusion this

theorem length_flatMap_pairs (l : List Nat) (n : Nat) :
    (l.flatMap (fun output_index =>
      (List.range n).map (fun input_index => (input_index, output_index)))).length
      = l.length * n := by
  induction l with
  | nil => simp
  | cons a rest ih => simp [ih]; ring

theorem fullLinkPairs_length (total_neurons : Nat) :
    (fullLinkPairs total_neurons).length = (total_neurons - INPUTS) * INPUTS := by
  unfold fullLinkPairs
  rw [length_flatMap_pairs, List.length_range']

theorem ctor_default [FloorRing α] (e : Env α) :
    Genome.ctor true none e =
      (⟨0, 0, INPUTS + OUTPUTS, (linkGenes (fullLinkPairs (INPUTS + OUTPUTS)) e).1⟩,
        (linkGenes (fullLinkPairs (INPUTS + OUTPUTS)) e).2) := by
  unfold Genome.ctor
  rw [if_pos rfl]
  exact if_pos rfl

theorem ctor_file [FloorRing α] (file : GenomeFile α) (e : Env α) :
    Genome.ctor true (some file) e =
      (⟨stof file.fitness, Nat.floor (stof file.generation),
        Nat.floor (stof file.total_neurons), (loadGenes file.tokens e).1⟩,
        (loadGenes file.tokens e).2) := by
  unfold Genome.ctor
  rw [if_pos rfl]

theorem mutateNode_wrapped :
    oneGeneGenome.mutateNode ⟨nodeDraws, 2, 4294967295⟩ =
      some (⟨0, 0, 83, [⟨1, 0, 77, 1 / 2, false⟩, ⟨0, 0, 76, -1, true⟩, ⟨1, 76, 0, -1, true⟩]⟩,
        ⟨nodeDraws, 5, 1⟩) := by
  simp [Genome.mutateNode, oneGeneGenome, generateRandom, randomIndex, nodeDraws, Gene.ctor,
    newInnovation, Gene.randomGeneWeight, shiftIndexes, OUTPUTS, LINK_RANGE, LINK_OFFSET,
    UINT_WIDTH]

/-- C7 as stated fails: the one-gene genome has pairwise distinct innovation numbers, none
greater than the counter `2 ^ 32 - 1`, but the two numbers a node mutation then takes are `0`
and `1` (the increment wraps), and `1` is already the innovation number of the split gene. -/
theorem mutateNode_duplicates_innovation :
    oneGeneGenome.UniqueInnovations ∧
    (∀ gene ∈ oneGeneGenome.network, gene.innovation ≤ 4294967295) ∧
    (⟨nodeDraws, 2, 4294967295⟩ : Env ℚ).UnitDraws ∧
    ∃ g e, oneGeneGenome.mutateNode ⟨nodeDraws, 2, 4294967295⟩ = some (g, e) ∧
      g.network.map Gene.innovation = [1, 0, 1] ∧ ¬ g.UniqueInnovations := by
  refine ⟨by simp [Genome.UniqueInnovations, oneGeneGenome], by simp [oneGeneGenome],
    nodeDraws_unit, _, _, mutateNode_wrapped, rfl, ?_⟩
  simp [Genome.UniqueInnovations]

/-- C7, amended: let the genes of a genome (and of the other parent) have pairwise distinct
innovation numbers, none greater than the innovation counter, let the counter be at least
three steps away from wrapping (`current_innovation + 3 < 2 ^ 32`), and let the genome have at
least `INPUTS + OUTPUTS` neurons.  Then for every stream of draws of `[0, 1)` the genome
returned by `mutateLink`, `mutateNode` or `mutate` has pairwise distinct innovation numbers,
and so has the child returned by `crossover`; the default genome has pairwise distinct
innovation numbers, and so has a genome loaded from a champion file of at most `2 ^ 32`
genes. -/
theorem unique_innovations_preserved [FloorRing α] (g other : Genome α) (e : Env α)
    (file : GenomeFile α) (hg : g.UniqueInnovations) (ho : other.UniqueInnovations)
    (hle : ∀ gene ∈ g.network, gene.innovation ≤ e.current_innovation)
    (hc : e.current_innovation + 3 < 2 ^ UINT_WIDTH)
    (htot : INPUTS + OUTPUTS ≤ g.total_neurons) (he : e.UnitDraws)
    (hfile : file.tokens.length / 4 ≤ 2 ^ UINT_WIDTH) :
    (∃ g1 e1, g.mutateLink e = some (g1, e1) ∧ g1.UniqueInnovations) ∧
    (∃ g1 e1, g.mutateNode e = some (g1, e1) ∧ g1.UniqueInnovations) ∧
    (∃ g1 e1, g.mutate e = some (g1, e1) ∧ g1.UniqueInnovations) ∧
    (g.crossover other e).1.UniqueInnovations ∧
    (Genome.ctor true none e).1.UniqueInnovations ∧
    (Genome.ctor true (some file) e).1.UniqueInnovations := by
  have hfresh : g.FreshBelow e 3 := ⟨hg, hle, hc⟩
  refine ⟨?_, ?_, ?_, crossover_uniqueInnovations g other e hg ho, ?_, ?_⟩
  · obtain ⟨g1, e1, hs, hf, -⟩ :=
      mutateLink_freshBelow g e he htot 0 (freshBelow_mono (by omega) hfresh)
    exact ⟨g1, e1, hs, hf.1⟩
  · obtain ⟨g1, e1, hs, hf, -⟩ :=
      mutateNode_freshBelow g e he 0 (freshBelow_mono (by omega) hfresh)
    exact ⟨g1, e1, hs, hf.1⟩
  · have key := mutate_chain
      (fun (g : Genome α) (e : Env α) =>
        g.FreshBelow e 3 ∧ e.UnitDraws ∧ INPUTS + OUTPUTS ≤ g.total_neurons)
      (fun g e => g.FreshBelow e 3 ∧ e.UnitDraws ∧ INPUTS + OUTPUTS ≤ g.total_neurons)
      (fun g e => g.FreshBelow e 1 ∧ e.UnitDraws ∧ INPUTS + OUTPUTS ≤ g.total_neurons)
      (fun g e => g.FreshBelow e 0 ∧ e.UnitDraws ∧ INPUTS + OUTPUTS ≤ g.total_neurons)
      (fun g e => g.FreshBelow e 0 ∧ e.UnitDraws ∧ INPUTS + OUTPUTS ≤ g.total_neurons)
      (fun g e h => ⟨h, by
        obtain ⟨g1, e1, hs, ht, hsk, -, hd, hcnt⟩ :=
          mutateWeight_spec g (generateRandom e).2 h.2.1
        exact ⟨g1, e1, hs, freshBelow_of_skeleton hsk hcnt h.1,
          fun n => by rw [hd]; exact h.2.1 n, by rw [ht]; exact h.2.2⟩⟩)
      (fun g e h => ⟨⟨freshBelow_mono (by omega) h.1, h.2⟩, fun _ => by
        obtain ⟨g1, e1, hs, hf, hd, ht⟩ :=
          mutateNode_freshBelow g (generateRandom e).2 h.2.1 1 h.1
        exact ⟨g1, e1, hs, hf, fun n => by rw [hd]; exact h.2.1 n, by have := h.2.2; omega⟩⟩)
      (fun g e h => ⟨⟨freshBelow_mono (by omega) h.1, h.2⟩, by
        obtain ⟨g1, e1, hs, hf, hd, ht⟩ :=
          mutateLink_freshBelow g (generateRandom e).2 h.2.1 h.2.2 0 h.1
        exact ⟨g1, e1, hs, hf, fun n => by rw [hd]; exact h.2.1 n, by rw [ht]; exact h.2.2⟩⟩)
      (fun g e h => ⟨h, by
        obtain ⟨g1, e1, hs, ht, hsk, hd, hcnt⟩ :=
          mutateState_spec g (generateRandom e).2 h.2.1
            (by have := h.2.2; unfold INPUTS OUTPUTS at this; omega)
        exact ⟨g1, e1, hs, freshBelow_of_skeleton hsk hcnt h.1,
          fun n => by rw [hd]; exact h.2.1 n, by rw [ht]; exact h.2.2⟩⟩)
      g e ⟨hfresh, he, htot⟩
    obtain ⟨g4, e4, hs, hf, -⟩ := key
    exact ⟨g4, e4, hs, hf.1⟩
  · unfold Genome.UniqueInnovations
    rw [ctor_default, linkGenes_innovations]
    apply nodup_consecutive
    rw [fullLinkPairs_length]
    simp [INPUTS, OUTPUTS, UINT_WIDTH]
  · unfold Genome.UniqueInnovations
    rw [ctor_file, loadGenes_innovations]
    exact nodup_consecutive _ _ hfile

/-- Witness of the amended C7: the one-gene genome, the counter at `1`, and a champion file
holding one gene. -/
theorem unique_innovations_preserved_witness :
    (∃ g1 e1, oneGeneGenome.mutateLink ⟨nodeDraws, 0, 1⟩ = some (g1, e1) ∧
      g1.UniqueInnovations) ∧
    (∃ g1 e1, oneGeneGenome.mutateNode ⟨nodeDraws, 0, 1⟩ = some (g1, e1) ∧
      g1.UniqueInnovations) ∧
    (∃ g1 e1, oneGeneGenome.mutate ⟨nodeDraws, 0, 1⟩ = some (g1, e1) ∧ g1.UniqueInnovations) ∧
    (oneGeneGenome.crossover oneGeneGenome ⟨nodeDraws, 0, 1⟩).1.UniqueInnovations ∧
    (Genome.ctor true none (⟨nodeDraws, 0, 1⟩ : Env ℚ)).1.UniqueInnovations ∧
    (Genome.ctor true (some ⟨0, 0, 82, [0, 76, 1 / 2, 1]⟩)
      (⟨nodeDraws, 0, 1⟩ : Env ℚ)).1.UniqueInnovations :=
  unique_innovations_preserved oneGeneGenome oneGeneGenome ⟨nodeDraws, 0, 1⟩
    ⟨0, 0, 82, [0, 76, 1 / 2, 1]⟩
    (by simp [Genome.UniqueInnovations, oneGeneGenome])
    (by simp [Genome.UniqueInnovations, oneGeneGenome])
    (by simp [oneGeneGenome]) (by simp [UINT_WIDTH])
    (by simp [oneGeneGenome, INPUTS, OUTPUTS]) nodeDraws_unit (by simp [UINT_WIDTH])

/-! ## C8: round trip through the champion file -/

theorem loadGenes_serialized [FloorRing α] (network : List (Gene α)) (e : Env α)
    (hidx : ∀ gene ∈ network, gene.from_ < 2 ^ 24 ∧ gene.to_ < 2 ^ 24) :
    (loadGenes (network.flatMap (fun gene =>
        [(gene.from_ : α), (gene.to_ : α), floatToString gene.weight,
          if gene.enabled then 1 else 0])) e).1.map
        (fun gene => (gene.from_, gene.to_, gene.weight, gene.enabled)) =
      network.map (fun gene =>
        (gene.from_, gene.to_, stof (floatToString gene.weight), gene.enabled)) := by
  induction network generalizing e with
  | nil => simp [loadGenes]
  | cons gene rest ih =>
    obtain ⟨hfrom, hto⟩ := hidx gene (List.mem_cons_self _ _)
    have hone : stof (1 : α) = 1 := by
      have h := toFloat32_natCast (α := α) 1 (by norm_num)
      rw [Nat.cast_one] at h
      exact h
    have hzero : stof (0 : α) = 0 := by
      have h := toFloat32_natCast (α := α) 0 (by norm_num)
      rw [Nat.cast_zero] at h
      exact h
    rw [List.flatMap_cons]
    show (loadGenes ((gene.from_ : α) :: (gene.to_ : α) :: floatToString gene.weight ::
      (if gene.enabled then 1 else 0) :: rest.flatMap _) e).1.map _ = _
    rw [loadGenes]
    simp only [List.map_cons]
    rw [ih _ (fun x hx => hidx x (List.mem_cons_of_mem _ hx))]
    congr 1
    simp only [Gene.ctor, Gene.randomGeneWeight, stof_natCast _ hfrom, stof_natCast _ hto,
      Prod.mk.injEq, true_and]
    cases gene.enabled
    · simp [hzero]
    · simp [hone]

/-- C8 as stated fails.  The `float` weight `2⁻²⁰` of the gene of `tinyWeightGenome` is
written as `0.000001`, so the genome read back carries the `float` nearest to `10⁻⁶`, not
`2⁻²⁰`.  The generation `2 ^ 24 + 1` of `lateGenome` is written exactly, but `std::stof` reads
it into a `float`, which has 24 significant bits: the generation read back is `2 ^ 24`. -/
theorem roundtrip_loses_weight :
    tinyWeightGenome.network.map Gene.weight = [1 / 1048576] ∧
    (tinyWeightGenome.serialize true).2.tokens = [0, 76, 1 / 1000000, 1] ∧
    (Genome.ctor true (some (tinyWeightGenome.serialize true).2)
        (Env.initial (fun _ => (0 : ℚ)))).1.network.map Gene.weight =
      [8796093 / 8796093022208] ∧
    lateGenome.generation = 16777217 ∧
    (lateGenome.serialize true).2.generation = 16777217 ∧
    (Genome.ctor true (some (lateGenome.serialize true).2)
        (Env.initial (fun _ => (0 : ℚ)))).1.generation = 16777216 := by
  decide!

/-- C8, amended: for every genome `g` whose `generation`, `total_neurons` and gene endpoints
are below `2 ^ 24`, the genome read back from the text written by `serialize` has the same
`total_neurons`, the same `generation`, the same number of genes and, gene by gene in order,
the same `from`, `to` and `enabled`; every weight and the fitness come back as the `float`
nearest to the six-decimal numeral `std::to_string` wrote for them, and that numeral differs
from the original by at most `5 · 10⁻⁷`. -/
theorem roundtrip_serialize [FloorRing α] (g : Genome α) (finish_training : Bool) (e : Env α)
    (hgen : g.generation < 2 ^ 24) (htot : g.total_neurons < 2 ^ 24)
    (hidx : ∀ gene ∈ g.network, gene.from_ < 2 ^ 24 ∧ gene.to_ < 2 ^ 24) :
    (Genome.ctor true (some (g.serialize finish_training).2) e).1.total_neurons
      = g.total_neurons ∧
    (Genome.ctor true (some (g.serialize finish_training).2) e).1.generation = g.generation ∧
    (Genome.ctor true (some (g.serialize finish_training).2) e).1.network.length
      = g.network.length ∧
    (Genome.ctor true (some (g.serialize finish_training).2) e).1.network.map
        (fun gene => (gene.from_, gene.to_, gene.enabled))
      = g.network.map (fun gene => (gene.from_, gene.to_, gene.enabled)) ∧
    (Genome.ctor true (some (g.serialize finish_training).2) e).1.network.map Gene.weight
      = g.network.map (fun gene => toFloat32 (floatToString gene.weight)) ∧
    (Genome.ctor true (some (g.serialize finish_training).2) e).1.fitness
      = toFloat32 (floatToString g.fitness) ∧
    ∀ x : α, |x - floatToString x| ≤ 5 / 10000000 := by
  rw [ctor_file]
  have h := loadGenes_serialized g.network e hidx
  refine ⟨stof_natCast _ htot, stof_natCast _ hgen, ?_, ?_, ?_, rfl, abs_sub_floatToString⟩
  · have h1 := congrArg List.length h
    simpa using h1
  · have h1 := congrArg (List.map (fun p : Nat × Nat × α × Bool => (p.1, p.2.1, p.2.2.2))) h
    simpa [List.map_map, Function.comp_def] using h1
  · have h1 := congrArg (List.map (fun p : Nat × Nat × α × Bool => p.2.2.1)) h
    simpa [List.map_map, Function.comp_def, stof] using h1

/-- Witness of the amended C8: `tenthGenome`, of generation `3`, carries the `float`s `0.1f`
as weight and `2⁻⁷` as fitness.  The weight is written `0.100000` and comes back as `0.1f`,
unchanged; the fitness is written `0.007812` and comes back as the `float` nearest to that. -/
theorem roundtrip_serialize_witness :
    (Genome.ctor true (some (tenthGenome.serialize true).2)
        (Env.initial halfDraws)).1.network.map Gene.weight
      = tenthGenome.network.map Gene.weight ∧
    (tenthGenome.serialize true).2.fitness = 7812 / 1000000 ∧
    (Genome.ctor true (some (tenthGenome.serialize true).2)
        (Env.initial halfDraws)).1.fitness = toFloat32 (7812 / 1000000) ∧
    (Genome.ctor true (some (tenthGenome.serialize true).2)
        (Env.initial halfDraws)).1.generation = 3 := by
  obtain ⟨-, h2, -, -, h5, h6, -⟩ :=
    roundtrip_serialize tenthGenome true (Env.initial halfDraws) (by decide!) (by decide!)
      (by decide!)
  have hw : tenthGenome.network.map (fun gene => toFloat32 (floatToString gene.weight)) =
      tenthGenome.network.map Gene.weight := by decide!
  have hf : floatToString tenthGenome.fitness = 7812 / 1000000 := by decide!
  refine ⟨h5.trans hw, hf, ?_, h2⟩
  rw [h6, hf]

/-! ## C9: half-cull -/

/-- C9 (defect of `cullSpecies`): in a gym whose first species holds a single genome, the
half-cull returns at that species; the second species, of size `n = 4`, keeps its four genomes
in their original ascending order instead of being cut down to the `⌊n / 2⌋ = 2` fittest in
descending order. -/
theorem cullSpecies_stops_at_singleton :
    singletonFirstGym.all_species.map (fun species => species.genomes.map Genome.fitness)
      = [[5], [1, 2, 3, 4]] ∧
    (singletonFirstGym.cullSpecies true).all_species.map
        (fun species => species.genomes.map Genome.fitness)
      = [[5], [1, 2, 3, 4]] := by
  constructor
  · rfl
  · rfl

/-! ## C10: symmetry of the weight distance -/

/-- The outer loop of `compare` adds up, gene by gene, the three quantities determined by the
first gene of `other` with the same innovation number. -/
theorem foldl_compareStep (other : List (Gene α)) (l : List (Gene α)) (acc : α × α × α) :
    l.foldl (compareStep other) acc =
      (acc.1 + (l.map (fun gene =>
          (other.find? (fun og => gene.innovation = og.innovation)).elim 1 (fun _ => (0 : α)))).sum,
        acc.2.1 + (l.map (fun gene =>
          (other.find? (fun og => gene.innovation = og.innovation)).elim 0
            (fun og => |gene.weight - og.weight|))).sum,
        acc.2.2 + (l.map (fun gene =>
          (other.find? (fun og => gene.innovation = og.innovation)).elim 0
            (fun _ => (1 : α)))).sum) := by
  induction l generalizing acc with
  | nil => simp
  | cons gene rest ih =>
    simp only [List.foldl_cons, List.map_cons, List.sum_cons]
    rw [ih]
    unfold compareStep
    cases other.find? (fun og => decide (gene.innovation = og.innovation)) with
    | none => simp [add_assoc]
    | some og => simp [add_assoc]

/-- With pairwise distinct innovation numbers in `other`, the contribution of the first match
is the sum of the contributions of all matches. -/
theorem find_match_eq_sum (f : Gene α → α) (i : Nat) (other : List (Gene α))
    (hn : (other.map Gene.innovation).Nodup) :
    (other.find? (fun og => i = og.innovation)).elim 0 f =
      (other.map (fun og => if i = og.innovation then f og else 0)).sum := by
  induction other with
  | nil => simp
  | cons h t ih =>
    rw [List.map_cons, List.nodup_cons] at hn
    by_cases hi : i = h.innovation
    · subst hi
      have hzero : (t.map (fun og => if h.innovation = og.innovation then f og else 0)).sum
          = 0 := by
        apply List.sum_eq_zero
        intro x hx
        obtain ⟨og, hog, rfl⟩ := List.mem_map.1 hx
        have : ¬ h.innovation = og.innovation := by
          intro h2
          exact hn.1 (List.mem_map.2 ⟨og, hog, h2.symm⟩)
        simp [this]
      simp [List.find?_cons, hzero]
    · simp only [List.find?_cons, hi, decide_False, List.map_cons, if_false, List.sum_cons,
        zero_add]
      exact ih hn.2

theorem sum_map_sum_swap {β γ : Type} (F : β → γ → α) (a : List β) (b : List γ) :
    (a.map (fun x => (b.map (fun y => F x y)).sum)).sum =
      (b.map (fun y => (a.map (fun x => F x y)).sum)).sum := by
  induction a with
  | nil => simp
  | cons x rest ih =>
    simp only [List.map_cons, List.sum_cons]
    rw [ih, ← List.sum_map_add]

/-- The sum over the genes of `a` of a symmetric quantity of the gene and its match in `b`
equals the same sum taken from `b`. -/
theorem matched_sum_symm (f : Gene α → Gene α → α) (hf : ∀ x y, f x y = f y x)
    (a b : List (Gene α)) (ha : (a.map Gene.innovation).Nodup)
    (hb : (b.map Gene.innovation).Nodup) :
    (a.map (fun gene =>
        (b.find? (fun og => gene.innovation = og.innovation)).elim 0 (f gene))).sum =
      (b.map (fun gene =>
        (a.find? (fun og => gene.innovation = og.innovation)).elim 0 (f gene))).sum := by
  have h1 : ∀ (a b : List (Gene α)), (b.map Gene.innovation).Nodup →
      (a.map (fun gene =>
        (b.find? (fun og => gene.innovation = og.innovation)).elim 0 (f gene))) =
      a.map (fun gene =>
        (b.map (fun og => if gene.innovation = og.innovation then f gene og else 0)).sum) := by
    intro a b hb
    apply List.map_congr_left
    intro gene _
    exact find_match_eq_sum (f gene) gene.innovation b hb
  rw [h1 a b hb, h1 b a ha, sum_map_sum_swap]
  congr 1
  apply List.map_congr_left
  intro y _
  congr 1
  apply List.map_congr_left
  intro x _
  by_cases h : x.innovation = y.innovation
  · rw [if_pos h, if_pos h.symm, hf]
  · rw [if_neg h, if_neg (fun h2 => h h2.symm)]

/-- The `weights` value of `compare` on two genomes with genes. -/
theorem compare_weights_eq (a b : Genome α) (ha : a.network ≠ []) (d w : α) :
    (a.compare b d w).2 =
      if (a.network.map (fun gene =>
            (b.network.find? (fun og => gene.innovation = og.innovation)).elim 0
              (fun _ => (1 : α)))).sum = 0 then 0
      else (a.network.map (fun gene =>
            (b.network.find? (fun og => gene.innovation = og.innovation)).elim 0
              (fun og => |gene.weight - og.weight|))).sum /
          (a.network.map (fun gene =>
            (b.network.find? (fun og => gene.innovation = og.innovation)).elim 0
              (fun _ => (1 : α)))).sum := by
  have hemp : a.network.isEmpty = false := by
    cases h : a.network with
    | nil => exact absurd h ha
    | cons x l => rfl
  unfold Genome.compare
  simp only [hemp, Bool.false_eq_true, false_and, if_false]
  rw [foldl_compareStep]
  simp only [zero_add]

/-- C10 as stated fails.  With exactly one empty network the `weights` value depends on which
genome is the caller: `1` when the caller is the empty one, `0` when it is the other one.  With
a repeated innovation number the first match decides: `1` one way round, `1/2` the other.  The
values are the same in exact arithmetic (`compare`) and in the binary32 arithmetic of the
machine (`compareRounded toFloat32`). -/
theorem compare_weights_asymmetric :
    (emptyGenome.compare oneGeneGenome 0 0).2 = 1 ∧
    (oneGeneGenome.compare emptyGenome 0 0).2 = 0 ∧
    ((⟨0, 0, 82, [⟨1, 0, 76, 0, true⟩]⟩ : Genome ℚ).compare
      ⟨0, 0, 82, [⟨1, 0, 76, 1, true⟩, ⟨1, 0, 77, 0, true⟩]⟩ 0 0).2 = 1 ∧
    ((⟨0, 0, 82, [⟨1, 0, 76, 1, true⟩, ⟨1, 0, 77, 0, true⟩]⟩ : Genome ℚ).compare
      ⟨0, 0, 82, [⟨1, 0, 76, 0, true⟩]⟩ 0 0).2 = 1 / 2 ∧
    (emptyGenome.compareRounded toFloat32 oneGeneGenome 0 0).2 = 1 ∧
    (oneGeneGenome.compareRounded toFloat32 emptyGenome 0 0).2 = 0 ∧
    ((⟨0, 0, 82, [⟨1, 0, 76, 0, true⟩]⟩ : Genome ℚ).compareRounded toFloat32
      ⟨0, 0, 82, [⟨1, 0, 76, 1, true⟩, ⟨1, 0, 77, 0, true⟩]⟩ 0 0).2 = 1 ∧
    ((⟨0, 0, 82, [⟨1, 0, 76, 1, true⟩, ⟨1, 0, 77, 0, true⟩]⟩ : Genome ℚ).compareRounded
      toFloat32 ⟨0, 0, 82, [⟨1, 0, 76, 0, true⟩]⟩ 0 0).2 = 1 / 2 := by
  refine ⟨?_, ?_, ?_, ?_, by decide!, by decide!, by decide!, by decide!⟩
  · simp [Genome.compare, emptyGenome, oneGeneGenome]
  · simp [Genome.compare, emptyGenome, oneGeneGenome, compareStep]
  · simp [Genome.compare, compareStep]
  · simp [Genome.compare, compareStep]
    norm_num

/-! ## C11, C12, C13: the disjoint rating -/

/-- The `disjoint` value of `compare` when the caller has genes. -/
theorem compare_disjoint_eq (a b : Genome α) (ha : a.network ≠ []) (d w : α) :
    (a.compare b d w).1 =
      ((a.network.map (fun gene =>
          (b.network.find? (fun og => gene.innovation = og.innovation)).elim 1
            (fun _ => (0 : α)))).sum + (b.network.length : α)) /
        ((max a.network.length b.network.length : Nat) : α) := by
  have hemp : a.network.isEmpty = false := by
    cases h : a.network with
    | nil => exact absurd h ha
    | cons x l => rfl
  unfold Genome.compare
  simp only [hemp, Bool.false_eq_true, false_and, if_false]
  rw [foldl_compareStep]
  simp only [zero_add]

theorem unmatched_sum_bounds (a b : List (Gene α)) :
    0 ≤ (a.map (fun gene =>
        (b.find? (fun og => gene.innovation = og.innovation)).elim 1 (fun _ => (0 : α)))).sum ∧
    (a.map (fun gene =>
        (b.find? (fun og => gene.innovation = og.innovation)).elim 1 (fun _ => (0 : α)))).sum
      ≤ (a.length : α) := by
  induction a with
  | nil => simp
  | cons gene rest ih =>
    have key : ∀ o : Option (Gene α),
        0 ≤ o.elim 1 (fun _ => (0 : α)) ∧ o.elim 1 (fun _ => (0 : α)) ≤ 1 := by
      intro o
      cases o <;> simp
    have hk := key (b.find? (fun og => gene.innovation = og.innovation))
    simp only [List.map_cons, List.sum_cons, List.length_cons, Nat.cast_add, Nat.cast_one]
    constructor <;> linarith [ih.1, ih.2, hk.1, hk.2]

theorem compare_disjoint_bounds (a b : Genome α) :
    0 ≤ (a.compare b 0 0).1 ∧ (a.compare b 0 0).1 ≤ 2 := by
  by_cases ha : a.network = []
  · by_cases hb : b.network = []
    · simp [Genome.compare, ha, hb]
    · have hbe : b.network.isEmpty = false := by
        cases h : b.network with
        | nil => exact absurd h hb
        | cons x l => rfl
      simp [Genome.compare, ha, hbe]
  · rw [compare_disjoint_eq a b ha]
    obtain ⟨h0, h1⟩ := unmatched_sum_bounds a.network b.network
    have hlen : 0 < a.network.length := List.length_pos.2 ha
    have hmax : (0 : α) < ((max a.network.length b.network.length : Nat) : α) := by
      exact_mod_cast lt_of_lt_of_le hlen (le_max_left _ _)
    have hb0 : (0 : α) ≤ (b.network.length : α) := Nat.cast_nonneg _
    have hla : (a.network.length : α) ≤ ((max a.network.length b.network.length : Nat) : α) := by
      exact_mod_cast le_max_left _ _
    have hlb : (b.network.length : α) ≤ ((max a.network.length b.network.length : Nat) : α) := by
      exact_mod_cast le_max_right _ _
    constructor
    · apply div_nonneg _ hmax.le
      linarith
    · rw [div_le_iff₀ hmax]
      linarith

/-- C11 as stated fails: for two one-gene genomes with different innovation numbers the
`disjoint` value is `(1 + 1) / 1 = 2`, which is not in `[0, 1]`. -/
theorem compare_disjoint_exceeds_one :
    (oneGeneGenome.compare secondGeneGenome 0 0).1 = 2 ∧
    ¬ (oneGeneGenome.compare secondGeneGenome 0 0).1 ≤ 1 := by
  have h : (oneGeneGenome.compare secondGeneGenome 0 0).1 = 2 := by
    simp [Genome.compare, oneGeneGenome, secondGeneGenome, compareStep]
    norm_num
  rw [h]
  exact ⟨rfl, by norm_num⟩

/-- C11, amended: for every pair of genomes `a` and `b`, with the outputs initialised to `0`,
the `disjoint` value produced by `a.compare(b)` and the one produced by `b.compare(a)` both lie
in `[0, 2]`. -/
theorem compare_disjoint_range (a b : Genome α) :
    (0 ≤ (a.compare b 0 0).1 ∧ (a.compare b 0 0).1 ≤ 2) ∧
    (0 ≤ (b.compare a 0 0).1 ∧ (b.compare a 0 0).1 ≤ 2) :=
  ⟨compare_disjoint_bounds a b, compare_disjoint_bounds b a⟩

theorem find_eq_none_of_disjoint (i : Nat) (l : List (Gene α))
    (h : ∀ og ∈ l, i ≠ og.innovation) :
    l.find? (fun og => i = og.innovation) = none := by
  rw [List.find?_eq_none]
  intro og hog
  simpa using h og hog

theorem compare_of_disjoint (a b : Genome α) (ha : a.network ≠ [])
    (hdisj : ∀ x ∈ a.network, ∀ y ∈ b.network, x.innovation ≠ y.innovation) (d w : α) :
    a.compare b d w =
      (((a.network.length : α) + (b.network.length : α)) /
        ((max a.network.length b.network.length : Nat) : α), 0) := by
  have hfind : ∀ gene ∈ a.network,
      b.network.find? (fun og => gene.innovation = og.innovation) = none :=
    fun gene hg => find_eq_none_of_disjoint _ _ (hdisj gene hg)
  have h1 : (a.network.map (fun gene =>
      (b.network.find? (fun og => gene.innovation = og.innovation)).elim 1
        (fun _ => (0 : α)))) = a.network.map (fun _ => (1 : α)) := by
    apply List.map_congr_left
    intro gene hg
    rw [hfind gene hg]
    rfl
  have h2 : (a.network.map (fun gene =>
      (b.network.find? (fun og => gene.innovation = og.innovation)).elim 0
        (fun _ => (1 : α)))) = a.network.map (fun _ => (0 : α)) := by
    apply List.map_congr_left
    intro gene hg
    rw [hfind gene hg]
    rfl
  have hsum1 : (a.network.map (fun _ => (1 : α))).sum = (a.network.length : α) := by
    simp
  have hsum0 : (a.network.map (fun _ => (0 : α))).sum = 0 := by
    simp
  apply Prod.ext
  · rw [compare_disjoint_eq a b ha, h1, hsum1]
  · rw [compare_weights_eq a b ha, h2, hsum0]
    simp

/-- C12 as stated fails: two one-gene genomes with the innovation numbers `1` and `2` have
disjoint sets of innovation numbers, and `compare` returns `weights = 0` but `disjoint = 2`. -/
theorem compare_no_match_is_two :
    (∀ x ∈ oneGeneGenome.network, ∀ y ∈ secondGeneGenome.network,
      x.innovation ≠ y.innovation) ∧
    oneGeneGenome.compare secondGeneGenome 0 0 = (2, 0) ∧
    (oneGeneGenome.compare secondGeneGenome 0 0).1 ≠ 1 := by
  have h : oneGeneGenome.compare secondGeneGenome 0 0 = (2, 0) := by
    simp [Genome.compare, oneGeneGenome, secondGeneGenome, compareStep]
    norm_num
  rw [h]
  exact ⟨by simp [oneGeneGenome, secondGeneGenome], rfl, by norm_num⟩

/-- C12, amended: for two genomes whose sets of innovation numbers are disjoint and whose
caller has a non-empty network, `compare` returns `weights = 0` and
`disjoint = (|self| + |other|) / max(|self|, |other|)`; this value lies in `[1, 2]` and is `1`
exactly when `other` has no gene. -/
theorem compare_no_match (a b : Genome α) (ha : a.network ≠ [])
    (hdisj : ∀ x ∈ a.network, ∀ y ∈ b.network, x.innovation ≠ y.innovation) (d w : α) :
    (a.compare b d w).2 = 0 ∧
    (a.compare b d w).1 =
      ((a.network.length : α) + (b.network.length : α)) /
        ((max a.network.length b.network.length : Nat) : α) ∧
    1 ≤ (a.compare b d w).1 ∧ (a.compare b d w).1 ≤ 2 ∧
    ((a.compare b d w).1 = 1 ↔ b.network = []) := by
  rw [compare_of_disjoint a b ha hdisj]
  have hlen : 0 < a.network.length := List.length_pos.2 ha
  have hmax : (0 : α) < ((max a.network.length b.network.length : Nat) : α) := by
    exact_mod_cast lt_of_lt_of_le hlen (le_max_left _ _)
  refine ⟨rfl, rfl, ?_, ?_, ?_⟩
  · show 1 ≤ _ / _
    rw [le_div_iff₀ hmax, one_mul]
    have : max a.network.length b.network.length ≤ a.network.length + b.network.length := by
      omega
    exact_mod_cast this
  · show _ / _ ≤ (2 : α)
    rw [div_le_iff₀ hmax]
    have : a.network.length + b.network.length
        ≤ 2 * max a.network.length b.network.length := by omega
    exact_mod_cast this
  · show _ / _ = (1 : α) ↔ _
    rw [div_eq_one_iff_eq hmax.ne']
    constructor
    · intro h
      have h2 : a.network.length + b.network.length
          = max a.network.length b.network.length := by exact_mod_cast h
      have : b.network.length = 0 := by omega
      exact List.length_eq_zero.1 this
    · intro h
      rw [h]
      simp

/-- Witness of the amended C12: the two one-gene genomes with innovation numbers `1` and
`2`. -/
theorem compare_no_match_witness :
    (oneGeneGenome.compare secondGeneGenome 0 0).2 = 0 ∧
    (oneGeneGenome.compare secondGeneGenome 0 0).1 =
      ((oneGeneGenome.network.length : ℚ) + (secondGeneGenome.network.length : ℚ)) /
        ((max oneGeneGenome.network.length secondGeneGenome.network.length : Nat) : ℚ) ∧
    1 ≤ (oneGeneGenome.compare secondGeneGenome 0 0).1 ∧
    (oneGeneGenome.compare secondGeneGenome 0 0).1 ≤ 2 ∧
    ((oneGeneGenome.compare secondGeneGenome 0 0).1 = 1 ↔ secondGeneGenome.network = []) :=
  compare_no_match oneGeneGenome secondGeneGenome (by simp [oneGeneGenome])
    (by simp [oneGeneGenome, secondGeneGenome]) 0 0

/-- C13 (defect of `compare`): with an empty caller `compare` sets both values to `1`, but
with a non-empty caller and an empty `other` it sets `disjoint = 1` and `weights = 0`. -/
theorem compare_other_empty :
    emptyGenome.compare oneGeneGenome 0 0 = (1, 1) ∧
    oneGeneGenome.compare emptyGenome 0 0 = (1, 0) := by
  constructor
  · simp [Genome.compare, emptyGenome, oneGeneGenome]
  · simp [Genome.compare, emptyGenome, oneGeneGenome, compareStep]

/-! ## C14: the breed count of a species -/

/-- C14 (defect of `speciesBreedCount`): for the species of one genome of fitness `1` and
`total_avg = 200` the ratio is `1/200 < 1/100`, the floor is `0`, and the `size_t` subtraction
wraps: the function returns `2 ^ 64 - 1`, not `0`. -/
theorem speciesBreedCount_wraps :
    (⟨[bareGenome 1]⟩ : Species ℚ).averageFitness / 200 < 1 / (GYM_POPULATION : ℚ) ∧
    Nat.floor ((⟨[bareGenome 1]⟩ : Species ℚ).averageFitness / 200 * (GYM_POPULATION : ℚ)) = 0 ∧
    (⟨[bareGenome 1]⟩ : Species ℚ).speciesBreedCount 200 = 18446744073709551615 := by
  decide!

/-! ## C18: full cull -/

/-- C18 (defect of `cullSpecies`): in a gym whose species are all non-empty and whose first
species holds a single genome, the full cull returns at that species; the second species keeps
its four genomes instead of only its fittest one. -/
theorem cullSpecies_full_stops_at_singleton :
    (∀ species ∈ singletonFirstGym.all_species, species.genomes ≠ []) ∧
    (singletonFirstGym.cullSpecies false).all_species.map
        (fun species => species.genomes.map Genome.fitness)
      = [[5], [1, 2, 3, 4]] := by
  constructor
  · simp [singletonFirstGym]
  · rfl

/-! ## C19: removal of stale species -/

theorem sortSpecies_perm (l : List (Species α)) : (sortSpecies l).Perm l :=
  List.perm_insertionSort _ l

theorem sortSpecies_sorted (l : List (Species α)) :
    (sortSpecies l).Sorted
      (fun s1 s2 => (s1.genomes.getD 0 default).fitness ≥ (s2.genomes.getD 0 default).fitness) :=
  List.sorted_insertionSort _ l

/-- The species list `removeStaleSpecies` leaves, in terms of the sorted list. -/
theorem removeStaleSpecies_eq (gym : Gym α) (hne : gym.all_species ≠ []) :
    ∃ first rest,
      (first :: rest).Perm gym.all_species ∧
      (first :: rest).Sorted
        (fun s1 s2 =>
          (s1.genomes.getD 0 default).fitness ≥ (s2.genomes.getD 0 default).fitness) ∧
      gym.removeStaleSpecies =
        { gym with all_species :=
            first :: rest.filter (fun species => SPECIES_STALE_THRESHOLD ≤ species.genomes.length) }
      := by
  unfold Gym.removeStaleSpecies
  by_cases h1 : gym.all_species.length = 1
  · rw [if_pos h1]
    obtain ⟨s, hs⟩ := List.length_eq_one.1 h1
    refine ⟨s, [], by rw [hs], List.sorted_singleton _, ?_⟩
    simp [← hs]
  · rw [if_neg h1]
    have hperm := sortSpecies_perm gym.all_species
    have hsorted := sortSpecies_sorted gym.all_species
    cases hsort : sortSpecies gym.all_species with
    | nil =>
      rw [hsort] at hperm
      exact absurd hperm.symm.eq_nil hne
    | cons first rest =>
      rw [hsort] at hperm hsorted
      refine ⟨first, rest, hperm, hsorted, ?_⟩
      simp only [not_lt]

/-- C19: for a gym with at least one species, all of them non-empty, `removeStaleSpecies`
leaves `first :: rest'`, where `first :: rest` is the species list reordered by descending
fitness of the first genome and `rest'` keeps, in order, exactly the species of `rest` with at
least `SPECIES_STALE_THRESHOLD = 5` genomes; `first` stays whatever its size, the species kept
are unchanged, and so are the other fields of the gym. -/
theorem removeStaleSpecies_spec (gym : Gym α) (hne : gym.all_species ≠ [])
    (hsp : ∀ species ∈ gym.all_species, species.genomes ≠ []) :
    ∃ first rest,
      (first :: rest).Perm gym.all_species ∧
      (first :: rest).Sorted
        (fun s1 s2 =>
          (s1.genomes.getD 0 default).fitness ≥ (s2.genomes.getD 0 default).fitness) ∧
      gym.removeStaleSpecies.all_species =
        first :: rest.filter (fun species => 5 ≤ species.genomes.length) ∧
      SPECIES_STALE_THRESHOLD = 5 ∧
      gym.removeStaleSpecies.current_species = gym.current_species ∧
      gym.removeStaleSpecies.current_genome = gym.current_genome ∧
      gym.removeStaleSpecies.generation = gym.generation ∧
      gym.removeStaleSpecies.top_fitness_genome = gym.top_fitness_genome := by
  obtain ⟨first, rest, hperm, hsorted, heq⟩ := removeStaleSpecies_eq gym hne
  rw [heq]
  exact ⟨first, rest, hperm, hsorted, rfl, rfl, rfl, rfl, rfl, rfl⟩

/-- Witness of C19 on the gym of a one-genome species and a four-genome species. -/
theorem removeStaleSpecies_spec_witness :
    ∃ first rest,
      (first :: rest).Perm singletonFirstGym.all_species ∧
      (first :: rest).Sorted
        (fun s1 s2 =>
          (s1.genomes.getD 0 default).fitness ≥ (s2.genomes.getD 0 default).fitness) ∧
      singletonFirstGym.removeStaleSpecies.all_species =
        first :: rest.filter (fun species => 5 ≤ species.genomes.length) ∧
      SPECIES_STALE_THRESHOLD = 5 ∧
      singletonFirstGym.removeStaleSpecies.current_species = singletonFirstGym.current_species ∧
      singletonFirstGym.removeStaleSpecies.current_genome = singletonFirstGym.current_genome ∧
      singletonFirstGym.removeStaleSpecies.generation = singletonFirstGym.generation ∧
      singletonFirstGym.removeStaleSpecies.top_fitness_genome
        = singletonFirstGym.top_fitness_genome :=
  removeStaleSpecies_spec singletonFirstGym (by simp [singletonFirstGym])
    (by simp [singletonFirstGym])

/-! ## C20: removal of weak species -/

theorem foldl_add_eq_sum {β : Type} (f : β → α) (l : List β) (init : α) :
    l.foldl (fun total x => total + f x) init = init + (l.map f).sum := by
  induction l generalizing init with
  | nil => simp
  | cons x rest ih => simp [ih, add_assoc]

theorem totalAverageFitness_eq (gym : Gym α) :
    gym.totalAverageFitness = (gym.all_species.map Species.averageFitness).sum := by
  unfold Gym.totalAverageFitness
  rw [foldl_add_eq_sum, zero_add]

theorem removeWeakSpecies_eq [FloorRing α] (gym : Gym α) (first : Species α)
    (rest : List (Species α)) (h : gym.all_species = first :: rest) :
    gym.removeWeakSpecies =
      { gym with all_species :=
          first :: rest.filter (fun species =>
            SPECIES_BREED_THRESHOLD ≤ species.speciesBreedCount gym.totalAverageFitness) } := by
  unfold Gym.removeWeakSpecies
  by_cases h1 : gym.all_species.length = 1
  · rw [if_pos h1]
    have hrest : rest = [] := by
      rw [h] at h1
      simpa using h1
    subst hrest
    simp [← h]
  · rw [if_neg h1]
    simp only [h, not_lt]

/-- C20: `removeWeakSpecies` computes `total_avg`, the sum of the average fitnesses of all the
species, once; it keeps the first species, and of the species after it keeps, in order and
unchanged, exactly those whose `speciesBreedCount(total_avg)` is at least
`SPECIES_BREED_THRESHOLD = 3`; the other fields of the gym are unchanged. -/
theorem removeWeakSpecies_spec [FloorRing α] (gym : Gym α) (first : Species α)
    (rest : List (Species α)) (h : gym.all_species = first :: rest) :
    gym.removeWeakSpecies.all_species =
      first :: rest.filter (fun species =>
        3 ≤ species.speciesBreedCount ((gym.all_species.map Species.averageFitness).sum)) ∧
    SPECIES_BREED_THRESHOLD = 3 ∧
    gym.removeWeakSpecies.current_species = gym.current_species ∧
    gym.removeWeakSpecies.current_genome = gym.current_genome ∧
    gym.removeWeakSpecies.generation = gym.generation ∧
    gym.removeWeakSpecies.top_fitness_genome = gym.top_fitness_genome := by
  rw [removeWeakSpecies_eq gym first rest h, ← totalAverageFitness_eq]
  exact ⟨rfl, rfl, rfl, rfl, rfl, rfl⟩

/-- Witness of C20 on the gym of a two-genome species and a ten-genome species. -/
theorem removeWeakSpecies_spec_witness :
    budgetGym.removeWeakSpecies.all_species =
      (⟨[bareGenome 75, bareGenome 75]⟩ : Species ℚ) ::
        [(⟨List.replicate 10 (bareGenome 25)⟩ : Species ℚ)].filter (fun species =>
          3 ≤ species.speciesBreedCount
            ((budgetGym.all_species.map Species.averageFitness).sum)) ∧
    SPECIES_BREED_THRESHOLD = 3 ∧
    budgetGym.removeWeakSpecies.current_species = budgetGym.current_species ∧
    budgetGym.removeWeakSpecies.current_genome = budgetGym.current_genome ∧
    budgetGym.removeWeakSpecies.generation = budgetGym.generation ∧
    budgetGym.removeWeakSpecies.top_fitness_genome = budgetGym.top_fitness_genome :=
  removeWeakSpecies_spec budgetGym _ _ rfl

/-! ## C15, C16, C17: one generation -/

theorem halfDraws_unit : (⟨halfDraws, 0, 0⟩ : Env ℚ).UnitDraws := by
  intro n
  simp only [halfDraws]
  norm_num

/-- C15 (defect of `cullSpecies`): `budgetGym` holds 12 genomes of positive fitness in two
non-empty species.  One `advanceGeneration` breeds `74 + 24` children, and the full cull
returns at the first species, which the half-cull has reduced to one genome, so the second
species keeps five genomes: the gym ends with `99 + 5 = 104` genomes. -/
theorem advanceGeneration_exceeds_budget :
    budgetGym.all_species.map (fun species => species.genomes.length) = [2, 10] ∧
    (∀ species ∈ budgetGym.all_species, ∀ genome ∈ species.genomes, 0 ≤ genome.fitness) ∧
    (budgetGym.advanceGeneration ⟨halfDraws, 0, 0⟩).map
        (fun r => r.1.all_species.map (fun species => species.genomes.length))
      = some [99, 5] ∧
    GYM_POPULATION < 99 + 5 := by
  refine ⟨by decide!, ?_, by decide!, by decide⟩
  decide!

/-- C16 (defect of `cullSpecies`): in `unsortedGym` the half-cull returns at the one-genome
first species and leaves the second species unsorted.  `advanceGeneration` snapshots its first
genome, of fitness `1`, and the full cull then sorts the species: afterwards
`all_species[ 0 ].genomes[ 0 ]` has fitness `9` while `top_fitness_genome` has fitness `1`. -/
theorem advanceGeneration_champion_differs :
    (unsortedGym.advanceGeneration ⟨halfDraws, 0, 0⟩).map
        (fun r => (((r.1.all_species.getD 0 default).genomes.getD 0 default).fitness,
          r.1.top_fitness_genome.fitness))
      = some (9, 1) := by
  decide!

/-- C17 as stated fails: `advanceGeneration` overwrites the stored champion without looking at
it.  In `fadedGym` the champion has fitness `5` before the call and fitness `1` after it. -/
theorem advanceGeneration_lowers_champion :
    fadedGym.top_fitness_genome.fitness = 5 ∧
    (fadedGym.advanceGeneration ⟨halfDraws, 0, 0⟩).map
        (fun r => r.1.top_fitness_genome.fitness) = some 1 := by
  decide!

/-! ### The champion snapshot of `advanceGeneration` -/

/-- On draws of `[0, 1)` and a genome of at least `INPUTS + OUTPUTS` neurons, `mutate` passes
all its assertions. -/
theorem mutate_succeeds [FloorRing α] (g : Genome α) (e : Env α) (he : e.UnitDraws)
    (htot : INPUTS + OUTPUTS ≤ g.total_neurons) :
    ∃ g1 e1, g.mutate e = some (g1, e1) ∧ e1.draws = e.draws ∧
      INPUTS + OUTPUTS ≤ g1.total_neurons := by
  have hunit : ∀ e1 : Env α, e1.draws = e.draws → e1.UnitDraws :=
    fun e1 h n => by rw [h]; exact he n
  have key := mutate_chain
    (fun (g : Genome α) (e1 : Env α) => INPUTS + OUTPUTS ≤ g.total_neurons ∧ e1.draws = e.draws)
    (fun g e1 => INPUTS + OUTPUTS ≤ g.total_neurons ∧ e1.draws = e.draws)
    (fun g e1 => INPUTS + OUTPUTS ≤ g.total_neurons ∧ e1.draws = e.draws)
    (fun g e1 => INPUTS + OUTPUTS ≤ g.total_neurons ∧ e1.draws = e.draws)
    (fun g e1 => INPUTS + OUTPUTS ≤ g.total_neurons ∧ e1.draws = e.draws)
    (fun g e1 h => ⟨h, by
      obtain ⟨g1, e2, hs, ht, -, -, hd, -⟩ :=
        mutateWeight_spec g (generateRandom e1).2 (hunit _ h.2)
      exact ⟨g1, e2, hs, by rw [ht]; exact h.1, by rw [hd]; exact h.2⟩⟩)
    (fun g e1 h => ⟨h, fun _ => by
      obtain ⟨g1, e2, hs, hd, hcase⟩ := mutateNode_spec g (generateRandom e1).2 (hunit _ h.2)
      refine ⟨g1, e2, hs, ?_, by rw [hd]; exact h.2⟩
      rcases hcase with ⟨rfl, -⟩ | ⟨i, bot, top, -, -, ht, -⟩
      · exact h.1
      · rw [ht]; exact Nat.le_succ_of_le h.1⟩)
    (fun g e1 h => ⟨h, by
      obtain ⟨g1, e2, hs, hd, ht, -⟩ :=
        mutateLink_spec g (generateRandom e1).2 (hunit _ h.2) h.1
      exact ⟨g1, e2, hs, by rw [ht]; exact h.1, by rw [hd]; exact h.2⟩⟩)
    (fun g e1 h => ⟨h, by
      obtain ⟨g1, e2, hs, ht, -, hd, -⟩ :=
        mutateState_spec g (generateRandom e1).2 (hunit _ h.2)
          (by have := h.1; unfold INPUTS OUTPUTS at this; omega)
      exact ⟨g1, e2, hs, by rw [ht]; exact h.1, by rw [hd]; exact h.2⟩⟩)
    g e ⟨htot, rfl⟩
  obtain ⟨g4, e4, hs, ht, hd⟩ := key
  exact ⟨g4, e4, hs, hd, ht⟩

theorem crossover_spec (g other : Genome α) (e : Env α) :
    (g.crossover other e).2.draws = e.draws ∧
    g.total_neurons ≤ (g.crossover other e).1.total_neurons ∧
    (g.crossover other e).1.fitness = g.fitness := by
  unfold Genome.crossover
  split
  · exact ⟨rfl, le_refl _, rfl⟩
  · refine ⟨(crossoverAdditions_spec g.network other.network e).2.2.1, ?_, rfl⟩
    show g.total_neurons ≤
      (if other.total_neurons < g.total_neurons then g.total_neurons else other.total_neurons)
    split <;> omega

theorem breedChild_spec [FloorRing α] (species : Species α) (e : Env α)
    (hne : species.genomes ≠ [])
    (hall : ∀ genome ∈ species.genomes, INPUTS + OUTPUTS ≤ genome.total_neurons) :
    INPUTS + OUTPUTS ≤ (species.breedChild e).1.total_neurons ∧
    (species.breedChild e).2.draws = e.draws := by
  have hone : INPUTS + OUTPUTS ≤ (species.genomes.getD 0 default).total_neurons := by
    apply hall
    rw [List.getD_eq_getElem _ _ (List.length_pos.2 hne)]
    exact List.getElem_mem _
  unfold Species.breedChild
  simp only
  split
  · obtain ⟨h1, h2, -⟩ := crossover_spec (species.genomes.getD 0 default)
      (species.genomes.getD
        (randomIndex (generateRandom (generateRandom e).2).1 species.genomes.length) default)
      (generateRandom (generateRandom e).2).2
    exact ⟨le_trans hone h2, h1⟩
  · exact ⟨hone, rfl⟩

theorem breedLoop_spec [FloorRing α] (species : Species α) (hne : species.genomes ≠ [])
    (hall : ∀ genome ∈ species.genomes, INPUTS + OUTPUTS ≤ genome.total_neurons)
    (n : Nat) (e : Env α) :
    (∀ child ∈ (breedLoop species n e).1, INPUTS + OUTPUTS ≤ child.total_neurons) ∧
    (breedLoop species n e).2.draws = e.draws := by
  induction n generalizing e with
  | zero => exact ⟨fun _ h => absurd h (List.not_mem_nil _), rfl⟩
  | succ n ih =>
    obtain ⟨h1, h2⟩ := breedChild_spec species e hne hall
    obtain ⟨i1, i2⟩ := ih (species.breedChild e).2
    refine ⟨?_, ?_⟩
    · intro child hc
      have hc2 : child ∈ (species.breedChild e).1 ::
          (breedLoop species n (species.breedChild e).2).1 := hc
      rcases List.mem_cons.1 hc2 with rfl | hc3
      · exact h1
      · exact i1 child hc3
    · show (breedLoop species n (species.breedChild e).2).2.draws = e.draws
      rw [i2, h2]

theorem breedAll_cons [FloorRing α] (total : α) (species : Species α)
    (rest : List (Species α)) (e : Env α) :
    breedAll total (species :: rest) e =
      ((breedLoop species (species.speciesBreedCount total) e).1 ++
          (breedAll total rest (breedLoop species (species.speciesBreedCount total) e).2).1,
        (breedAll total rest (breedLoop species (species.speciesBreedCount total) e).2).2) := by
  rw [breedAll]

theorem breedAll_spec [FloorRing α] (total : α) (l : List (Species α))
    (hne : ∀ species ∈ l, species.genomes ≠ [])
    (hall : ∀ species ∈ l, ∀ genome ∈ species.genomes,
      INPUTS + OUTPUTS ≤ genome.total_neurons) (e : Env α) :
    (∀ child ∈ (breedAll total l e).1, INPUTS + OUTPUTS ≤ child.total_neurons) ∧
    (breedAll total l e).2.draws = e.draws := by
  induction l generalizing e with
  | nil => exact ⟨fun _ h => absurd h (List.not_mem_nil _), rfl⟩
  | cons species rest ih =>
    obtain ⟨h1, h2⟩ := breedLoop_spec species (hne species (List.mem_cons_self _ _))
      (hall species (List.mem_cons_self _ _)) (species.speciesBreedCount total) e
    obtain ⟨i1, i2⟩ := ih (fun s hs => hne s (List.mem_cons_of_mem _ hs))
      (fun s hs => hall s (List.mem_cons_of_mem _ hs))
      (breedLoop species (species.speciesBreedCount total) e).2
    rw [breedAll_cons]
    refine ⟨?_, by rw [i2, h2]⟩
    intro child hc
    rcases List.mem_append.1 hc with hc3 | hc3
    · exact h1 child hc3
    · exact i1 child hc3

theorem injectChildren_spec [FloorRing α] (children : List (Genome α))
    (hall : ∀ child ∈ children, INPUTS + OUTPUTS ≤ child.total_neurons)
    (gym : Gym α) (e : Env α) (he : e.UnitDraws) :
    ∃ gym1 e1, injectChildren children gym e = some (gym1, e1) ∧
      gym1.top_fitness_genome = gym.top_fitness_genome ∧
      gym1.generation = gym.generation ∧ e1.draws = e.draws := by
  induction children generalizing gym e with
  | nil => exact ⟨gym, e, rfl, rfl, rfl, rfl⟩
  | cons child rest ih =>
    obtain ⟨g1, e1, hs, hd, -⟩ :=
      mutate_succeeds child e he (hall child (List.mem_cons_self _ _))
    obtain ⟨gym2, e2, hs2, ht, hg, hd2⟩ :=
      ih (fun c hc => hall c (List.mem_cons_of_mem _ hc))
        (gym.addGenomeToRespectiveSpecies g1) e1 (fun n => by rw [hd]; exact he n)
    refine ⟨gym2, e2, ?_, ht, hg, by rw [hd2, hd]⟩
    simp only [injectChildren, hs]
    exact hs2

/-- When the species at the snapshot are non-empty and made of genomes of at least
`INPUTS + OUTPUTS` neurons, `advanceGeneration` succeeds and stores the snapshot champion. -/
theorem advanceGeneration_top [FloorRing α] (gym : Gym α) (e : Env α) (he : e.UnitDraws)
    (hne : gym.all_species ≠ [])
    (hsp : ∀ species ∈ gym.snapshot.all_species, species.genomes ≠ [])
    (hall : ∀ species ∈ gym.snapshot.all_species, ∀ genome ∈ species.genomes,
      INPUTS + OUTPUTS ≤ genome.total_neurons) :
    ∃ gym1 e1, gym.advanceGeneration e = some (gym1, e1) ∧
      gym1.top_fitness_genome = gym.snapshot.top_fitness_genome := by
  obtain ⟨hc, hd⟩ := breedAll_spec gym.snapshot.totalAverageFitness gym.snapshot.all_species
    hsp hall e
  have hunit : (gym.snapshot.breedChildren e).2.UnitDraws := by
    intro n
    unfold Gym.breedChildren
    rw [hd]
    exact he n
  obtain ⟨gym1, e1, hs, ht, -, -⟩ := injectChildren_spec (gym.snapshot.breedChildren e).1 hc
    (gym.snapshot.cullSpecies false) (gym.snapshot.breedChildren e).2 hunit
  have hemp : gym.all_species.isEmpty = false := by
    cases h : gym.all_species with
    | nil => exact absurd h hne
    | cons x l => rfl
  refine ⟨{ gym1 with
      generation := gym1.generation + 1
      all_species := stampGeneration (gym1.generation + 1) gym1.all_species }, e1, ?_, ht⟩
  unfold Gym.advanceGeneration
  simp only [hemp, Bool.false_eq_true, if_false, hs]

theorem sortByFitness_perm (l : List (Genome α)) : (sortByFitness l).Perm l :=
  List.perm_insertionSort _ l

theorem sortByFitness_sorted (l : List (Genome α)) :
    (sortByFitness l).Sorted (fun g1 g2 => g1.fitness ≥ g2.fitness) :=
  List.sorted_insertionSort _ l

/-- Sorting a species and keeping its first `k ≥ 1` genomes leaves a non-empty part of the
species whose first genome is at least as fit as every genome of the species. -/
theorem take_sortByFitness_spec (l : List (Genome α)) (hl : l ≠ []) (k : Nat) (hk : 1 ≤ k) :
    (sortByFitness l).take k ≠ [] ∧
    (∀ genome ∈ (sortByFitness l).take k, genome ∈ l) ∧
    ((sortByFitness l).take k).getD 0 default ∈ l ∧
    ∀ genome ∈ l, genome.fitness ≤ (((sortByFitness l).take k).getD 0 default).fitness := by
  have hperm := sortByFitness_perm l
  have hsorted := sortByFitness_sorted l
  cases hs : sortByFitness l with
  | nil =>
    rw [hs] at hperm
    exact absurd hperm.symm.eq_nil hl
  | cons head tail =>
    rw [hs] at hperm hsorted
    obtain ⟨k, rfl⟩ : ∃ j, k = j + 1 := ⟨k - 1, by omega⟩
    simp only [List.take_succ_cons, List.getD_cons_zero]
    refine ⟨by simp, ?_, hperm.subset (List.mem_cons_self _ _), ?_⟩
    · intro genome hg
      apply hperm.subset
      rcases List.mem_cons.1 hg with rfl | hg
      · exact List.mem_cons_self _ _
      · exact List.mem_cons_of_mem _ (List.mem_of_mem_take hg)
    · intro genome hg
      rcases List.mem_cons.1 (hperm.symm.subset hg) with rfl | hg
      · exact le_refl _
      · exact List.rel_of_sorted_cons hsorted genome hg

/-- Where no species holds exactly one genome, the loop of `cullSpecies` reaches every
species. -/
theorem cullLoop_of_no_singleton (half_cull : Bool) (l : List (Species α))
    (h : ∀ species ∈ l, species.genomes.length ≠ 1) :
    cullLoop half_cull l =
      l.map (fun species =>
        { genomes := (sortByFitness species.genomes).take
            (if half_cull then (sortByFitness species.genomes).length / 2 else 1) }) := by
  induction l with
  | nil => rfl
  | cons species rest ih =>
    simp only [cullLoop, List.map_cons]
    rw [if_neg (h species (List.mem_cons_self _ _)),
      ih (fun s hs => h s (List.mem_cons_of_mem _ hs))]

/-- The half-cull of a population whose species all hold at least two genomes. -/
theorem cullLoop_half_spec (l : List (Species α))
    (h2 : ∀ species ∈ l, 2 ≤ species.genomes.length) :
    (∀ culled ∈ cullLoop true l, culled.genomes ≠ [] ∧
      (culled.genomes.getD 0 default) ∈ culled.genomes ∧
      ∃ species ∈ l, ∀ genome ∈ culled.genomes, genome ∈ species.genomes) ∧
    (∀ species ∈ l, ∃ culled ∈ cullLoop true l,
      ∀ genome ∈ species.genomes,
        genome.fitness ≤ (culled.genomes.getD 0 default).fitness) ∧
    (cullLoop true l = [] ↔ l = []) := by
  rw [cullLoop_of_no_singleton true l (fun s hs => by have := h2 s hs; omega)]
  have hone : ∀ species ∈ l, 1 ≤ (sortByFitness species.genomes).length / 2 := by
    intro species hs
    have := h2 species hs
    rw [(sortByFitness_perm species.genomes).length_eq]
    omega
  have hnil : ∀ species ∈ l, species.genomes ≠ [] := by
    intro species hs hn
    have := h2 species hs
    rw [hn] at this
    simp at this
  refine ⟨?_, ?_, by simp⟩
  · intro culled hc
    obtain ⟨species, hs, rfl⟩ := List.mem_map.1 hc
    obtain ⟨t1, t2, t3, -⟩ := take_sortByFitness_spec species.genomes (hnil species hs)
      ((sortByFitness species.genomes).length / 2) (hone species hs)
    simp only [if_true]
    refine ⟨t1, ?_, species, hs, t2⟩
    rw [List.getD_eq_getElem _ _ (List.length_pos.2 t1)]
    exact List.getElem_mem _
  · intro species hs
    obtain ⟨-, -, -, t4⟩ := take_sortByFitness_spec species.genomes (hnil species hs)
      ((sortByFitness species.genomes).length / 2) (hone species hs)
    exact ⟨_, List.mem_map_of_mem _ hs, by simpa using t4⟩

/-- After `removeStaleSpecies` and `removeWeakSpecies` the species left are species of the
gym, and the first of them has the fittest first genome of all the species of the gym. -/
theorem stale_weak_spec [FloorRing α] (gym : Gym α) (hne : gym.all_species ≠ []) :
    (∀ species ∈ gym.removeStaleSpecies.removeWeakSpecies.all_species,
      species ∈ gym.all_species) ∧
    (gym.removeStaleSpecies.removeWeakSpecies.all_species.getD 0 default) ∈ gym.all_species ∧
    ∀ species ∈ gym.all_species,
      (species.genomes.getD 0 default).fitness ≤
        ((gym.removeStaleSpecies.removeWeakSpecies.all_species.getD 0 default).genomes.getD 0
          default).fitness := by
  obtain ⟨first, rest, hperm, hsorted, heq⟩ := removeStaleSpecies_eq gym hne
  have hweak := removeWeakSpecies_eq gym.removeStaleSpecies first
    (rest.filter (fun species => SPECIES_STALE_THRESHOLD ≤ species.genomes.length))
    (by rw [heq])
  rw [hweak]
  simp only [List.getD_cons_zero]
  refine ⟨?_, hperm.subset (List.mem_cons_self _ _), ?_⟩
  · intro species hs
    apply hperm.subset
    rcases List.mem_cons.1 hs with rfl | hs
    · exact List.mem_cons_self _ _
    · exact List.mem_cons_of_mem _ (List.mem_of_mem_filter (List.mem_of_mem_filter hs))
  · intro species hs
    rcases List.mem_cons.1 (hperm.symm.subset hs) with rfl | hs
    · exact le_refl _
    · exact List.rel_of_sorted_cons hsorted species hs

/-- C17, amended: let every species of the gym hold at least two genomes (so that the half-cull
sorts every species), every genome have at least `INPUTS + OUTPUTS` neurons and the draws lie
in `[0, 1)`.  Then `advanceGeneration` succeeds, and the `top_fitness_genome` it stores is a
genome of the population that was just evaluated whose fitness is at least the fitness of every
genome of that population.  Nothing is said about the champion stored before the call, which
the function overwrites without reading it. -/
theorem advanceGeneration_champion [FloorRing α] (gym : Gym α) (e : Env α) (he : e.UnitDraws)
    (hne : gym.all_species ≠ [])
    (h2 : ∀ species ∈ gym.all_species, 2 ≤ species.genomes.length)
    (htot : ∀ species ∈ gym.all_species, ∀ genome ∈ species.genomes,
      INPUTS + OUTPUTS ≤ genome.total_neurons) :
    ∃ gym1 e1, gym.advanceGeneration e = some (gym1, e1) ∧
      (∃ species ∈ gym.all_species, gym1.top_fitness_genome ∈ species.genomes) ∧
      ∀ species ∈ gym.all_species, ∀ genome ∈ species.genomes,
        genome.fitness ≤ gym1.top_fitness_genome.fitness := by
  obtain ⟨hc1, hc2, hc3⟩ := cullLoop_half_spec gym.all_species h2
  have hcne : (gym.cullSpecies true).all_species ≠ [] := fun h => hne (hc3.1 h)
  obtain ⟨hs1, hs2, hs3⟩ := stale_weak_spec (gym.cullSpecies true) hcne
  have hsnap : gym.snapshot.all_species =
      (gym.cullSpecies true).removeStaleSpecies.removeWeakSpecies.all_species := rfl
  have htop : gym.snapshot.top_fitness_genome =
      ((gym.cullSpecies true).removeStaleSpecies.removeWeakSpecies.all_species.getD 0
        default).genomes.getD 0 default := rfl
  obtain ⟨gym1, e1, hadv, ht⟩ := advanceGeneration_top gym e he hne
    (fun species hs => (hc1 species (hs1 species (hsnap ▸ hs))).1)
    (fun species hs genome hg => by
      obtain ⟨-, -, orig, horig, hsub⟩ := hc1 species (hs1 species (hsnap ▸ hs))
      exact htot orig horig genome (hsub genome hg))
  refine ⟨gym1, e1, hadv, ?_, ?_⟩
  · obtain ⟨-, hmem, orig, horig, hsub⟩ := hc1 _ hs2
    exact ⟨orig, horig, by rw [ht, htop]; exact hsub _ hmem⟩
  · intro species hs genome hg
    obtain ⟨culled, hculled, hle⟩ := hc2 species hs
    rw [ht, htop]
    exact le_trans (hle genome hg) (hs3 culled hculled)

/-- Witness of the amended C17 on `fadedGym`. -/
theorem advanceGeneration_champion_witness :
    ∃ gym1 e1, fadedGym.advanceGeneration ⟨halfDraws, 0, 0⟩ = some (gym1, e1) ∧
      (∃ species ∈ fadedGym.all_species, gym1.top_fitness_genome ∈ species.genomes) ∧
      ∀ species ∈ fadedGym.all_species, ∀ genome ∈ species.genomes,
        genome.fitness ≤ gym1.top_fitness_genome.fitness :=
  advanceGeneration_champion fadedGym ⟨halfDraws, 0, 0⟩ halfDraws_unit
    (by simp [fadedGym]) (by simp [fadedGym])
    (by simp [fadedGym, bareGenome, INPUTS, OUTPUTS])

/-! ## C25: crossover -/

/-- The genes `crossover` appends: the genes of `other` that `operator==` identifies with no
gene of `self` are numbered in order, the `k`-th of them is tested against the `k`-th draw from
the current position of the generator, and those whose draw is below
`CROSSOVER_GENE_ADDITION` are kept. -/
theorem crossoverAdditions_eq (own : List (Gene α)) (l : List (Gene α)) (e : Env α) :
    crossoverAdditions own l e =
      ((((l.filter (fun other_gene => !own.any (fun gene => other_gene.eqv gene))).enumFrom
            e.drawn).filter
          (fun p => decide (e.draws p.1 < CROSSOVER_GENE_ADDITION α))).map Prod.snd,
        { e with drawn := e.drawn +
            (l.filter (fun other_gene => !own.any (fun gene => other_gene.eqv gene))).length }) := by
  induction l generalizing e with
  | nil => rfl
  | cons other_gene rest ih =>
    by_cases hfound : own.any (fun gene => other_gene.eqv gene) = true
    · have hstep : crossoverAdditions own (other_gene :: rest) e =
          crossoverAdditions own rest e := by
        rw [crossoverAdditions, if_pos hfound]
      have hfilter : (other_gene :: rest).filter
            (fun other_gene => !own.any (fun gene => other_gene.eqv gene)) =
          rest.filter (fun other_gene => !own.any (fun gene => other_gene.eqv gene)) := by
        rw [List.filter_cons]
        simp [hfound]
      rw [hstep, ih e, hfilter]
    · have hstep : crossoverAdditions own (other_gene :: rest) e =
          if e.draws e.drawn < CROSSOVER_GENE_ADDITION α then
            (other_gene :: (crossoverAdditions own rest (generateRandom e).2).1,
              (crossoverAdditions own rest (generateRandom e).2).2)
          else ((crossoverAdditions own rest (generateRandom e).2).1,
              (crossoverAdditions own rest (generateRandom e).2).2) := by
        rw [crossoverAdditions, if_neg hfound]
        rfl
      have hfilter : (other_gene :: rest).filter
            (fun other_gene => !own.any (fun gene => other_gene.eqv gene)) =
          other_gene ::
            rest.filter (fun other_gene => !own.any (fun gene => other_gene.eqv gene)) := by
        rw [List.filter_cons]
        simp [hfound]
      have hlen : e.drawn + 1 +
          (rest.filter (fun other_gene => !own.any (fun gene => other_gene.eqv gene))).length =
          e.drawn + ((rest.filter
            (fun other_gene => !own.any (fun gene => other_gene.eqv gene))).length + 1) := by
        omega
      rw [hstep, ih (generateRandom e).2, hfilter, List.enumFrom_cons, List.length_cons,
        List.filter_cons]
      simp only [generateRandom, decide_eq_true_eq]
      rw [hlen]
      by_cases hdraw : e.draws e.drawn < CROSSOVER_GENE_ADDITION α
      · rw [if_pos hdraw, if_pos hdraw, List.map_cons]
      · rw [if_neg hdraw, if_neg hdraw]

/-- C25: for two genomes that are not both empty, the child of `crossover` has
`total_neurons = max(self.total_neurons, other.total_neurons)` and its network is the network
of `self` followed by genes of `other`, in the order of `other`: of the genes of `other` that
are gene-equal to no gene of `self`, exactly those whose draw (the `k`-th draw for the `k`-th
such gene) is below `CROSSOVER_GENE_ADDITION`.  The fitness and the generation are those of
`self`; one value is drawn for each gene tested. -/
theorem crossover_child (g other : Genome α) (e : Env α)
    (hne : ¬ (g.network = [] ∧ other.network = [])) :
    (g.crossover other e).1.total_neurons = max g.total_neurons other.total_neurons ∧
    (g.crossover other e).1.network = g.network ++
      ((((other.network.filter
          (fun other_gene => !g.network.any (fun gene => other_gene.eqv gene))).enumFrom
            e.drawn).filter
          (fun p => decide (e.draws p.1 < CROSSOVER_GENE_ADDITION α))).map Prod.snd) ∧
    ((((other.network.filter
          (fun other_gene => !g.network.any (fun gene => other_gene.eqv gene))).enumFrom
            e.drawn).filter
          (fun p => decide (e.draws p.1 < CROSSOVER_GENE_ADDITION α))).map Prod.snd).Sublist
      other.network ∧
    (g.crossover other e).1.fitness = g.fitness ∧
    (g.crossover other e).1.generation = g.generation ∧
    (g.crossover other e).2 = { e with drawn := e.drawn +
      (other.network.filter
        (fun other_gene => !g.network.any (fun gene => other_gene.eqv gene))).length } := by
  have hemp : ¬ (g.network.isEmpty = true ∧ other.network.isEmpty = true) := by
    simpa [List.isEmpty_iff] using hne
  have hsub := (crossoverAdditions_spec g.network other.network e).1
  rw [crossoverAdditions_eq] at hsub
  have hcross : g.crossover other e =
      ({ g with
          total_neurons :=
            if other.total_neurons < g.total_neurons then g.total_neurons
            else other.total_neurons
          network := g.network ++ (crossoverAdditions g.network other.network e).1 },
        (crossoverAdditions g.network other.network e).2) := by
    unfold Genome.crossover
    rw [if_neg hemp]
  rw [hcross, crossoverAdditions_eq]
  refine ⟨?_, rfl, hsub, rfl, rfl, rfl⟩
  show (if other.total_neurons < g.total_neurons then g.total_neurons
    else other.total_neurons) = max g.total_neurons other.total_neurons
  split
  · rw [max_eq_left (le_of_lt ‹_›)]
  · rw [max_eq_right (not_lt.1 ‹_›)]

/-- Witness of C25: the one-gene genome `0 → 76` crossed with the one-gene genome `1 → 76`, on
a draw of `0`, which adds the gene of the second genome. -/
theorem crossover_child_witness :
    (oneGeneGenome.crossover secondGeneGenome ⟨nodeDraws, 1, 1⟩).1.total_neurons =
      max oneGeneGenome.total_neurons secondGeneGenome.total_neurons ∧
    (oneGeneGenome.crossover secondGeneGenome ⟨nodeDraws, 1, 1⟩).1.network =
      oneGeneGenome.network ++
      ((((secondGeneGenome.network.filter
          (fun other_gene => !oneGeneGenome.network.any (fun gene => other_gene.eqv gene))).enumFrom
            (⟨nodeDraws, 1, 1⟩ : Env ℚ).drawn).filter
          (fun p => decide ((⟨nodeDraws, 1, 1⟩ : Env ℚ).draws p.1
            < CROSSOVER_GENE_ADDITION ℚ))).map Prod.snd) ∧
    ((((secondGeneGenome.network.filter
          (fun other_gene => !oneGeneGenome.network.any (fun gene => other_gene.eqv gene))).enumFrom
            (⟨nodeDraws, 1, 1⟩ : Env ℚ).drawn).filter
          (fun p => decide ((⟨nodeDraws, 1, 1⟩ : Env ℚ).draws p.1
            < CROSSOVER_GENE_ADDITION ℚ))).map Prod.snd).Sublist
      secondGeneGenome.network ∧
    (oneGeneGenome.crossover secondGeneGenome ⟨nodeDraws, 1, 1⟩).1.fitness
      = oneGeneGenome.fitness ∧
    (oneGeneGenome.crossover secondGeneGenome ⟨nodeDraws, 1, 1⟩).1.generation
      = oneGeneGenome.generation ∧
    (oneGeneGenome.crossover secondGeneGenome ⟨nodeDraws, 1, 1⟩).2 =
      { (⟨nodeDraws, 1, 1⟩ : Env ℚ) with drawn := (⟨nodeDraws, 1, 1⟩ : Env ℚ).drawn +
        (secondGeneGenome.network.filter
          (fun other_gene =>
            !oneGeneGenome.network.any (fun gene => other_gene.eqv gene))).length } :=
  crossover_child oneGeneGenome secondGeneGenome ⟨nodeDraws, 1, 1⟩
    (by simp [oneGeneGenome])

/-! ## C26: identical genomes and speciation -/

theorem find_self_of_nodup (l : List (Gene α)) (hnd : (l.map Gene.innovation).Nodup)
    (gene : Gene α) (hg : gene ∈ l) :
    l.find? (fun other_gene => decide (gene.innovation = other_gene.innovation)) = some gene := by
  induction l with
  | nil => cases hg
  | cons x rest ih =>
    rw [List.map_cons, List.nodup_cons] at hnd
    by_cases hx : gene.innovation = x.innovation
    · rcases List.mem_cons.1 hg with rfl | hrest
      · rw [List.find?_cons_of_pos _ (by simp)]
      · exact absurd (hx ▸ List.mem_map_of_mem Gene.innovation hrest) hnd.1
    · rw [List.find?_cons_of_neg _ (by simpa using hx)]
      apply ih hnd.2
      rcases List.mem_cons.1 hg with rfl | hrest
      · exact absurd rfl hx
      · exact hrest

/-- A genome with genes and pairwise distinct innovation numbers, compared with itself: every
gene is matched with itself, so `disjoint = (0 + n) / n = 1` and `weights = 0`. -/
theorem compare_self (g : Genome α) (hu : g.UniqueInnovations) (hne : g.network ≠ [])
    (d w : α) : g.compare g d w = (1, 0) := by
  have hd := compare_disjoint_eq g g hne d w
  have hw := compare_weights_eq g g hne d w
  have hlen : (0 : α) < (g.network.length : α) := by
    have := List.length_pos.2 hne
    exact_mod_cast this
  have hsum1 : (g.network.map (fun gene =>
      (g.network.find? (fun og => gene.innovation = og.innovation)).elim 1
        (fun _ => (0 : α)))).sum = 0 := by
    apply List.sum_eq_zero
    intro x hx
    obtain ⟨gene, hg, rfl⟩ := List.mem_map.1 hx
    rw [find_self_of_nodup g.network hu gene hg]
    rfl
  have hsum2 : (g.network.map (fun gene =>
      (g.network.find? (fun og => gene.innovation = og.innovation)).elim 0
        (fun og => |gene.weight - og.weight|))).sum = 0 := by
    apply List.sum_eq_zero
    intro x hx
    obtain ⟨gene, hg, rfl⟩ := List.mem_map.1 hx
    rw [find_self_of_nodup g.network hu gene hg]
    simp
  rw [hsum1, max_self, zero_add, div_self (ne_of_gt hlen)] at hd
  rw [hsum2, zero_div, ite_self] at hw
  exact Prod.ext hd hw

theorem fromSpecies_congr (s1 s2 : Species α) (g : Genome α)
    (h : s1.genomes.getD 0 default = s2.genomes.getD 0 default) :
    s1.fromSpecies g = s2.fromSpecies g := by
  unfold Species.fromSpecies
  rw [h]

/-- A species accepts every copy of its first genome when the innovation numbers of that
genome are pairwise distinct. -/
theorem fromSpecies_copy (species : Species α) (g : Genome α) (hu : g.UniqueInnovations)
    (hfirst : species.genomes.head? = some g) : species.fromSpecies g = true := by
  have hget : species.genomes.getD 0 default = g := by
    cases hs : species.genomes with
    | nil => rw [hs] at hfirst; cases hfirst
    | cons x rest =>
      rw [hs] at hfirst
      simp only [List.head?_cons, Option.some.injEq] at hfirst
      rw [List.getD_cons_zero, hfirst]
  unfold Species.fromSpecies
  rw [hget]
  by_cases hne : g.network = []
  · have hc : g.compare g 0 0 = (0, 0) := by
      unfold Genome.compare
      rw [if_pos ⟨by rw [hne]; rfl, by rw [hne]; rfl⟩]
    rw [hc]
    unfold SPECIES_DELTA_DIJOINT SPECIES_DELTA_WEIGHTS SPECIES_DELTA_THRESHOLD
    simp only [decide_eq_true_eq]
    norm_num
  · rw [compare_self g hu hne]
    unfold SPECIES_DELTA_DIJOINT SPECIES_DELTA_WEIGHTS SPECIES_DELTA_THRESHOLD
    simp only [decide_eq_true_eq]
    norm_num

theorem foldl_addToSpecies_reject (g : Genome α) (s : Species α)
    (hs : s.fromSpecies g = false) (m : Nat) (l : List (Species α)) :
    (List.replicate m g).foldl (fun l genome => addToSpecies genome l) (s :: l) =
      s :: (List.replicate m g).foldl (fun l genome => addToSpecies genome l) l := by
  induction m generalizing l with
  | zero => rfl
  | succ m ih =>
    rw [List.replicate_succ, List.foldl_cons, List.foldl_cons]
    have hstep : addToSpecies g (s :: l) = s :: addToSpecies g l := by
      rw [addToSpecies, hs]
      rfl
    rw [hstep, ih]

theorem foldl_addToSpecies_accept (g : Genome α) (hu : g.UniqueInnovations) (m : Nat)
    (gs : List (Genome α)) (hs : (⟨gs⟩ : Species α).fromSpecies g = true)
    (back : List (Species α)) :
    (List.replicate m g).foldl (fun l genome => addToSpecies genome l) (⟨gs⟩ :: back) =
      ⟨gs ++ List.replicate m g⟩ :: back := by
  induction m generalizing gs with
  | zero => simp
  | succ m ih =>
    rw [List.replicate_succ, List.foldl_cons]
    have hstep : addToSpecies g (⟨gs⟩ :: back) = ⟨gs ++ [g]⟩ :: back := by
      rw [addToSpecies, hs]
      rfl
    have hnext : (⟨gs ++ [g]⟩ : Species α).fromSpecies g = true := by
      cases hgs : gs with
      | nil => exact fromSpecies_copy _ g hu rfl
      | cons x rest =>
        rw [← hs, hgs]
        exact fromSpecies_congr _ _ g rfl
    rw [hstep, ih (gs ++ [g]) hnext, List.append_assoc]
    rfl

/-- Copies of one genome added one after another to a list of species all join the same
species: a species of the list, or one new species created at the end. -/
theorem addToSpecies_copies (g : Genome α) (hu : g.UniqueInnovations) (l : List (Species α)) :
    ∃ front target back,
      (l = front ++ target :: back ∨ (l = front ∧ target.genomes = [] ∧ back = [])) ∧
      ∀ n, (List.replicate (n + 1) g).foldl (fun l genome => addToSpecies genome l) l =
        front ++ ⟨target.genomes ++ List.replicate (n + 1) g⟩ :: back := by
  induction l with
  | nil =>
    refine ⟨[], ⟨[]⟩, [], Or.inr ⟨rfl, rfl, rfl⟩, fun n => ?_⟩
    rw [List.replicate_succ, List.foldl_cons]
    have hstep : addToSpecies g ([] : List (Species α)) = [⟨[g]⟩] := rfl
    rw [hstep, foldl_addToSpecies_accept g hu n [g] (fromSpecies_copy _ g hu rfl)]
    rfl
  | cons s rest ih =>
    by_cases hs : s.fromSpecies g = true
    · refine ⟨[], s, rest, Or.inl rfl, fun n => ?_⟩
      exact foldl_addToSpecies_accept g hu (n + 1) s.genomes hs rest
    · have hs2 : s.fromSpecies g = false := by simpa using hs
      obtain ⟨front, target, back, hl, hn⟩ := ih
      refine ⟨s :: front, target, back, ?_, fun n => ?_⟩
      · rcases hl with hl | ⟨hl, ht, hb⟩
        · exact Or.inl (by rw [hl]; rfl)
        · exact Or.inr ⟨by rw [hl], ht, hb⟩
      · rw [foldl_addToSpecies_reject g s hs2, hn n]
        rfl

theorem foldl_addGenome_all_species (genomes : List (Genome α)) (gym : Gym α) :
    (genomes.foldl (fun gym genome => gym.addGenomeToRespectiveSpecies genome) gym).all_species =
      genomes.foldl (fun l genome => addToSpecies genome l) gym.all_species := by
  induction genomes generalizing gym with
  | nil => rfl
  | cons genome rest ih =>
    rw [List.foldl_cons, List.foldl_cons, ih]
    rfl

/-- C26 as stated fails.  `compare` matches a gene with the first gene of the other genome
that has its innovation number: in `twinGenome`, whose two genes share the number `1`, the
second gene is matched with the first one, the `weights` rating of the genome against itself
is `1`, and a species rejects a copy of its only genome; ten copies end in ten species. -/
theorem twin_copies_split :
    (⟨[twinGenome]⟩ : Species ℚ).fromSpecies twinGenome = false ∧
    (((List.replicate 10 twinGenome).foldl
        (fun gym genome => gym.addGenomeToRespectiveSpecies genome) emptyGym).all_species.map
      (fun species => species.genomes.length)) = List.replicate 10 1 := by
  decide!

/-- C26, amended: let the innovation numbers of a genome be pairwise distinct.  Then a
species whose first genome is that genome accepts it (`fromSpecies` returns `true`), and any
number of copies passed one after another to `addGenomeToRespectiveSpecies` land in one species
`target`, an existing one or a new one created for the first copy; the other species are left
as they are. -/
theorem identical_genomes_one_species (g : Genome α) (hu : g.UniqueInnovations) :
    (∀ species : Species α, species.genomes.head? = some g → species.fromSpecies g = true) ∧
    ∀ gym : Gym α, ∃ front target back,
      (gym.all_species = front ++ target :: back ∨
        (gym.all_species = front ∧ target.genomes = [] ∧ back = [])) ∧
      ∀ n, ((List.replicate (n + 1) g).foldl
          (fun gym genome => gym.addGenomeToRespectiveSpecies genome) gym).all_species =
        front ++ ⟨target.genomes ++ List.replicate (n + 1) g⟩ :: back := by
  refine ⟨fun species h => fromSpecies_copy species g hu h, fun gym => ?_⟩
  obtain ⟨front, target, back, hl, hn⟩ := addToSpecies_copies g hu gym.all_species
  refine ⟨front, target, back, hl, fun n => ?_⟩
  rw [foldl_addGenome_all_species]
  exact hn n

/-- Witness of the amended C26: ten copies of the one-gene genome, added to a gym without
species, make one species of ten genomes. -/
theorem identical_genomes_one_species_witness :
    (⟨[oneGeneGenome]⟩ : Species ℚ).fromSpecies oneGeneGenome = true ∧
    ((List.replicate 10 oneGeneGenome).foldl
        (fun gym genome => gym.addGenomeToRespectiveSpecies genome) emptyGym).all_species =
      [⟨List.replicate 10 oneGeneGenome⟩] := by
  obtain ⟨h1, h2⟩ := identical_genomes_one_species oneGeneGenome
    (by unfold Genome.UniqueInnovations oneGeneGenome; simp)
  refine ⟨h1 _ rfl, ?_⟩
  obtain ⟨front, target, back, hl, hn⟩ := h2 emptyGym
  rcases hl with hl | ⟨hl, ht, hb⟩
  · have hlen := congrArg List.length hl
    simp [emptyGym] at hlen
    omega
  · rw [hn 9, ← hl, ht, hb]
    rfl

/-! ## C27, C28: `evaluate` on an empty network and on a network of zero weights -/

/-- C27: on inputs of `[0, 1]`, `evaluate` of a genome whose network is empty returns, and
every entry of `outputs` has the value it had before the call. -/
theorem evaluate_empty_network (exp : α → α) (g : Genome α) (hnet : g.network = [])
    (outputs : Fin OUTPUTS → α) (inputs : Fin INPUTS → α)
    (hin : ∀ index, 0 ≤ inputs index ∧ inputs index ≤ 1) :
    g.evaluate exp outputs inputs = some outputs := by
  unfold Genome.evaluate
  rw [if_neg (not_not_intro hin), hnet]
  rfl

/-- Witness of C27 on the genome without genes. -/
theorem evaluate_empty_network_witness :
    emptyGenome.evaluate constExp zeroOutputs halfInputs = some zeroOutputs :=
  evaluate_empty_network constExp emptyGenome rfl zeroOutputs halfInputs
    (fun _ => by unfold halfInputs; norm_num)

/-- With incoming genes of weight `0` the summation loop of `evaluate` changes no value. -/
theorem valueAt_sumIncoming_zero (index j : Nat) (inc : List (Gene α))
    (hw : ∀ gene ∈ inc, gene.weight = 0) (ns : List (Neuron α)) :
    valueAt (sumIncoming index inc ns) j = valueAt ns j := by
  induction inc generalizing ns with
  | nil => rfl
  | cons gene rest ih =>
    simp only [sumIncoming]
    rw [ih (fun x hx => hw x (List.mem_cons_of_mem _ hx))]
    split
    · rw [valueAt_setValue, hw gene (List.mem_cons_self _ _)]
      split
      · rename_i hc
        rw [hc.1]
        simp
      · rfl
    · rfl

theorem sigmoid_zero (exp : α → α) (hexp0 : exp 0 = 1) : sigmoid exp 0 = 0 := by
  unfold sigmoid SIGMOID_RANGE SIGMOID_GROWTH_RATE SIGMOID_OFFSET
  rw [mul_zero, hexp0]
  norm_num

/-- The update loop of `evaluate` keeps every non-input neuron at `0` when all incoming genes
have weight `0`. -/
theorem foldl_updateNeuron_zero (exp : α → α) (hexp0 : exp 0 = 1) (l : List Nat)
    (ns : List (Neuron α))
    (hw : ∀ i, ∀ gene ∈ (ns.getD i default).incoming, gene.weight = 0)
    (hz : ∀ j, INPUTS ≤ j → valueAt ns j = 0) (hl : ∀ i ∈ l, INPUTS ≤ i) (j : Nat)
    (hj : INPUTS ≤ j) : valueAt (l.foldl (updateNeuron exp) ns) j = 0 := by
  induction l generalizing ns with
  | nil => exact hz j hj
  | cons i rest ih =>
    rw [List.foldl_cons]
    apply ih
    · intro k gene hg
      rw [incoming_updateNeuron] at hg
      exact hw k gene hg
    · intro k hk
      by_cases hki : k = i
      · subst hki
        by_cases hlen : k < ns.length
        · rw [valueAt_updateNeuron_self exp ns k hlen]
          split
          · exact hz k hk
          · rw [valueAt_sumIncoming_zero k k _ (hw k), hz k hk]
            exact sigmoid_zero exp hexp0
        · exact valueAt_of_length_le _ _ (by rw [updateNeuron_length]; omega)
      · rw [valueAt_updateNeuron_of_ne exp ns i k hki]
        exact hz k hk
    · exact fun k hk => hl k (List.mem_cons_of_mem _ hk)

/-- C28: for a genome with valid gene indices, a non-empty network and all gene weights `0`,
and inputs of `[0, 1]`, `evaluate` returns and every output is
`SIGMOID_RANGE / (1 + exp 0) + SIGMOID_OFFSET`, which is `0` (`exp` is any nonnegative function
with `exp 0 = 1`). -/
theorem evaluate_zero_weights (exp : α → α) (hexp : ∀ x, 0 ≤ exp x) (hexp0 : exp 0 = 1)
    (g : Genome α) (hidx : g.IndexBounds) (hne : g.network ≠ [])
    (hw : ∀ gene ∈ g.network, gene.weight = 0)
    (outputs : Fin OUTPUTS → α) (inputs : Fin INPUTS → α)
    (hin : ∀ index, 0 ≤ inputs index ∧ inputs index ≤ 1) :
    g.evaluate exp outputs inputs =
        some (fun _ => SIGMOID_RANGE α / (1 + exp 0) + SIGMOID_OFFSET α) ∧
      SIGMOID_RANGE α / (1 + exp 0) + SIGMOID_OFFSET α = 0 := by
  have hzero : SIGMOID_RANGE α / (1 + exp 0) + SIGMOID_OFFSET α = 0 := by
    unfold SIGMOID_RANGE SIGMOID_OFFSET
    rw [hexp0]
    norm_num
  refine ⟨?_, hzero⟩
  rw [evaluate_eq_some exp hexp g hne hidx.1 outputs inputs hin, hzero]
  congr 1
  funext k
  unfold evaluatedNeurons
  apply foldl_updateNeuron_zero exp hexp0
  · intro i gene hg
    by_cases hi : i < g.total_neurons
    · rw [incoming_loadedNeurons g inputs i hi] at hg
      unfold Neuron.ctor at hg
      split at hg
      · exact absurd hg (List.not_mem_nil _)
      · exact hw gene (List.mem_of_mem_filter hg)
    · rw [List.getD_eq_default _ _ (by rw [loadedNeurons_length]; omega)] at hg
      exact absurd hg (List.not_mem_nil _)
  · exact fun j hj => valueAt_loadedNeurons_of_ge g inputs j hj
  · intro i hi
    exact (List.mem_range'_1.1 hi).1
  · have := hidx.1
    unfold INPUTS OUTPUTS at *
    omega

/-! ## C29: the default genome -/

theorem linkGenes_spec (l : List (Nat × Nat)) (e : Env α) :
    (linkGenes l e).1.map (fun gene => (gene.from_, gene.to_)) = l ∧
    (∀ gene ∈ (linkGenes l e).1, gene.enabled = true) ∧
    (∀ gene ∈ (linkGenes l e).1, ∃ n, gene.weight = e.draws n * LINK_RANGE α + LINK_OFFSET α) := by
  induction l generalizing e with
  | nil => exact ⟨rfl, fun _ h => absurd h (List.not_mem_nil _),
      fun _ h => absurd h (List.not_mem_nil _)⟩
  | cons p rest ih =>
    obtain ⟨a, b⟩ := p
    obtain ⟨h1, h2, h3⟩ := ih (Gene.ctor a b true e).2
    have hcons : (linkGenes ((a, b) :: rest) e).1 =
        (Gene.ctor a b true e).1 :: (linkGenes rest (Gene.ctor a b true e).2).1 := rfl
    rw [hcons]
    refine ⟨?_, ?_, ?_⟩
    · rw [List.map_cons, h1]
      rfl
    · intro gene hg
      rcases List.mem_cons.1 hg with rfl | hg
      · rfl
      · exact h2 gene hg
    · intro gene hg
      rcases List.mem_cons.1 hg with rfl | hg
      · exact ⟨e.drawn, rfl⟩
      · exact h3 gene hg

theorem fullLinkPairs_eq :
    fullLinkPairs (INPUTS + OUTPUTS) =
      (List.range (INPUTS * OUTPUTS)).map (fun k => (k % INPUTS, INPUTS + k / INPUTS)) := by
  decide!

theorem fullLinkPairs_bounds :
    ∀ p ∈ fullLinkPairs (INPUTS + OUTPUTS), p.1 < INPUTS ∧ INPUTS ≤ p.2 ∧
      p.2 < INPUTS + OUTPUTS := by
  decide!

theorem countP_eq_one {β : Type} (l : List β) (a : β) (p : β → Bool) (hnd : l.Nodup)
    (hmem : a ∈ l) (hp : ∀ x, p x = true ↔ x = a) : l.countP p = 1 := by
  induction l with
  | nil => cases hmem
  | cons x rest ih =>
    rw [List.nodup_cons] at hnd
    by_cases hx : x = a
    · subst hx
      rw [List.countP_cons_of_pos _ _ ((hp x).2 rfl)]
      have hzero : rest.countP p = 0 :=
        List.countP_eq_zero.2 (fun y hy hpy => hnd.1 ((hp y).1 hpy ▸ hy))
      omega
    · rw [List.countP_cons_of_neg _ _ (fun h => hx ((hp x).1 h))]
      exact ih hnd.2 ((List.mem_cons.1 hmem).resolve_left (fun h => hx h.symm))

theorem fullLinkPairs_count (i o : Nat) (hi : i < INPUTS) (ho : INPUTS ≤ o)
    (ho2 : o < INPUTS + OUTPUTS) :
    (fullLinkPairs (INPUTS + OUTPUTS)).countP (fun p => decide (p.1 = i ∧ p.2 = o)) = 1 := by
  have hnd : (fullLinkPairs (INPUTS + OUTPUTS)).Nodup := by
    rw [fullLinkPairs_eq]
    unfold INPUTS OUTPUTS
    apply List.Nodup.map_on _ (List.nodup_range _)
    intro x hx y hy hxy
    simp only [Prod.mk.injEq] at hxy
    omega
  have hmem : (i, o) ∈ fullLinkPairs (INPUTS + OUTPUTS) := by
    rw [fullLinkPairs_eq]
    unfold INPUTS OUTPUTS at *
    apply List.mem_map.2
    refine ⟨(o - 76) * 76 + i, List.mem_range.2 (by omega), ?_⟩
    simp only [Prod.mk.injEq]
    omega
  apply countP_eq_one _ (i, o) _ hnd hmem
  intro p
  simp [Prod.ext_iff]

theorem default_network [FloorRing α] (e : Env α) :
    (Genome.ctor true none e).1.network = (linkGenes (fullLinkPairs (INPUTS + OUTPUTS)) e).1 := by
  rw [ctor_default]

theorem default_total_neurons [FloorRing α] (e : Env α) :
    (Genome.ctor true none e).1.total_neurons = INPUTS + OUTPUTS := by
  rw [ctor_default]

/-- The genes of the default genome: one enabled gene for every pair of `fullLinkPairs`, with
`from < INPUTS ≤ to < INPUTS + OUTPUTS`, and `INPUTS * OUTPUTS` of them. -/
theorem default_genes [FloorRing α] (e : Env α) :
    (Genome.ctor true none e).1.network.length = INPUTS * OUTPUTS ∧
    (∀ gene ∈ (Genome.ctor true none e).1.network,
      gene.enabled = true ∧ gene.from_ < INPUTS ∧ INPUTS ≤ gene.to_ ∧
        gene.to_ < INPUTS + OUTPUTS ∧
        ∃ n, gene.weight = e.draws n * LINK_RANGE α + LINK_OFFSET α) := by
  obtain ⟨hpairs, hen, hw⟩ := linkGenes_spec (fullLinkPairs (INPUTS + OUTPUTS)) e
  rw [default_network]
  constructor
  · have h := congrArg List.length hpairs
    rw [List.length_map, fullLinkPairs_length] at h
    rw [h]
    rfl
  · intro gene hg
    have hm : (gene.from_, gene.to_) ∈ fullLinkPairs (INPUTS + OUTPUTS) := by
      rw [← hpairs]
      exact List.mem_map_of_mem (fun gene : Gene α => (gene.from_, gene.to_)) hg
    have hb := fullLinkPairs_bounds _ hm
    exact ⟨hen gene hg, hb.1, hb.2.1, hb.2.2, hw gene hg⟩

/-- C29 as stated fails in its last clause.  The innovation counter is a 32-bit
`unsigned int`: when the default genome is built with the counter at `2 ^ 32 - 2`, its first
gene takes the number `4294967295` and its second gene the number `0`. -/
theorem default_genome_innovations_wrap :
    ((Genome.ctor true none (⟨halfDraws, 0, 4294967294⟩ : Env ℚ)).1.network.map
      Gene.innovation).take 3 = [4294967295, 0, 1] := by
  decide!

/-- C29, amended: when no champion file exists, `Genome( true )` has
`total_neurons = INPUTS + OUTPUTS = 82` and exactly `INPUTS * OUTPUTS = 456` genes, among which
there is, for every input index `i` and every output index `o`, exactly one gene `(i, o)`; every
gene is enabled and has `from < to`, whatever the state of the innovation counter; and when
the counter is at least `456` steps away from wrapping, the genes carry the numbers
`current_innovation + 1, ..., current_innovation + 456` in this order. -/
theorem default_genome [FloorRing α] (e : Env α) :
    (Genome.ctor true none e).1.total_neurons = INPUTS + OUTPUTS ∧ INPUTS + OUTPUTS = 82 ∧
    (Genome.ctor true none e).1.network.length = INPUTS * OUTPUTS ∧ INPUTS * OUTPUTS = 456 ∧
    (∀ i o, i < INPUTS → INPUTS ≤ o → o < INPUTS + OUTPUTS →
      (Genome.ctor true none e).1.network.countP
        (fun gene => decide (gene.from_ = i ∧ gene.to_ = o)) = 1) ∧
    (∀ gene ∈ (Genome.ctor true none e).1.network,
      gene.enabled = true ∧ gene.from_ < gene.to_) ∧
    (e.current_innovation + INPUTS * OUTPUTS < 2 ^ UINT_WIDTH →
      (Genome.ctor true none e).1.network.map Gene.innovation =
        (List.range (INPUTS * OUTPUTS)).map (fun k => e.current_innovation + k + 1)) := by
  obtain ⟨hlen, hgenes⟩ := default_genes e
  refine ⟨default_total_neurons e, rfl, hlen, rfl, ?_, ?_, ?_⟩
  · intro i o hi ho ho2
    have h := fullLinkPairs_count i o hi ho ho2
    rw [← (linkGenes_spec (fullLinkPairs (INPUTS + OUTPUTS)) e).1, List.countP_map] at h
    rw [default_network]
    exact h
  · intro gene hg
    obtain ⟨h1, h2, h3, -⟩ := hgenes gene hg
    exact ⟨h1, lt_of_lt_of_le h2 h3⟩
  · intro hroom
    rw [default_network, linkGenes_innovations, fullLinkPairs_length]
    apply List.map_congr_left
    intro k hk
    have hk2 := List.mem_range.1 hk
    unfold INPUTS OUTPUTS UINT_WIDTH at *
    simp only [Nat.reducePow, Nat.reduceAdd, Nat.reduceSub, Nat.reduceMul] at *
    omega

/-- Witness of the amended C29: in a fresh process the genes carry the numbers `1, ..., 456`;
with the counter at `2 ^ 32 - 2`, where the numbering wraps, the structure is the same. -/
theorem default_genome_witness :
    (Genome.ctor true none (Env.initial halfDraws)).1.network.map Gene.innovation =
      (List.range (INPUTS * OUTPUTS)).map
        (fun k => (Env.initial halfDraws).current_innovation + k + 1) ∧
    (Genome.ctor true none (⟨halfDraws, 0, 4294967294⟩ : Env ℚ)).1.total_neurons = 82 ∧
    (Genome.ctor true none (⟨halfDraws, 0, 4294967294⟩ : Env ℚ)).1.network.length = 456 ∧
    (∀ i o, i < INPUTS → INPUTS ≤ o → o < INPUTS + OUTPUTS →
      (Genome.ctor true none (⟨halfDraws, 0, 4294967294⟩ : Env ℚ)).1.network.countP
        (fun gene => decide (gene.from_ = i ∧ gene.to_ = o)) = 1) ∧
    (∀ gene ∈ (Genome.ctor true none (⟨halfDraws, 0, 4294967294⟩ : Env ℚ)).1.network,
      gene.enabled = true ∧ gene.from_ < gene.to_) := by
  obtain ⟨-, -, -, -, -, -, h7⟩ := default_genome (Env.initial halfDraws)
  obtain ⟨w1, -, w3, -, w5, w6, -⟩ := default_genome (⟨halfDraws, 0, 4294967294⟩ : Env ℚ)
  exact ⟨h7 (by decide), w1, w3, w5, w6⟩

/-! ### The default genome with zero weights (scenario S1) -/

/-- Witness of C28: the default genome with all weights `0`, on inputs all `1/2`. -/
theorem evaluate_zero_weights_witness :
    zeroWeightGenome.evaluate constExp zeroOutputs halfInputs =
        some (fun _ => SIGMOID_RANGE ℚ / (1 + constExp 0) + SIGMOID_OFFSET ℚ) ∧
      SIGMOID_RANGE ℚ / (1 + constExp 0) + SIGMOID_OFFSET ℚ = 0 :=
  evaluate_zero_weights constExp (fun _ => by unfold constExp; norm_num) rfl zeroWeightGenome
    ⟨le_of_eq (default_total_neurons _).symm, fun gene hg => by
      obtain ⟨-, h2, h3, h4, -⟩ := (default_genes (⟨halfDraws, 0, 0⟩ : Env ℚ)).2 gene hg
      have ht : zeroWeightGenome.total_neurons = INPUTS + OUTPUTS := default_total_neurons _
      rw [ht]
      unfold INPUTS OUTPUTS at *
      omega⟩
    (fun h => by
      have hl := (default_genes (⟨halfDraws, 0, 0⟩ : Env ℚ)).1
      have h2 : (Genome.ctor true none (⟨halfDraws, 0, 0⟩ : Env ℚ)).1.network = [] := h
      rw [h2] at hl
      exact absurd hl (by decide))
    (fun gene hg => by
      obtain ⟨-, -, -, -, n, hn⟩ := (default_genes (⟨halfDraws, 0, 0⟩ : Env ℚ)).2 gene hg
      rw [hn]
      show (1 / 2 : ℚ) * LINK_RANGE ℚ + LINK_OFFSET ℚ = 0
      unfold LINK_RANGE LINK_OFFSET
      norm_num)
    zeroOutputs halfInputs (fun _ => by unfold halfInputs; norm_num)

/-! ## C30: the neuron limit -/

theorem forEachGene_length (f : Gene α → Env α → Gene α × Env α) (l : List (Gene α))
    (e : Env α) : (forEachGene f l e).1.length = l.length := by
  induction l generalizing e with
  | nil => rfl
  | cons g rest ih =>
    simp only [forEachGene, List.length_cons]
    rw [ih]

theorem foldl_toggleFirst_length (inc l : List (Gene α)) :
    (inc.foldl (fun network target_gene => toggleFirst target_gene network) l).length
      = l.length := by
  have h := congrArg List.length (foldl_toggleFirst_skeleton inc l)
  rw [List.length_map, List.length_map] at h
  exact h

/-- What a weight mutation leaves alone. -/
theorem mutateWeight_frame [FloorRing α] (g : Genome α) (e : Env α) (g1 : Genome α)
    (e1 : Env α) (h : g.mutateWeight e = some (g1, e1)) :
    g1.fitness = g.fitness ∧ g1.generation = g.generation ∧
      g1.total_neurons = g.total_neurons ∧ g1.network.length = g.network.length := by
  unfold Genome.mutateWeight at h
  simp only [generateRandom] at h
  repeat' split at h
  all_goals
    cases h
    first
      | done
      | exact ⟨rfl, rfl, rfl, rfl⟩
      | exact ⟨rfl, rfl, rfl, List.length_set _ _ _⟩
      | exact ⟨rfl, rfl, rfl, forEachGene_length _ _ _⟩

/-- What a state mutation leaves alone. -/
theorem mutateState_frame [FloorRing α] (g : Genome α) (e : Env α) (g1 : Genome α)
    (e1 : Env α) (h : g.mutateState e = some (g1, e1)) :
    g1.fitness = g.fitness ∧ g1.generation = g.generation ∧
      g1.total_neurons = g.total_neurons ∧ g1.network.length = g.network.length := by
  unfold Genome.mutateState at h
  simp only [generateRandom] at h
  repeat' split at h
  all_goals
    cases h
    first
      | done
      | exact ⟨rfl, rfl, rfl, rfl⟩
      | exact ⟨rfl, rfl, rfl, List.length_set _ _ _⟩
      | exact ⟨rfl, rfl, rfl, foldl_toggleFirst_length _ _⟩

/-- What a link mutation leaves alone: it adds at most one gene. -/
theorem mutateLink_frame [FloorRing α] (g : Genome α) (e : Env α) (g1 : Genome α)
    (e1 : Env α) (h : g.mutateLink e = some (g1, e1)) :
    g1.fitness = g.fitness ∧ g1.generation = g.generation ∧
      g1.total_neurons = g.total_neurons ∧ g1.network.length ≤ g.network.length + 1 := by
  unfold Genome.mutateLink at h
  simp only [generateRandom] at h
  repeat' split at h
  all_goals
    cases h
    first
      | done
      | exact ⟨rfl, rfl, rfl, Nat.le_succ _⟩
      | exact ⟨rfl, rfl, rfl, by simp⟩

/-- What a node mutation leaves alone: it adds at most one neuron. -/
theorem mutateNode_frame [FloorRing α] (g : Genome α) (e : Env α) (g1 : Genome α)
    (e1 : Env α) (h : g.mutateNode e = some (g1, e1)) :
    g1.fitness = g.fitness ∧ g1.generation = g.generation ∧
      g.total_neurons ≤ g1.total_neurons ∧ g1.total_neurons ≤ g.total_neurons + 1 := by
  unfold Genome.mutateNode at h
  simp only [generateRandom] at h
  repeat' split at h
  all_goals
    cases h
    first
      | done
      | exact ⟨rfl, rfl, le_refl _, Nat.le_succ _⟩
      | exact ⟨rfl, rfl, Nat.le_succ _, le_refl _⟩

/-- What `mutate` leaves alone: the fitness and the generation; it adds at most one neuron,
and at the neuron limit it adds no neuron and at most one gene. -/
theorem mutate_frame [FloorRing α] (g : Genome α) (e : Env α) (g4 : Genome α) (e4 : Env α)
    (h : g.mutate e = some (g4, e4)) :
    g4.fitness = g.fitness ∧ g4.generation = g.generation ∧
      g.total_neurons ≤ g4.total_neurons ∧ g4.total_neurons ≤ g.total_neurons + 1 ∧
      (NEURON_LIMIT ≤ g.total_neurons →
        g4.total_neurons = g.total_neurons ∧ g4.network.length ≤ g.network.length + 1) := by
  unfold Genome.mutate at h
  simp only [generateRandom, Option.bind_eq_some] at h
  obtain ⟨⟨g1, e1⟩, h1, ⟨g2, e2⟩, h2, ⟨g3, e3⟩, h3, h4⟩ := h
  have f1 : g1.fitness = g.fitness ∧ g1.generation = g.generation ∧
      g1.total_neurons = g.total_neurons ∧ g1.network.length = g.network.length := by
    split at h1
    · exact mutateWeight_frame _ _ _ _ h1
    · cases h1; exact ⟨rfl, rfl, rfl, rfl⟩
  have f2 : g2.fitness = g1.fitness ∧ g2.generation = g1.generation ∧
      g1.total_neurons ≤ g2.total_neurons ∧ g2.total_neurons ≤ g1.total_neurons + 1 ∧
      (NEURON_LIMIT ≤ g1.total_neurons → g2 = g1) := by
    dsimp only at h2
    split at h2
    · rename_i hc
      obtain ⟨a, b, c, d⟩ := mutateNode_frame _ _ _ _ h2
      exact ⟨a, b, c, d, fun hl => absurd hc.2 (not_lt.2 hl)⟩
    · cases h2; exact ⟨rfl, rfl, le_refl _, Nat.le_succ _, fun _ => rfl⟩
  have f3 : g3.fitness = g2.fitness ∧ g3.generation = g2.generation ∧
      g3.total_neurons = g2.total_neurons ∧ g3.network.length ≤ g2.network.length + 1 := by
    dsimp only at h3
    split at h3
    · exact mutateLink_frame _ _ _ _ h3
    · cases h3; exact ⟨rfl, rfl, rfl, Nat.le_succ _⟩
  have f4 : g4.fitness = g3.fitness ∧ g4.generation = g3.generation ∧
      g4.total_neurons = g3.total_neurons ∧ g4.network.length = g3.network.length := by
    dsimp only at h4
    split at h4
    · exact mutateState_frame _ _ _ _ h4
    · cases h4; exact ⟨rfl, rfl, rfl, rfl⟩
  obtain ⟨a1, b1, c1, d1⟩ := f1
  obtain ⟨a2, b2, c2, d2, k2⟩ := f2
  obtain ⟨a3, b3, c3, d3⟩ := f3
  obtain ⟨a4, b4, c4, d4⟩ := f4
  refine ⟨by rw [a4, a3, a2, a1], by rw [b4, b3, b2, b1], by omega, by omega, ?_⟩
  intro hl
  have hg : g2 = g1 := k2 (by omega)
  subst hg
  constructor <;> omega

/-- C30: `mutate` adds at most one neuron; at the neuron limit it performs no node mutation
(no neuron is added, and at most the one gene of a link mutation); so
`total_neurons ≤ NEURON_LIMIT = 1000` is preserved by `mutate`, which passes its assertions on
every stream of draws of `[0, 1)` when the genome has at least `INPUTS + OUTPUTS` neurons, and
by `crossover` when both parents satisfy it. -/
theorem neuron_limit_preserved [FloorRing α] (g other : Genome α) (e : Env α) :
    (∀ g1 e1, g.mutate e = some (g1, e1) →
      g1.total_neurons ≤ g.total_neurons + 1 ∧
      (NEURON_LIMIT ≤ g.total_neurons →
        g1.total_neurons = g.total_neurons ∧ g1.network.length ≤ g.network.length + 1) ∧
      (g.total_neurons ≤ NEURON_LIMIT → g1.total_neurons ≤ NEURON_LIMIT)) ∧
    (e.UnitDraws → INPUTS + OUTPUTS ≤ g.total_neurons → ∃ g1 e1, g.mutate e = some (g1, e1)) ∧
    (g.total_neurons ≤ NEURON_LIMIT → other.total_neurons ≤ NEURON_LIMIT →
      (g.crossover other e).1.total_neurons ≤ NEURON_LIMIT) ∧
    NEURON_LIMIT = 1000 := by
  refine ⟨?_, ?_, ?_, rfl⟩
  · intro g1 e1 h
    obtain ⟨-, -, hge, hle, hlim⟩ := mutate_frame g e g1 e1 h
    refine ⟨hle, hlim, fun hb => ?_⟩
    by_cases hl : NEURON_LIMIT ≤ g.total_neurons
    · rw [(hlim hl).1]
      exact hb
    · omega
  · intro he htot
    obtain ⟨g1, e1, hs, -⟩ := mutate_succeeds g e he htot
    exact ⟨g1, e1, hs⟩
  · intro hg ho
    unfold Genome.crossover
    split
    · exact hg
    · show (if other.total_neurons < g.total_neurons then g.total_neurons
        else other.total_neurons) ≤ NEURON_LIMIT
      split
      · exact hg
      · exact ho

/-- Witness of C30: a genome at the neuron limit, on draws that ask for a node mutation. -/
theorem neuron_limit_preserved_witness :
    ∃ g1 e1, limitGenome.mutate ⟨nodeDraws, 0, 1⟩ = some (g1, e1) ∧
      g1.total_neurons = limitGenome.total_neurons ∧ g1.total_neurons ≤ NEURON_LIMIT ∧
      (limitGenome.crossover oneGeneGenome ⟨nodeDraws, 0, 1⟩).1.total_neurons
        ≤ NEURON_LIMIT := by
  obtain ⟨hm, hs, hc, -⟩ := neuron_limit_preserved limitGenome oneGeneGenome ⟨nodeDraws, 0, 1⟩
  obtain ⟨g1, e1, h⟩ := hs nodeDraws_unit (by decide)
  obtain ⟨-, h2, h3⟩ := hm g1 e1 h
  exact ⟨g1, e1, h, (h2 (by decide)).1, h3 (by decide), hc (by decide) (by decide)⟩

/-! ## C21: the order of the generational loop -/

/-- Which champion is stored plays no part in `removeWeakSpecies`. -/
theorem removeWeakSpecies_top [FloorRing α] (gym : Gym α) (top : Genome α) :
    ({ gym with top_fitness_genome := top } : Gym α).removeWeakSpecies =
      { gym.removeWeakSpecies with top_fitness_genome := top } := by
  obtain ⟨all_species, current_species, current_genome, generation, top0⟩ := gym
  unfold Gym.removeWeakSpecies
  by_cases hone : all_species.length = 1
  · rw [if_pos hone, if_pos hone]
  · rw [if_neg hone, if_neg hone]
    cases all_species with
    | nil => rfl
    | cons first rest => rfl

/-- The first species is the same before and after `removeWeakSpecies`. -/
theorem removeWeakSpecies_head [FloorRing α] (gym : Gym α) :
    gym.removeWeakSpecies.all_species.getD 0 default = gym.all_species.getD 0 default := by
  obtain ⟨all_species, current_species, current_genome, generation, top0⟩ := gym
  unfold Gym.removeWeakSpecies
  by_cases hone : all_species.length = 1
  · rw [if_pos hone]
  · rw [if_neg hone]
    cases all_species with
    | nil => rfl
    | cons first rest => rfl

/-- The snapshot of `advanceGeneration`, taken after `removeWeakSpecies`, is the gym obtained
by taking the snapshot before `removeWeakSpecies`. -/
theorem snapshot_eq [FloorRing α] (gym : Gym α) :
    gym.snapshot =
      ({ (gym.cullSpecies true).removeStaleSpecies with
        top_fitness_genome :=
          (((gym.cullSpecies true).removeStaleSpecies).all_species.getD 0 default).genomes.getD
            0 default } : Gym α).removeWeakSpecies := by
  rw [removeWeakSpecies_top, ← removeWeakSpecies_head]
  rfl

theorem addToSpecies_ne_nil (genome : Genome α) (l : List (Species α)) :
    addToSpecies genome l ≠ [] := by
  cases l with
  | nil => exact List.cons_ne_nil _ _
  | cons species rest =>
    rw [addToSpecies]
    split <;> exact List.cons_ne_nil _ _

theorem addToSpecies_nonempty (genome : Genome α) (l : List (Species α))
    (h : ∀ species ∈ l, species.genomes ≠ []) :
    ∀ species ∈ addToSpecies genome l, species.genomes ≠ [] := by
  induction l with
  | nil =>
    intro species hs
    rw [addToSpecies, List.mem_singleton] at hs
    rw [hs]
    exact List.cons_ne_nil _ _
  | cons first rest ih =>
    intro species hs
    rw [addToSpecies] at hs
    split at hs
    · rcases List.mem_cons.1 hs with rfl | hs
      · exact fun hn => List.cons_ne_nil _ _ (List.append_eq_nil.1 hn).2
      · exact h species (List.mem_cons_of_mem _ hs)
    · rcases List.mem_cons.1 hs with rfl | hs
      · exact h species (List.mem_cons_self _ _)
      · exact ih (fun s hm => h s (List.mem_cons_of_mem _ hm)) species hs

theorem addToSpecies_forall (P : Genome α → Prop) (genome : Genome α) (hg : P genome)
    (l : List (Species α)) (h : ∀ species ∈ l, ∀ x ∈ species.genomes, P x) :
    ∀ species ∈ addToSpecies genome l, ∀ x ∈ species.genomes, P x := by
  induction l with
  | nil =>
    intro species hs x hx
    rw [addToSpecies, List.mem_singleton] at hs
    rw [hs, List.mem_singleton] at hx
    rw [hx]
    exact hg
  | cons first rest ih =>
    intro species hs x hx
    rw [addToSpecies] at hs
    split at hs
    · rcases List.mem_cons.1 hs with rfl | hs
      · rcases List.mem_append.1 hx with hx | hx
        · exact h first (List.mem_cons_self _ _) x hx
        · rw [List.mem_singleton.1 hx]
          exact hg
      · exact h species (List.mem_cons_of_mem _ hs) x hx
    · rcases List.mem_cons.1 hs with rfl | hs
      · exact h species (List.mem_cons_self _ _) x hx
      · exact ih (fun s hm => h s (List.mem_cons_of_mem _ hm)) species hs x hx

/-- What the "add mutated children" loop leaves alone, and the invariants it keeps. -/
theorem injectChildren_some [FloorRing α] (children : List (Genome α)) (gym : Gym α)
    (e : Env α) (gym1 : Gym α) (e1 : Env α)
    (h : injectChildren children gym e = some (gym1, e1)) :
    gym1.current_species = gym.current_species ∧ gym1.current_genome = gym.current_genome ∧
    gym1.generation = gym.generation ∧ gym1.top_fitness_genome = gym.top_fitness_genome ∧
    ((∀ species ∈ gym.all_species, species.genomes ≠ []) →
      ∀ species ∈ gym1.all_species, species.genomes ≠ []) ∧
    (gym.all_species ≠ [] ∨ children ≠ [] → gym1.all_species ≠ []) ∧
    (∀ fitness : α,
      (∀ species ∈ gym.all_species, ∀ genome ∈ species.genomes, genome.fitness = fitness) →
      (∀ child ∈ children, child.fitness = fitness) →
      ∀ species ∈ gym1.all_species, ∀ genome ∈ species.genomes, genome.fitness = fitness) := by
  induction children generalizing gym e with
  | nil =>
    rw [injectChildren] at h
    cases h
    exact ⟨rfl, rfl, rfl, rfl, fun hs => hs,
      fun hn => hn.resolve_right (fun hc => hc rfl), fun _ hs _ => hs⟩
  | cons child rest ih =>
    rw [injectChildren] at h
    cases hm : child.mutate e with
    | none =>
      rw [hm] at h
      cases h
    | some mutated =>
      rw [hm] at h
      obtain ⟨i1, i2, i3, i4, i5, i6, i7⟩ := ih _ _ h
      obtain ⟨hfit, -⟩ := mutate_frame child e mutated.1 mutated.2 hm
      refine ⟨i1, i2, i3, i4, ?_, ?_, ?_⟩
      · intro hs
        exact i5 (addToSpecies_nonempty mutated.1 gym.all_species hs)
      · intro _
        exact i6 (Or.inl (addToSpecies_ne_nil mutated.1 gym.all_species))
      · intro fitness hs hc
        apply i7 fitness
        · apply addToSpecies_forall (fun x => x.fitness = fitness) mutated.1 _ gym.all_species hs
          rw [hfit]
          exact hc child (List.mem_cons_self _ _)
        · exact fun c hcm => hc c (List.mem_cons_of_mem _ hcm)

/-- For a gym with at least one species, `advanceGeneration` is the snapshot stages followed by
breeding, the full cull, the re-injection and the generation stamp. -/
theorem advanceGeneration_eq [FloorRing α] (gym : Gym α) (e : Env α)
    (hne : gym.all_species ≠ []) :
    gym.advanceGeneration e =
      match injectChildren (gym.snapshot.breedChildren e).1 (gym.snapshot.cullSpecies false)
        (gym.snapshot.breedChildren e).2 with
      | none => none
      | some injected =>
        some ({ injected.1 with
                generation := injected.1.generation + 1
                all_species :=
                  stampGeneration (injected.1.generation + 1) injected.1.all_species },
          injected.2) := by
  have hemp : gym.all_species.isEmpty = false := by
    cases h : gym.all_species with
    | nil => exact absurd h hne
    | cons x l => rfl
  unfold Gym.advanceGeneration
  rw [hemp]
  rfl

/-- A successful `advanceGeneration` is a successful re-injection, stamped. -/
theorem advanceGeneration_some [FloorRing α] (gym : Gym α) (e : Env α) (gym1 : Gym α)
    (e1 : Env α) (h : gym.advanceGeneration e = some (gym1, e1)) :
    gym.all_species ≠ [] ∧
    ∃ injected : Gym α,
      injectChildren (gym.snapshot.breedChildren e).1 (gym.snapshot.cullSpecies false)
        (gym.snapshot.breedChildren e).2 = some (injected, e1) ∧
      gym1 = { injected with
        generation := injected.generation + 1
        all_species := stampGeneration (injected.generation + 1) injected.all_species } := by
  have hne : gym.all_species ≠ [] := by
    intro hnil
    unfold Gym.advanceGeneration at h
    rw [hnil] at h
    cases h
  refine ⟨hne, ?_⟩
  rw [advanceGeneration_eq gym e hne] at h
  cases hi : injectChildren (gym.snapshot.breedChildren e).1 (gym.snapshot.cullSpecies false)
      (gym.snapshot.breedChildren e).2 with
  | none =>
    rw [hi] at h
    cases h
  | some injected =>
    rw [hi] at h
    cases h
    exact ⟨injected.1, rfl, rfl⟩

/-- C21 (defect of `cullSpecies`): `advanceGeneration` does not return what the eight stages
of the specification return.  In `budgetGym`, with species of `2` and `10` genomes, the
half-cull leaves one genome in the first species.  Both pipelines copy the same champion, of
fitness `75`, and breed `74 + 24` children; then the full cull of the source returns at the
first species, which holds one genome, and the second species keeps its five genomes, where
stage 6 of the specification reduces every species to its top genome.  The populations end as
`[99, 5]` in the source and as `[99, 1]` in the specification. -/
theorem advanceGeneration_leaves_pipeline :
    budgetGym.all_species.map (fun species => species.genomes.length) = [2, 10] ∧
    (budgetGym.advanceGeneration ⟨halfDraws, 0, 0⟩).map
        (fun r => r.1.all_species.map (fun species => species.genomes.length))
      = some [99, 5] ∧
    (budgetGym.specifiedPipeline ⟨halfDraws, 0, 0⟩).map
        (fun r => r.1.all_species.map (fun species => species.genomes.length))
      = some [99, 1] ∧
    (budgetGym.advanceGeneration ⟨halfDraws, 0, 0⟩).map
        (fun r => r.1.top_fitness_genome.fitness) = some 75 ∧
    (budgetGym.specifiedPipeline ⟨halfDraws, 0, 0⟩).map
        (fun r => r.1.top_fitness_genome.fitness) = some 75 ∧
    budgetGym.advanceGeneration ⟨halfDraws, 0, 0⟩ ≠
      budgetGym.specifiedPipeline ⟨halfDraws, 0, 0⟩ := by
  have h1 : (budgetGym.advanceGeneration ⟨halfDraws, 0, 0⟩).map
      (fun r => r.1.all_species.map (fun species => species.genomes.length))
      = some [99, 5] := by decide!
  have h2 : (budgetGym.specifiedPipeline ⟨halfDraws, 0, 0⟩).map
      (fun r => r.1.all_species.map (fun species => species.genomes.length))
      = some [99, 1] := by decide!
  refine ⟨by decide!, h1, h2, by decide!, by decide!, ?_⟩
  intro heq
  rw [heq, h2] at h1
  exact absurd h1 (by decide)

/-! ## C22: the non-emptiness invariant of the gym -/

/-- Culling a list of non-empty species: no species is lost, every species stays non-empty,
and its genomes are genomes of a species of the list. -/
theorem cullLoop_spec (half_cull : Bool) (l : List (Species α))
    (h : ∀ species ∈ l, species.genomes ≠ []) :
    (l ≠ [] → cullLoop half_cull l ≠ []) ∧
    ∀ culled ∈ cullLoop half_cull l, culled.genomes ≠ [] ∧
      ∃ species ∈ l, ∀ genome ∈ culled.genomes, genome ∈ species.genomes := by
  induction l with
  | nil => exact ⟨fun hn => absurd rfl hn, fun _ hc => absurd hc (List.not_mem_nil _)⟩
  | cons species rest ih =>
    obtain ⟨-, ih2⟩ := ih (fun s hs => h s (List.mem_cons_of_mem _ hs))
    rw [cullLoop]
    split
    · exact ⟨fun _ => List.cons_ne_nil _ _,
        fun culled hc => ⟨h culled hc, culled, hc, fun g hg => hg⟩⟩
    · rename_i hone
      have hpos := List.length_pos.2 (h species (List.mem_cons_self _ _))
      have hk : 1 ≤ (if half_cull = true then (sortByFitness species.genomes).length / 2
          else 1) := by
        split
        · rw [(sortByFitness_perm species.genomes).length_eq]
          omega
        · exact le_refl _
      obtain ⟨t1, t2, -, -⟩ := take_sortByFitness_spec species.genomes
        (h species (List.mem_cons_self _ _)) _ hk
      refine ⟨fun _ => List.cons_ne_nil _ _, ?_⟩
      intro culled hc
      rcases List.mem_cons.1 hc with rfl | hc
      · exact ⟨t1, species, List.mem_cons_self _ _, t2⟩
      · obtain ⟨a, s, hs, b⟩ := ih2 culled hc
        exact ⟨a, s, List.mem_cons_of_mem _ hs, b⟩

theorem removeStaleSpecies_fields (gym : Gym α) :
    gym.removeStaleSpecies.current_species = gym.current_species ∧
    gym.removeStaleSpecies.current_genome = gym.current_genome ∧
    gym.removeStaleSpecies.generation = gym.generation ∧
    gym.removeStaleSpecies.top_fitness_genome = gym.top_fitness_genome := by
  unfold Gym.removeStaleSpecies
  split
  · exact ⟨rfl, rfl, rfl, rfl⟩
  · split <;> exact ⟨rfl, rfl, rfl, rfl⟩

theorem removeWeakSpecies_fields [FloorRing α] (gym : Gym α) :
    gym.removeWeakSpecies.current_species = gym.current_species ∧
    gym.removeWeakSpecies.current_genome = gym.current_genome ∧
    gym.removeWeakSpecies.generation = gym.generation ∧
    gym.removeWeakSpecies.top_fitness_genome = gym.top_fitness_genome := by
  unfold Gym.removeWeakSpecies
  split
  · exact ⟨rfl, rfl, rfl, rfl⟩
  · split <;> exact ⟨rfl, rfl, rfl, rfl⟩

/-- The cursor and the generation at the snapshot are those of the gym. -/
theorem snapshot_fields [FloorRing α] (gym : Gym α) :
    gym.snapshot.current_species = gym.current_species ∧
    gym.snapshot.current_genome = gym.current_genome ∧
    gym.snapshot.generation = gym.generation := by
  obtain ⟨w1, w2, w3, -⟩ := removeWeakSpecies_fields (gym.cullSpecies true).removeStaleSpecies
  obtain ⟨s1, s2, s3, -⟩ := removeStaleSpecies_fields (gym.cullSpecies true)
  refine ⟨?_, ?_, ?_⟩
  · show ((gym.cullSpecies true).removeStaleSpecies).removeWeakSpecies.current_species = _
    rw [w1, s1]
    rfl
  · show ((gym.cullSpecies true).removeStaleSpecies).removeWeakSpecies.current_genome = _
    rw [w2, s2]
    rfl
  · show ((gym.cullSpecies true).removeStaleSpecies).removeWeakSpecies.generation = _
    rw [w3, s3]
    rfl

theorem removeStaleSpecies_subset (gym : Gym α) (hne : gym.all_species ≠ []) :
    gym.removeStaleSpecies.all_species ≠ [] ∧
    ∀ species ∈ gym.removeStaleSpecies.all_species, species ∈ gym.all_species := by
  obtain ⟨first, rest, hperm, -, heq⟩ := removeStaleSpecies_eq gym hne
  rw [heq]
  refine ⟨List.cons_ne_nil _ _, fun species hs => hperm.subset ?_⟩
  rcases List.mem_cons.1 hs with rfl | hs
  · exact List.mem_cons_self _ _
  · exact List.mem_cons_of_mem _ (List.mem_of_mem_filter hs)

theorem removeWeakSpecies_subset [FloorRing α] (gym : Gym α) (hne : gym.all_species ≠ []) :
    gym.removeWeakSpecies.all_species ≠ [] ∧
    ∀ species ∈ gym.removeWeakSpecies.all_species, species ∈ gym.all_species := by
  cases hl : gym.all_species with
  | nil => exact absurd hl hne
  | cons first rest =>
    rw [removeWeakSpecies_eq gym first rest hl]
    refine ⟨List.cons_ne_nil _ _, fun species hs => ?_⟩
    rcases List.mem_cons.1 hs with rfl | hs
    · exact List.mem_cons_self _ _
    · exact List.mem_cons_of_mem _ (List.mem_of_mem_filter hs)

theorem addGenome_nonEmpty (gym : Gym α) (genome : Genome α) (h : gym.NonEmpty) :
    (gym.addGenomeToRespectiveSpecies genome).NonEmpty :=
  ⟨addToSpecies_ne_nil genome gym.all_species,
    addToSpecies_nonempty genome gym.all_species h.2⟩

theorem cullSpecies_nonEmpty (gym : Gym α) (half_cull : Bool) (h : gym.NonEmpty) :
    (gym.cullSpecies half_cull).NonEmpty :=
  ⟨(cullLoop_spec half_cull gym.all_species h.2).1 h.1,
    fun culled hc => ((cullLoop_spec half_cull gym.all_species h.2).2 culled hc).1⟩

theorem removeStaleSpecies_nonEmpty (gym : Gym α) (h : gym.NonEmpty) :
    gym.removeStaleSpecies.NonEmpty :=
  ⟨(removeStaleSpecies_subset gym h.1).1,
    fun species hs => h.2 species ((removeStaleSpecies_subset gym h.1).2 species hs)⟩

theorem removeWeakSpecies_nonEmpty [FloorRing α] (gym : Gym α) (h : gym.NonEmpty) :
    gym.removeWeakSpecies.NonEmpty :=
  ⟨(removeWeakSpecies_subset gym h.1).1,
    fun species hs => h.2 species ((removeWeakSpecies_subset gym h.1).2 species hs)⟩

/-- The gym at the snapshot of `advanceGeneration` is non-empty when the gym is, and its
genomes are genomes of the gym. -/
theorem snapshot_spec [FloorRing α] (gym : Gym α) (h : gym.NonEmpty) :
    gym.snapshot.NonEmpty ∧
    ∀ species ∈ gym.snapshot.all_species, ∃ orig ∈ gym.all_species,
      ∀ genome ∈ species.genomes, genome ∈ orig.genomes := by
  have hc := cullSpecies_nonEmpty gym true h
  have hs := removeStaleSpecies_nonEmpty _ hc
  have hw := removeWeakSpecies_nonEmpty _ hs
  refine ⟨hw, fun species hm => ?_⟩
  have hm1 : species ∈ ((gym.cullSpecies true).removeStaleSpecies).removeWeakSpecies.all_species :=
    hm
  have hm2 := (removeWeakSpecies_subset _ hs.1).2 species hm1
  have hm3 := (removeStaleSpecies_subset _ hc.1).2 species hm2
  exact ((cullLoop_spec true gym.all_species h.2).2 species hm3).2

theorem stampGeneration_nonEmpty (generation : Nat) (l : List (Species α))
    (hne : l ≠ []) (h : ∀ species ∈ l, species.genomes ≠ []) :
    stampGeneration generation l ≠ [] ∧
    ∀ species ∈ stampGeneration generation l, species.genomes ≠ [] := by
  unfold stampGeneration
  refine ⟨fun hn => hne (List.map_eq_nil_iff.1 hn), fun species hs => ?_⟩
  obtain ⟨orig, ho, rfl⟩ := List.mem_map.1 hs
  exact fun hn => h orig ho (List.map_eq_nil_iff.1 hn)

/-- A successful `advanceGeneration` keeps the cursor, advances the generation by one and
keeps a non-empty gym non-empty. -/
theorem advanceGeneration_keeps [FloorRing α] (gym : Gym α) (e : Env α) (gym1 : Gym α)
    (e1 : Env α) (h : gym.advanceGeneration e = some (gym1, e1)) :
    gym1.current_species = gym.current_species ∧ gym1.current_genome = gym.current_genome ∧
    gym1.generation = gym.generation + 1 ∧ (gym.NonEmpty → gym1.NonEmpty) := by
  obtain ⟨-, injected, hi, rfl⟩ := advanceGeneration_some gym e gym1 e1 h
  obtain ⟨c1, c2, c3, -, c5, c6, -⟩ := injectChildren_some _ _ _ injected e1 hi
  obtain ⟨s1, s2, s3⟩ := snapshot_fields gym
  refine ⟨?_, ?_, ?_, ?_⟩
  · show injected.current_species = _
    rw [c1, ← s1]
    rfl
  · show injected.current_genome = _
    rw [c2, ← s2]
    rfl
  · show injected.generation + 1 = _
    rw [c3, ← s3]
    rfl
  · intro hn
    have hcull := cullSpecies_nonEmpty _ false (snapshot_spec gym hn).1
    exact stampGeneration_nonEmpty _ _ (c6 (Or.inl hcull.1)) (c5 hcull.2)

/-- On draws of `[0, 1)`, `advanceGeneration` passes its assertions on every non-empty gym
whose genomes have at least `INPUTS + OUTPUTS` neurons. -/
theorem advanceGeneration_succeeds [FloorRing α] (gym : Gym α) (e : Env α) (he : e.UnitDraws)
    (hn : gym.NonEmpty)
    (hall : ∀ species ∈ gym.all_species, ∀ genome ∈ species.genomes,
      INPUTS + OUTPUTS ≤ genome.total_neurons) :
    ∃ gym1 e1, gym.advanceGeneration e = some (gym1, e1) := by
  obtain ⟨hs1, hs2⟩ := snapshot_spec gym hn
  obtain ⟨gym1, e1, h, -⟩ := advanceGeneration_top gym e he hn.1 hs1.2
    (fun species hs genome hg => by
      obtain ⟨orig, ho, hsub⟩ := hs2 species hs
      exact hall orig ho genome (hsub genome hg))
  exact ⟨gym1, e1, h⟩

theorem appraiseCurrent_nonEmpty (gym : Gym α) (fitness : α) (h : gym.NonEmpty) :
    (gym.appraiseCurrent fitness).NonEmpty := by
  unfold Gym.appraiseCurrent
  dsimp only
  constructor
  · intro hn
    have hl := congrArg List.length hn
    simp only [List.length_set, List.length_nil] at hl
    exact h.1 (List.length_eq_zero.1 hl)
  · intro species hs
    rcases List.mem_or_eq_of_mem_set hs with hm | rfl
    · exact h.2 species hm
    · by_cases hc : gym.current_species < gym.all_species.length
      · intro hn
        have hl := congrArg List.length hn
        simp only [List.length_set, List.length_nil] at hl
        have hmem : gym.all_species.getD gym.current_species default ∈ gym.all_species := by
          rw [List.getD_eq_getElem _ _ hc]
          exact List.getElem_mem _
        exact h.2 _ hmem (List.length_eq_zero.1 hl)
      · rw [List.set_eq_of_length_le (Nat.le_of_not_lt hc)] at hs
        exact h.2 _ hs

theorem advanceInTrain_nonEmpty [FloorRing α] (gym : Gym α) (e : Env α) (gym1 : Gym α)
    (e1 : Env α) (h : gym.advanceInTrain e = some (gym1, e1)) (hn : gym.NonEmpty) :
    gym1.NonEmpty := by
  unfold Gym.advanceInTrain at h
  dsimp only at h
  split at h
  · cases h
    exact hn
  · split at h
    · cases h
      exact hn
    · exact (advanceGeneration_keeps _ e gym1 e1 h).2.2.2 hn

/-- The population loop of the constructor is the re-injection loop of `advanceGeneration` run
on copies of the champion. -/
theorem populate_eq [FloorRing α] (individuals : Nat) (gym : Gym α) (e : Env α) :
    populate individuals gym e =
      injectChildren (List.replicate individuals gym.top_fitness_genome) gym e := by
  induction individuals generalizing gym e with
  | zero => rfl
  | succ n ih =>
    rw [populate, List.replicate_succ, injectChildren]
    rw [if_neg (not_not_intro ⟨rfl, rfl⟩)]
    cases hm : gym.top_fitness_genome.mutate e with
    | none => rfl
    | some mutated =>
      show populate n (gym.addGenomeToRespectiveSpecies mutated.1) mutated.2 = _
      rw [ih]
      rfl

theorem ctor_nonEmpty [FloorRing α] (file : Option (GenomeFile α)) (e : Env α) (gym : Gym α)
    (e1 : Env α) (h : Gym.ctor file e = some (gym, e1)) : gym.NonEmpty := by
  unfold Gym.ctor at h
  dsimp only at h
  rw [populate_eq] at h
  obtain ⟨-, -, -, -, c5, c6, -⟩ := injectChildren_some _ _ _ gym e1 h
  exact ⟨c6 (Or.inr (by unfold GYM_POPULATION; simp)),
    c5 (fun _ hs => absurd hs (List.not_mem_nil _))⟩

theorem reachable_nonEmpty [FloorRing α] (gym : Gym α) (e : Env α) (h : gym.Reachable e) :
    gym.NonEmpty := by
  induction h with
  | construct file e gym e1 hc => exact ctor_nonEmpty file e gym e1 hc
  | appraise gym e fitness _ ih => exact appraiseCurrent_nonEmpty gym fitness ih
  | advance gym e gym1 e1 _ ha ih => exact advanceInTrain_nonEmpty gym e gym1 e1 ha ih

theorem linkGenes_draws (l : List (Nat × Nat)) (e : Env α) :
    (linkGenes l e).2.draws = e.draws := by
  induction l generalizing e with
  | nil => rfl
  | cons p rest ih =>
    obtain ⟨a, b⟩ := p
    have hcons : (linkGenes ((a, b) :: rest) e).2 =
        (linkGenes rest (Gene.ctor a b true e).2).2 := rfl
    rw [hcons, ih]
    rfl

theorem loadGenes_draws [FloorRing α] (tokens : List α) (e : Env α) :
    (loadGenes tokens e).2.draws = e.draws := by
  induction tokens, e using loadGenes.induct with
  | case1 t0 t1 t2 t3 rest e gene1 e1 hctor rest1 e2 hload ih =>
    have he1 : e1.draws = e.draws := by
      rw [← (ctor_spec _ _ _ e).2.2.2.2.1, hctor]
    simp only [loadGenes, hctor]
    rw [ih, he1]
  | case2 tokens e hno =>
    unfold loadGenes
    split
    · exact absurd rfl (hno _ _ _ _ _)
    · rfl

/-- The constructor `Genome( true )` draws from the generator without changing the stream. -/
theorem genome_ctor_draws [FloorRing α] (file : Option (GenomeFile α)) (e : Env α) :
    (Genome.ctor true file e).2.draws = e.draws := by
  cases file with
  | none =>
    have h : (Genome.ctor true none e).2 = (linkGenes (fullLinkPairs (INPUTS + OUTPUTS)) e).2 := by
      rw [ctor_default]
    rw [h, linkGenes_draws]
  | some myfile =>
    have h : (Genome.ctor true (some myfile) e).2 = (loadGenes myfile.tokens e).2 := by
      rw [ctor_file]
    rw [h, loadGenes_draws]

/-- On draws of `[0, 1)`, the constructor `Gym::Gym` passes its assertions when the champion
has at least `INPUTS + OUTPUTS` neurons. -/
theorem ctor_succeeds [FloorRing α] (file : Option (GenomeFile α)) (e : Env α)
    (he : e.UnitDraws)
    (htot : INPUTS + OUTPUTS ≤ (Genome.ctor true file e).1.total_neurons) :
    ∃ gym e1, Gym.ctor file e = some (gym, e1) := by
  obtain ⟨gym, e1, h, -⟩ := injectChildren_spec
    (List.replicate GYM_POPULATION (Genome.ctor true file e).1)
    (fun child hc => by rw [List.eq_of_mem_replicate hc]; exact htot)
    ({ all_species := []
       current_species := 0
       current_genome := 0
       generation := (Genome.ctor true file e).1.generation
       top_fitness_genome := (Genome.ctor true file e).1 } : Gym α)
    (Genome.ctor true file e).2
    (fun n => by rw [genome_ctor_draws]; exact he n)
  refine ⟨gym, e1, ?_⟩
  unfold Gym.ctor
  dsimp only
  rw [populate_eq]
  exact h

/-- C22: every gym state reachable from construction has at least one species and at least
one genome in every species, so that `all_species[ 0 ]` and the `genomes[ 0 ]` of every species
exist.  The invariant holds after construction and is preserved by
`addGenomeToRespectiveSpecies`, `cullSpecies` (half and full), `removeStaleSpecies`,
`removeWeakSpecies` and `advanceGeneration`, which passes its assertions on draws of `[0, 1)`
when every genome has at least `INPUTS + OUTPUTS` neurons. -/
theorem nonEmpty_invariant [FloorRing α] (gym : Gym α) (e : Env α) :
    (gym.Reachable e → gym.NonEmpty) ∧
    (∀ file gym1 e1, Gym.ctor file e = some (gym1, e1) → gym1.NonEmpty) ∧
    (gym.NonEmpty →
      (∀ genome, (gym.addGenomeToRespectiveSpecies genome).NonEmpty) ∧
      (∀ half_cull, (gym.cullSpecies half_cull).NonEmpty) ∧
      gym.removeStaleSpecies.NonEmpty ∧ gym.removeWeakSpecies.NonEmpty ∧
      (∀ gym1 e1, gym.advanceGeneration e = some (gym1, e1) → gym1.NonEmpty) ∧
      (e.UnitDraws →
        (∀ species ∈ gym.all_species, ∀ genome ∈ species.genomes,
          INPUTS + OUTPUTS ≤ genome.total_neurons) →
        ∃ gym1 e1, gym.advanceGeneration e = some (gym1, e1) ∧ gym1.NonEmpty)) := by
  refine ⟨reachable_nonEmpty gym e, fun file gym1 e1 h => ctor_nonEmpty file e gym1 e1 h,
    fun hn => ⟨fun genome => addGenome_nonEmpty gym genome hn,
      fun half_cull => cullSpecies_nonEmpty gym half_cull hn,
      removeStaleSpecies_nonEmpty gym hn, removeWeakSpecies_nonEmpty gym hn,
      fun gym1 e1 h => (advanceGeneration_keeps gym e gym1 e1 h).2.2.2 hn, ?_⟩⟩
  intro he hall
  obtain ⟨gym1, e1, h⟩ := advanceGeneration_succeeds gym e he hn hall
  exact ⟨gym1, e1, h, (advanceGeneration_keeps gym e gym1 e1 h).2.2.2 hn⟩

/-- Witness of C22: the gym built in a fresh process without champion file is non-empty, and
so are the gyms the operations make of `fadedGym`. -/
theorem nonEmpty_invariant_witness :
    (∃ gym e1, Gym.ctor none (Env.initial halfDraws) = some (gym, e1) ∧ gym.NonEmpty) ∧
    fadedGym.NonEmpty ∧
    (fadedGym.cullSpecies true).NonEmpty ∧ (fadedGym.cullSpecies false).NonEmpty ∧
    fadedGym.removeStaleSpecies.NonEmpty ∧ fadedGym.removeWeakSpecies.NonEmpty ∧
    ∃ gym1 e1, fadedGym.advanceGeneration (Env.initial halfDraws) = some (gym1, e1) ∧
      gym1.NonEmpty := by
  have hfaded : fadedGym.NonEmpty := by
    unfold Gym.NonEmpty fadedGym
    simp
  obtain ⟨-, hctor, hops⟩ := nonEmpty_invariant fadedGym (Env.initial halfDraws)
  obtain ⟨-, hcull, hstale, hweak, -, hadv⟩ := hops hfaded
  obtain ⟨gym, e1, hc⟩ := ctor_succeeds (none : Option (GenomeFile ℚ)) (Env.initial halfDraws)
    halfDraws_unit (le_of_eq (default_total_neurons _).symm)
  exact ⟨⟨gym, e1, hc, hctor none gym e1 hc⟩, hfaded, hcull true, hcull false, hstale, hweak,
    hadv halfDraws_unit (by simp [fadedGym, bareGenome, INPUTS, OUTPUTS])⟩

/-! ## C24: persistence of the champion -/

/-- The gym the constructor returns: its champion is the genome built by `Genome( true )`, its
cursor is on the first genome, it is non-empty, and every genome has the fitness of the
champion. -/
theorem ctor_some [FloorRing α] (file : Option (GenomeFile α)) (e : Env α) (gym : Gym α)
    (e1 : Env α) (h : Gym.ctor file e = some (gym, e1)) :
    gym.top_fitness_genome = (Genome.ctor true file e).1 ∧
    gym.generation = (Genome.ctor true file e).1.generation ∧
    gym.current_species = 0 ∧ gym.current_genome = 0 ∧
    ∀ species ∈ gym.all_species, ∀ genome ∈ species.genomes,
      genome.fitness = (Genome.ctor true file e).1.fitness := by
  unfold Gym.ctor at h
  dsimp only at h
  rw [populate_eq] at h
  obtain ⟨c1, c2, c3, c4, -, -, c7⟩ := injectChildren_some _ _ _ gym e1 h
  refine ⟨c4, c3, c1, c2, c7 _ (fun _ hs => absurd hs (List.not_mem_nil _)) ?_⟩
  intro child hc
  rw [List.eq_of_mem_replicate hc]

/-- In a non-empty gym whose cursor is `(0, 0)` the current genome is a genome of the gym. -/
theorem currentGenome_mem (gym : Gym α) (hn : gym.NonEmpty) (hs : gym.current_species = 0)
    (hg : gym.current_genome = 0) :
    ∃ species ∈ gym.all_species, gym.currentGenome ∈ species.genomes := by
  unfold Gym.currentGenome
  rw [hs, hg]
  cases hl : gym.all_species with
  | nil => exact absurd hl hn.1
  | cons first rest =>
    refine ⟨first, List.mem_cons_self _ _, ?_⟩
    rw [List.getD_cons_zero]
    have hne : first.genomes ≠ [] := hn.2 first (by rw [hl]; exact List.mem_cons_self _ _)
    rw [List.getD_eq_getElem _ _ (List.length_pos.2 hne)]
    exact List.getElem_mem _

/-- C24: the destructor writes the final file from the current genome when the fitness of
that genome is strictly greater than the fitness of the stored champion, and from the stored
champion otherwise.  In a gym that comes out of the constructor every genome has the fitness
of the champion the constructor built (loaded from the champion file, or the default genome),
so that a destructor run on it writes the final file from that champion: generation, fitness,
`total_neurons` and the gene tuples are those of the champion.  The constructor passes its
assertions on draws of `[0, 1)` when the champion has at least `INPUTS + OUTPUTS` neurons. -/
theorem champion_persistence [FloorRing α] (file : Option (GenomeFile α)) (e : Env α) :
    (∀ gym : Gym α,
      (gym.top_fitness_genome.fitness < gym.currentGenome.fitness →
        gym.dtor = gym.currentGenome.serialize true) ∧
      (¬ gym.top_fitness_genome.fitness < gym.currentGenome.fitness →
        gym.dtor = gym.top_fitness_genome.serialize true)) ∧
    (∀ gym e1, Gym.ctor file e = some (gym, e1) →
      (∀ species ∈ gym.all_species, ∀ genome ∈ species.genomes,
        genome.fitness = (Genome.ctor true file e).1.fitness) ∧
      gym.top_fitness_genome = (Genome.ctor true file e).1 ∧
      gym.dtor = (Genome.ctor true file e).1.serialize true ∧
      gym.dtor.1 = true) ∧
    (e.UnitDraws → INPUTS + OUTPUTS ≤ (Genome.ctor true file e).1.total_neurons →
      ∃ gym e1, Gym.ctor file e = some (gym, e1)) := by
  refine ⟨fun gym => ⟨fun h => ?_, fun h => ?_⟩, fun gym e1 h => ?_,
    fun he htot => ctor_succeeds file e he htot⟩
  · unfold Gym.dtor
    rw [if_pos h]
  · unfold Gym.dtor
    rw [if_neg h]
  · obtain ⟨htop, -, hs, hg, hfit⟩ := ctor_some file e gym e1 h
    obtain ⟨species, hm, hcur⟩ := currentGenome_mem gym (ctor_nonEmpty file e gym e1 h) hs hg
    have hnot : ¬ gym.top_fitness_genome.fitness < gym.currentGenome.fitness := by
      rw [hfit species hm _ hcur, htop]
      exact lt_irrefl _
    have hd : gym.dtor = (Genome.ctor true file e).1.serialize true := by
      unfold Gym.dtor
      rw [if_neg hnot, htop]
    refine ⟨hfit, htop, hd, ?_⟩
    rw [hd]
    rfl

/-- The champion read from `championFile` is written back as the same text. -/
theorem championFile_roundtrip :
    (Genome.ctor true (some championFile) (Env.initial halfDraws)).1.serialize true =
      (true, championFile) := by
  rw [ctor_file]
  unfold Genome.serialize championFile
  refine Prod.ext rfl ?_
  simp only [GenomeFile.mk.injEq]
  refine ⟨?_, ?_, ?_, ?_⟩ <;> decide!

/-- Witness of C24: a gym seeded with `championFile` and destroyed at once writes the text of
`championFile` as the final file. -/
theorem champion_persistence_witness :
    ∃ gym e1, Gym.ctor (some championFile) (Env.initial halfDraws) = some (gym, e1) ∧
      (∀ species ∈ gym.all_species, ∀ genome ∈ species.genomes, genome.fitness = 7) ∧
      gym.dtor = (true, championFile) := by
  obtain ⟨-, hctor, hex⟩ := champion_persistence (some championFile) (Env.initial halfDraws)
  obtain ⟨gym, e1, h⟩ := hex halfDraws_unit (by rw [ctor_file]; decide!)
  obtain ⟨hfit, -, hd, -⟩ := hctor gym e1 h
  refine ⟨gym, e1, h, ?_, ?_⟩
  · intro species hs genome hg
    rw [hfit species hs genome hg, ctor_file]
    show stof championFile.fitness = 7
    decide!
  · rw [hd, championFile_roundtrip]

/-! ## C23: the walk of the evaluation cursor -/

theorem sum_take_le (sizes : List Nat) (a b : Nat) (h : a ≤ b) :
    (sizes.take a).sum ≤ (sizes.take b).sum := by
  have h1 : sizes.take a = (sizes.take b).take a := by
    rw [List.take_take, min_eq_left h]
  have h2 := List.sum_take_add_sum_drop (sizes.take b) a
  rw [h1]
  omega

theorem sum_take_succ (sizes : List Nat) (a : Nat) (h : a < sizes.length) :
    (sizes.take (a + 1)).sum = (sizes.take a).sum + sizes.getD a 0 := by
  rw [List.take_succ, List.sum_append, List.getD_eq_getElem _ _ h, List.getElem?_eq_getElem h]
  simp

theorem size_getD (l : List (Species α)) (s : Nat) (h : s < l.length) :
    (l.map (fun species => species.genomes.length)).getD s 0 =
      (l.getD s default).genomes.length := by
  rw [List.getD_eq_getElem _ _ (by rw [List.length_map]; exact h), List.getD_eq_getElem _ _ h,
    List.getElem_map]

/-- The rank of the first genome of the next species. -/
theorem rank_next (gym : Gym α) (s : Nat) (h : s < gym.all_species.length) :
    gym.rank (s + 1) 0 = gym.rank s (gym.all_species.getD s default).genomes.length := by
  unfold Gym.rank
  rw [sum_take_succ _ s (by rw [List.length_map]; exact h), size_getD _ s h]
  rfl

/-- The rank of a position that follows the last species is the number of genomes. -/
theorem rank_end (gym : Gym α) (s : Nat) (h : gym.all_species.length ≤ s) :
    gym.rank s 0 = gym.population := by
  unfold Gym.rank Gym.population
  rw [List.take_of_length_le (by rw [List.length_map]; exact h)]
  rfl

theorem rank_mono (gym : Gym α) (s1 s2 : Nat) (h : s1 ≤ s2) : gym.rank s1 0 ≤ gym.rank s2 0 := by
  unfold Gym.rank
  have := sum_take_le (gym.all_species.map (fun species => species.genomes.length)) s1 s2 h
  omega

theorem rank_add (gym : Gym α) (s g : Nat) : gym.rank s g = gym.rank s 0 + g := rfl

/-- The rank is strictly increasing from one species to a later one. -/
theorem rank_lt_of_lt (gym : Gym α) (s1 g1 s2 g2 : Nat) (h : s1 < s2)
    (hs1 : s1 < gym.all_species.length)
    (hg1 : g1 < (gym.all_species.getD s1 default).genomes.length) :
    gym.rank s1 g1 < gym.rank s2 g2 := by
  have h1 := rank_next gym s1 hs1
  have h2 := rank_mono gym (s1 + 1) s2 h
  rw [rank_add gym s1 g1, rank_add gym s2 g2]
  rw [rank_add gym s1 _] at h1
  omega

theorem rank_lt_population (gym : Gym α) (s g : Nat) (hs : s < gym.all_species.length)
    (hg : g < (gym.all_species.getD s default).genomes.length) :
    gym.rank s g < gym.population := by
  have h := rank_lt_of_lt gym s g gym.all_species.length 0 hs hs hg
  rw [rank_end gym _ (le_refl _)] at h
  exact h

theorem cursor_reset (gym : Gym α) (hs : gym.current_species = 0)
    (hg : gym.current_genome = 0) :
    ({ gym with current_species := 0, current_genome := 0 } : Gym α) = gym := by
  obtain ⟨a, b, c, d, t⟩ := gym
  simp only at hs hg
  subst hs hg
  rfl

/-- After `k` calls, with `k` below the number of genomes, the cursor is on the position of
rank `k`, and nothing else has changed. -/
theorem advanceInTrainTimes_rank [FloorRing α] (gym : Gym α) (e : Env α)
    (hsp : ∀ species ∈ gym.all_species, species.genomes ≠ [])
    (hs : gym.current_species = 0) (hg : gym.current_genome = 0) (k : Nat)
    (hk : k < gym.population) :
    ∃ s g, advanceInTrainTimes k gym e =
        some ({ gym with current_species := s, current_genome := g }, e) ∧
      s < gym.all_species.length ∧ g < (gym.all_species.getD s default).genomes.length ∧
      gym.rank s g = k := by
  have hsize : ∀ s, s < gym.all_species.length →
      0 < (gym.all_species.getD s default).genomes.length := by
    intro s hlt
    apply List.length_pos.2
    apply hsp
    rw [List.getD_eq_getElem _ _ hlt]
    exact List.getElem_mem _
  induction k with
  | zero =>
    have hlen : 0 < gym.all_species.length := by
      by_contra hc
      have hz := rank_end gym 0 (by omega)
      have hr : gym.rank 0 0 = 0 := by
        unfold Gym.rank
        simp
      omega
    refine ⟨0, 0, ?_, hlen, hsize 0 hlen, ?_⟩
    · rw [cursor_reset gym hs hg]
      rfl
    · unfold Gym.rank
      simp
  | succ k ih =>
    obtain ⟨s, g, hstate, hslt, hglt, hrank⟩ := ih (by omega)
    have hstep : advanceInTrainTimes (k + 1) gym e =
        ({ gym with current_species := s, current_genome := g } : Gym α).advanceInTrain e := by
      rw [advanceInTrainTimes, hstate]
    rw [hstep]
    unfold Gym.advanceInTrain
    dsimp only
    by_cases h1 : g + 1 < (gym.all_species.getD s default).genomes.length
    · rw [if_pos h1]
      exact ⟨s, g + 1, rfl, hslt, h1, by rw [rank_add] at hrank ⊢; omega⟩
    · rw [if_neg h1]
      have hnext := rank_next gym s hslt
      rw [rank_add gym s _] at hnext
      rw [rank_add] at hrank
      by_cases h2 : s + 1 < gym.all_species.length
      · rw [if_pos h2]
        exact ⟨s + 1, 0, rfl, h2, hsize _ h2, by omega⟩
      · have hend := rank_end gym (s + 1) (by omega)
        omega

/-- Call number `population` resets the cursor and runs `advanceGeneration`. -/
theorem advanceInTrainTimes_last [FloorRing α] (gym : Gym α) (e : Env α)
    (hsp : ∀ species ∈ gym.all_species, species.genomes ≠ [])
    (hs : gym.current_species = 0) (hg : gym.current_genome = 0) (k : Nat)
    (hk : k + 1 = gym.population) :
    advanceInTrainTimes (k + 1) gym e = gym.advanceGeneration e := by
  obtain ⟨s, g, hstate, hslt, hglt, hrank⟩ :=
    advanceInTrainTimes_rank gym e hsp hs hg k (by omega)
  have hstep : advanceInTrainTimes (k + 1) gym e =
      ({ gym with current_species := s, current_genome := g } : Gym α).advanceInTrain e := by
    rw [advanceInTrainTimes, hstate]
  rw [hstep]
  unfold Gym.advanceInTrain
  dsimp only
  by_cases h1 : g + 1 < (gym.all_species.getD s default).genomes.length
  · have := rank_lt_population gym s (g + 1) hslt h1
    rw [rank_add] at hrank this
    omega
  · rw [if_neg h1]
    by_cases h2 : s + 1 < gym.all_species.length
    · have hpos : 0 < (gym.all_species.getD (s + 1) default).genomes.length := by
        apply List.length_pos.2
        apply hsp
        rw [List.getD_eq_getElem _ _ h2]
        exact List.getElem_mem _
      have := rank_lt_population gym (s + 1) 0 h2 hpos
      have hnext := rank_next gym s hslt
      rw [rank_add gym s _] at hnext
      rw [rank_add] at hrank
      omega
    · rw [if_neg h2]
      show Gym.advanceGeneration ({ gym with current_species := 0, current_genome := 0 }) e = _
      rw [cursor_reset gym hs hg]

/-- C23: in a gym whose species are all non-empty and hold `population` genomes, with the
cursor on `(0, 0)`, there is an enumeration `pos` of the cursor positions such that: after `k`
calls of `advanceInTrain`, for every `k < population`, the gym is the initial gym with its
cursor on `pos k`, which names an existing genome, and the generator has not been used (no
generation was run); `pos` is strictly increasing in the lexicographic order and reaches every
position; and call number `population` is one run of `advanceGeneration` on the gym, which
leaves the cursor on `(0, 0)`. -/
theorem advanceInTrain_walk [FloorRing α] (gym : Gym α) (e : Env α)
    (hsp : ∀ species ∈ gym.all_species, species.genomes ≠ [])
    (hs : gym.current_species = 0) (hg : gym.current_genome = 0) :
    ∃ pos : Nat → Nat × Nat,
      (∀ k, k < gym.population →
        advanceInTrainTimes k gym e =
          some ({ gym with current_species := (pos k).1, current_genome := (pos k).2 }, e) ∧
        (pos k).1 < gym.all_species.length ∧
        (pos k).2 < (gym.all_species.getD (pos k).1 default).genomes.length) ∧
      (∀ k1 k2, k1 < k2 → k2 < gym.population →
        (pos k1).1 < (pos k2).1 ∨ ((pos k1).1 = (pos k2).1 ∧ (pos k1).2 < (pos k2).2)) ∧
      (∀ s g, s < gym.all_species.length →
        g < (gym.all_species.getD s default).genomes.length →
        ∃ k, k < gym.population ∧ pos k = (s, g)) ∧
      (∀ k, k + 1 = gym.population →
        advanceInTrainTimes (k + 1) gym e = gym.advanceGeneration e ∧
        ∀ gym1 e1, gym.advanceGeneration e = some (gym1, e1) →
          gym1.current_species = 0 ∧ gym1.current_genome = 0) := by
  have hw := advanceInTrainTimes_rank gym e hsp hs hg
  choose! cs cg hpos using hw
  have hlex : ∀ s1 g1 s2 g2, s1 < gym.all_species.length →
      g1 < (gym.all_species.getD s1 default).genomes.length →
      s2 < gym.all_species.length →
      g2 < (gym.all_species.getD s2 default).genomes.length →
      gym.rank s1 g1 < gym.rank s2 g2 → s1 < s2 ∨ (s1 = s2 ∧ g1 < g2) := by
    intro s1 g1 s2 g2 hs1 hg1 hs2 hg2 hr
    rcases lt_trichotomy s1 s2 with hlt | heq | hgt
    · exact Or.inl hlt
    · subst heq
      rw [rank_add gym s1 g1, rank_add gym s1 g2] at hr
      exact Or.inr ⟨rfl, by omega⟩
    · have := rank_lt_of_lt gym s2 g2 s1 g1 hgt hs2 hg2
      omega
  refine ⟨fun k => (cs k, cg k), ?_, ?_, ?_, ?_⟩
  · intro k hk
    obtain ⟨h1, h2, h3, -⟩ := hpos k hk
    exact ⟨h1, h2, h3⟩
  · intro k1 k2 h12 hk2
    obtain ⟨-, a2, a3, a4⟩ := hpos k1 (by omega)
    obtain ⟨-, b2, b3, b4⟩ := hpos k2 hk2
    exact hlex (cs k1) (cg k1) (cs k2) (cg k2) a2 a3 b2 b3 (by rw [a4, b4]; exact h12)
  · intro s g hslt hglt
    have hk := rank_lt_population gym s g hslt hglt
    obtain ⟨-, a2, a3, a4⟩ := hpos (gym.rank s g) hk
    refine ⟨gym.rank s g, hk, ?_⟩
    rcases lt_trichotomy (cs (gym.rank s g)) s with hlt | heq | hgt
    · have := rank_lt_of_lt gym _ _ s g hlt a2 a3
      omega
    · have hcg : cg (gym.rank s g) = g := by
        have a5 : gym.rank (cs (gym.rank s g)) 0 + cg (gym.rank s g) = gym.rank s 0 + g := a4
        rw [heq] at a5
        omega
      show (cs (gym.rank s g), cg (gym.rank s g)) = (s, g)
      rw [heq, hcg]
    · have := rank_lt_of_lt gym s g _ (cg (gym.rank s g)) hgt hslt hglt
      omega
  · intro k hk
    refine ⟨advanceInTrainTimes_last gym e hsp hs hg k hk, fun gym1 e1 h => ?_⟩
    obtain ⟨c1, c2, -, -⟩ := advanceGeneration_keeps gym e gym1 e1 h
    rw [c1, c2]
    exact ⟨hs, hg⟩

/-- Witness of C23 on `walkGym`, a gym of three genomes in two species. -/
theorem advanceInTrain_walk_witness :
    ∃ pos : Nat → Nat × Nat,
      (∀ k, k < walkGym.population →
        advanceInTrainTimes k walkGym ⟨halfDraws, 0, 0⟩ =
          some ({ walkGym with current_species := (pos k).1, current_genome := (pos k).2 },
            ⟨halfDraws, 0, 0⟩) ∧
        (pos k).1 < walkGym.all_species.length ∧
        (pos k).2 < (walkGym.all_species.getD (pos k).1 default).genomes.length) ∧
      (∀ k1 k2, k1 < k2 → k2 < walkGym.population →
        (pos k1).1 < (pos k2).1 ∨ ((pos k1).1 = (pos k2).1 ∧ (pos k1).2 < (pos k2).2)) ∧
      (∀ s g, s < walkGym.all_species.length →
        g < (walkGym.all_species.getD s default).genomes.length →
        ∃ k, k < walkGym.population ∧ pos k = (s, g)) ∧
      (∀ k, k + 1 = walkGym.population →
        advanceInTrainTimes (k + 1) walkGym ⟨halfDraws, 0, 0⟩ =
          walkGym.advanceGeneration ⟨halfDraws, 0, 0⟩ ∧
        ∀ gym1 e1, walkGym.advanceGeneration ⟨halfDraws, 0, 0⟩ = some (gym1, e1) →
          gym1.current_species = 0 ∧ gym1.current_genome = 0) :=
  advanceInTrain_walk walkGym ⟨halfDraws, 0, 0⟩ (by simp [walkGym]) rfl rfl

/-! ## C31, C32: link mutation -/

/-- `hasLink` on the neuron built for `index`: an input neuron has no incoming list, and any
other neuron has the genes that target it. -/
theorem hasLink_iff (index neuron_index : Nat) (network : List (Gene α)) :
    (Neuron.ctor index network).hasLink neuron_index = true ↔
      INPUTS ≤ index ∧ ∃ gene ∈ network, gene.to_ = index ∧ gene.from_ = neuron_index := by
  unfold Neuron.ctor Neuron.hasLink
  by_cases hi : index < INPUTS
  · rw [if_pos hi]
    simp only [List.any_nil, Bool.false_eq_true, false_iff, not_and]
    intro h
    omega
  · rw [if_neg hi]
    simp only [List.any_eq_true, List.mem_filter, decide_eq_true_eq]
    constructor
    · rintro ⟨gene, ⟨hm, ht⟩, hf⟩
      exact ⟨by omega, gene, hm, ht, hf⟩
    · rintro ⟨-, gene, hm, ht, hf⟩
      exact ⟨gene, ⟨hm, ht⟩, hf⟩

/-- The closed form of `mutateLink` on draws of `[0, 1)`: with `a` the non-output pick and `b`
the non-input pick, nothing happens when `a = b` or `hasLink` finds a link, and otherwise one
gene `min(a, b) → max(a, b)` is appended. -/
theorem mutateLink_eq [FloorRing α] (g : Genome α) (e : Env α) (he : e.UnitDraws)
    (htot : INPUTS + OUTPUTS ≤ g.total_neurons) :
    g.mutateLink e =
      if randomIndex (e.draws e.drawn) (g.total_neurons - OUTPUTS) =
            randomIndex (e.draws (e.drawn + 1)) (g.total_neurons - INPUTS) + INPUTS ∨
          ((Neuron.ctor (randomIndex (e.draws e.drawn) (g.total_neurons - OUTPUTS))
              g.network).hasLink
                (randomIndex (e.draws (e.drawn + 1)) (g.total_neurons - INPUTS) + INPUTS) ||
            (Neuron.ctor (randomIndex (e.draws (e.drawn + 1)) (g.total_neurons - INPUTS) + INPUTS)
              g.network).hasLink
                (randomIndex (e.draws e.drawn) (g.total_neurons - OUTPUTS))) = true
      then some (g, { e with drawn := e.drawn + 2 })
      else some ({ g with network := g.network ++
          [⟨(e.current_innovation + 1) % 2 ^ UINT_WIDTH,
            min (randomIndex (e.draws e.drawn) (g.total_neurons - OUTPUTS))
              (randomIndex (e.draws (e.drawn + 1)) (g.total_neurons - INPUTS) + INPUTS),
            max (randomIndex (e.draws e.drawn) (g.total_neurons - OUTPUTS))
              (randomIndex (e.draws (e.drawn + 1)) (g.total_neurons - INPUTS) + INPUTS),
            e.draws (e.drawn + 2) * LINK_RANGE α + LINK_OFFSET α, true⟩] },
        ⟨e.draws, e.drawn + 3, (e.current_innovation + 1) % 2 ^ UINT_WIDTH⟩) := by
  have h1 := randomIndex_lt (e.draws e.drawn) (g.total_neurons - OUTPUTS) (he _).1 (he _).2
    (by unfold INPUTS OUTPUTS at *; omega)
  have h1' : randomIndex (e.draws e.drawn) (g.total_neurons - OUTPUTS) < g.total_neurons := by
    omega
  unfold Genome.mutateLink
  simp only [generateRandom, h1', not_true_eq_false, if_false]
  by_cases heq : randomIndex (e.draws e.drawn) (g.total_neurons - OUTPUTS) =
      randomIndex (e.draws (e.drawn + 1)) (g.total_neurons - INPUTS) + INPUTS
  · rw [if_pos heq, if_pos (Or.inl heq)]
  · rw [if_neg heq]
    by_cases hlink : ((Neuron.ctor (randomIndex (e.draws e.drawn) (g.total_neurons - OUTPUTS))
              g.network).hasLink
                (randomIndex (e.draws (e.drawn + 1)) (g.total_neurons - INPUTS) + INPUTS) ||
            (Neuron.ctor (randomIndex (e.draws (e.drawn + 1)) (g.total_neurons - INPUTS) + INPUTS)
              g.network).hasLink
                (randomIndex (e.draws e.drawn) (g.total_neurons - OUTPUTS))) = true
    · rw [if_pos hlink, if_pos (Or.inr hlink)]
    · rw [if_neg hlink, if_neg (not_or.2 ⟨heq, hlink⟩)]
      by_cases hlt : randomIndex (e.draws e.drawn) (g.total_neurons - OUTPUTS) <
          randomIndex (e.draws (e.drawn + 1)) (g.total_neurons - INPUTS) + INPUTS
      · rw [if_pos hlt, min_eq_left (le_of_lt hlt), max_eq_right (le_of_lt hlt)]
        rfl
      · rw [if_neg hlt, min_eq_right (not_lt.1 hlt), max_eq_left (not_lt.1 hlt)]
        rfl

/-- C31 as stated fails.  The neuron built for an input index has no incoming list, so
`hasLink` does not see a gene that runs into an input neuron: in `reversedGenome`, whose gene
`76 → 0` connects the two picks `0` and `76`, `mutateLink` appends the gene `0 → 76` and
advances the innovation counter. -/
theorem mutateLink_misses_reversed_link :
    randomIndex (nodeDraws 1) (reversedGenome.total_neurons - OUTPUTS) = 0 ∧
    randomIndex (nodeDraws 2) (reversedGenome.total_neurons - INPUTS) + INPUTS = 76 ∧
    reversedGenome.network.map (fun gene => (gene.from_, gene.to_)) = [(76, 0)] ∧
    (reversedGenome.mutateLink ⟨nodeDraws, 1, 1⟩).map
        (fun r => (r.1.network.map (fun gene => (gene.innovation, gene.from_, gene.to_)),
          r.2.current_innovation)) =
      some ([(1, 76, 0), (2, 0, 76)], 2) := by
  decide!

/-- C31, amended: let `a` be the non-output pick and `b` the non-input pick of `mutateLink` on
a genome of at least `INPUTS + OUTPUTS` neurons.  When `a = b`, or a gene runs from `a` to `b`,
or a gene runs from `b` to `a` and `a` is not an input neuron, `mutateLink` returns the genome
as it is (network, `total_neurons`) and leaves the innovation counter alone; it has drawn two
values. -/
theorem mutateLink_collision [FloorRing α] (g : Genome α) (e : Env α) (he : e.UnitDraws)
    (htot : INPUTS + OUTPUTS ≤ g.total_neurons)
    (hcol : randomIndex (e.draws e.drawn) (g.total_neurons - OUTPUTS) =
        randomIndex (e.draws (e.drawn + 1)) (g.total_neurons - INPUTS) + INPUTS ∨
      (∃ gene ∈ g.network,
        gene.from_ = randomIndex (e.draws e.drawn) (g.total_neurons - OUTPUTS) ∧
        gene.to_ = randomIndex (e.draws (e.drawn + 1)) (g.total_neurons - INPUTS) + INPUTS) ∨
      (INPUTS ≤ randomIndex (e.draws e.drawn) (g.total_neurons - OUTPUTS) ∧
        ∃ gene ∈ g.network,
          gene.from_ = randomIndex (e.draws (e.drawn + 1)) (g.total_neurons - INPUTS) + INPUTS ∧
          gene.to_ = randomIndex (e.draws e.drawn) (g.total_neurons - OUTPUTS))) :
    g.mutateLink e = some (g, { e with drawn := e.drawn + 2 }) := by
  rw [mutateLink_eq g e he htot]
  apply if_pos
  rcases hcol with heq | ⟨gene, hm, hf, ht⟩ | ⟨hin, gene, hm, hf, ht⟩
  · exact Or.inl heq
  · right
    rw [Bool.or_eq_true]
    right
    exact (hasLink_iff _ _ _).2 ⟨Nat.le_add_left _ _, gene, hm, ht, hf⟩
  · right
    rw [Bool.or_eq_true]
    left
    exact (hasLink_iff _ _ _).2 ⟨hin, gene, hm, ht, hf⟩

/-- Witness of the amended C31: the one-gene genome `0 → 76`, with the picks `0` and `76`. -/
theorem mutateLink_collision_witness :
    oneGeneGenome.mutateLink ⟨nodeDraws, 1, 1⟩ = some (oneGeneGenome, ⟨nodeDraws, 3, 1⟩) :=
  mutateLink_collision oneGeneGenome ⟨nodeDraws, 1, 1⟩
    (fun n => by
      show 0 ≤ nodeDraws n ∧ nodeDraws n < 1
      unfold nodeDraws
      split
      · norm_num
      · split <;> norm_num)
    (by decide)
    (Or.inr (Or.inl ⟨⟨1, 0, 76, 1 / 2, true⟩, List.mem_singleton.2 rfl, by decide!, by decide!⟩))

/-- C32: on a genome of at least `INPUTS + OUTPUTS` neurons and draws of `[0, 1)`,
`mutateLink` passes its assertion and appends at most one gene, the genes already there and
`total_neurons` staying as they are.  A gene it appends is enabled, carries the number just
issued by `newInnovation` (which is none of the numbers of the genome when these are at most
the counter and the counter does not wrap), and runs from the lower to the higher of the two
picks: `from < to`, `from < total_neurons - OUTPUTS` and `INPUTS ≤ to < total_neurons`. -/
theorem mutateLink_insertion [FloorRing α] (g : Genome α) (e : Env α) (he : e.UnitDraws)
    (htot : INPUTS + OUTPUTS ≤ g.total_neurons) :
    ∃ g1 e1, g.mutateLink e = some (g1, e1) ∧ g1.total_neurons = g.total_neurons ∧
      ((g1.network = g.network ∧ e1.current_innovation = e.current_innovation) ∨
        ∃ gene, g1.network = g.network ++ [gene] ∧ gene.enabled = true ∧
          gene.innovation = (newInnovation e).1 ∧
          e1.current_innovation = (newInnovation e).1 ∧
          ((∀ old ∈ g.network, old.innovation ≤ e.current_innovation) →
            e.current_innovation + 1 < 2 ^ UINT_WIDTH →
            ∀ old ∈ g.network, old.innovation ≠ gene.innovation) ∧
          gene.from_ = min (randomIndex (e.draws e.drawn) (g.total_neurons - OUTPUTS))
            (randomIndex (e.draws (e.drawn + 1)) (g.total_neurons - INPUTS) + INPUTS) ∧
          gene.to_ = max (randomIndex (e.draws e.drawn) (g.total_neurons - OUTPUTS))
            (randomIndex (e.draws (e.drawn + 1)) (g.total_neurons - INPUTS) + INPUTS) ∧
          gene.from_ < gene.to_ ∧ gene.from_ < g.total_neurons - OUTPUTS ∧
          INPUTS ≤ gene.to_ ∧ gene.to_ < g.total_neurons) := by
  have h1 := randomIndex_lt (e.draws e.drawn) (g.total_neurons - OUTPUTS) (he _).1 (he _).2
    (by unfold INPUTS OUTPUTS at *; omega)
  have h2 := randomIndex_lt (e.draws (e.drawn + 1)) (g.total_neurons - INPUTS) (he _).1 (he _).2
    (by unfold INPUTS OUTPUTS at *; omega)
  rw [mutateLink_eq g e he htot]
  split
  · exact ⟨_, _, rfl, rfl, Or.inl ⟨rfl, rfl⟩⟩
  · rename_i hno
    have hne := (not_or.1 hno).1
    refine ⟨_, _, rfl, rfl, Or.inr ⟨_, rfl, rfl, rfl, rfl, ?_, rfl, rfl, ?_, ?_, ?_, ?_⟩⟩
    · intro hle hroom old hold heq
      have h3 := hle old hold
      have h4 : old.innovation = (e.current_innovation + 1) % 2 ^ UINT_WIDTH := heq
      rw [Nat.mod_eq_of_lt hroom] at h4
      omega
    · show min _ _ < max _ _
      rcases lt_or_gt_of_ne hne with hlt | hgt
      · rw [min_eq_left (le_of_lt hlt), max_eq_right (le_of_lt hlt)]
        exact hlt
      · rw [min_eq_right (le_of_lt hgt), max_eq_left (le_of_lt hgt)]
        exact hgt
    · show min _ _ < g.total_neurons - OUTPUTS
      exact lt_of_le_of_lt (min_le_left _ _) h1
    · show INPUTS ≤ max _ _
      exact le_trans (Nat.le_add_left _ _) (le_max_right _ _)
    · show max _ _ < g.total_neurons
      apply max_lt
      · omega
      · omega

/-- Witness of C32: the one-gene genome `0 → 76`, with a first pick of `38`. -/
theorem mutateLink_insertion_witness :
    ∃ g1 e1, oneGeneGenome.mutateLink ⟨halfDraws, 0, 1⟩ = some (g1, e1) ∧
      g1.total_neurons = oneGeneGenome.total_neurons ∧
      ((g1.network = oneGeneGenome.network ∧ e1.current_innovation = 1) ∨
        ∃ gene, g1.network = oneGeneGenome.network ++ [gene] ∧ gene.enabled = true ∧
          gene.from_ < gene.to_ ∧ gene.from_ < oneGeneGenome.total_neurons - OUTPUTS ∧
          INPUTS ≤ gene.to_ ∧ gene.to_ < oneGeneGenome.total_neurons) := by
  obtain ⟨g1, e1, h, ht, hcase⟩ := mutateLink_insertion oneGeneGenome ⟨halfDraws, 0, 1⟩
    (fun n => by
      show 0 ≤ halfDraws n ∧ halfDraws n < 1
      unfold halfDraws
      norm_num)
    (by decide)
  refine ⟨g1, e1, h, ht, ?_⟩
  rcases hcase with ⟨hn, hc⟩ | ⟨gene, hn, hen, -, -, -, -, -, a, b, c, d⟩
  · exact Or.inl ⟨hn, hc⟩
  · exact Or.inr ⟨gene, hn, hen, a, b, c, d⟩

/-! ## C33: renumbering by a node mutation -/

/-- A closed form of `mutateNode` when the gene it picks is enabled. -/
theorem mutateNode_split [FloorRing α] (g : Genome α) (e : Env α) (he : e.UnitDraws)
    (hne : g.network ≠ [])
    (hen : (g.network.getD (randomIndex (e.draws e.drawn) g.network.length) default).enabled
      = true) :
    ∃ bot top e1, g.mutateNode e =
      some ({ g with
        total_neurons := g.total_neurons + 1
        network := shiftIndexes
          (min (g.network.getD (randomIndex (e.draws e.drawn) g.network.length) default).to_
            (g.total_neurons - OUTPUTS))
          (g.network.set (randomIndex (e.draws e.drawn) g.network.length)
            { g.network.getD (randomIndex (e.draws e.drawn) g.network.length) default with
              enabled := false }) ++ [bot, top] }, e1) := by
  have hemp : ¬ g.network.isEmpty = true := by
    cases hg : g.network with
    | nil => exact absurd hg hne
    | cons a l => simp
  have hlen : 0 < g.network.length := List.length_pos.2 hne
  have hlt := randomIndex_lt (e.draws e.drawn) g.network.length (he _).1 (he _).2 hlen
  have hpivot : (if g.total_neurons - OUTPUTS <
        (g.network.getD (randomIndex (e.draws e.drawn) g.network.length) default).to_
      then g.total_neurons - OUTPUTS
      else (g.network.getD (randomIndex (e.draws e.drawn) g.network.length) default).to_) =
      min (g.network.getD (randomIndex (e.draws e.drawn) g.network.length) default).to_
        (g.total_neurons - OUTPUTS) := by
    split
    · rw [min_eq_right (le_of_lt ‹_›)]
    · rw [min_eq_left (not_lt.1 ‹_›)]
  unfold Genome.mutateNode
  rw [if_neg hemp]
  simp only [generateRandom, hlt, not_true_eq_false, if_false, hen, hpivot]
  exact ⟨_, _, _, rfl⟩

theorem getD_shiftIndexes (p : Nat) (l : List (Gene α)) (j : Nat) (hj : j < l.length) :
    (shiftIndexes p l).getD j default =
      { l.getD j default with
        from_ := if p ≤ (l.getD j default).from_ then (l.getD j default).from_ + 1
          else (l.getD j default).from_
        to_ := if p ≤ (l.getD j default).to_ then (l.getD j default).to_ + 1
          else (l.getD j default).to_ } := by
  unfold shiftIndexes
  rw [List.getD_eq_getElem _ _ (by rw [List.length_map]; exact hj), List.getD_eq_getElem _ _ hj,
    List.getElem_map]

/-- C33: when `mutateNode` picks an enabled gene `(a, b)` of a genome with valid indices, it
returns a genome with one neuron and two genes more in which, with
`pivot = min(b, total_neurons - OUTPUTS)`, every gene that was there keeps its place, its
innovation number and its weight, is disabled if it is the gene picked and keeps its state
otherwise, and has each endpoint raised by one if it was at least `pivot` and unchanged if it
was smaller.  So no such gene refers to the index `pivot` of the new neuron, and an endpoint
that was the `k`-th output neuron `total_neurons - OUTPUTS + k` is the `k`-th output neuron of
the new genome. -/
theorem mutateNode_renumbering [FloorRing α] (g : Genome α) (e : Env α) (he : e.UnitDraws)
    (hidx : g.IndexBounds) (hne : g.network ≠ [])
    (hen : (g.network.getD (randomIndex (e.draws e.drawn) g.network.length) default).enabled
      = true) :
    ∃ g1 e1 pivot, g.mutateNode e = some (g1, e1) ∧
      pivot = min (g.network.getD (randomIndex (e.draws e.drawn) g.network.length) default).to_
        (g.total_neurons - OUTPUTS) ∧
      g1.total_neurons = g.total_neurons + 1 ∧
      g1.network.length = g.network.length + 2 ∧
      ∀ j, j < g.network.length →
        (g1.network.getD j default).innovation = (g.network.getD j default).innovation ∧
        (g1.network.getD j default).weight = (g.network.getD j default).weight ∧
        (g1.network.getD j default).enabled =
          (if j = randomIndex (e.draws e.drawn) g.network.length then false
            else (g.network.getD j default).enabled) ∧
        (g1.network.getD j default).from_ =
          (if pivot ≤ (g.network.getD j default).from_ then (g.network.getD j default).from_ + 1
            else (g.network.getD j default).from_) ∧
        (g1.network.getD j default).to_ =
          (if pivot ≤ (g.network.getD j default).to_ then (g.network.getD j default).to_ + 1
            else (g.network.getD j default).to_) ∧
        (g1.network.getD j default).from_ ≠ pivot ∧ (g1.network.getD j default).to_ ≠ pivot ∧
        ∀ k, k < OUTPUTS →
          ((g.network.getD j default).from_ = g.total_neurons - OUTPUTS + k →
            (g1.network.getD j default).from_ = g1.total_neurons - OUTPUTS + k) ∧
          ((g.network.getD j default).to_ = g.total_neurons - OUTPUTS + k →
            (g1.network.getD j default).to_ = g1.total_neurons - OUTPUTS + k) := by
  obtain ⟨bot, top, e1, hsplit⟩ := mutateNode_split g e he hne hen
  refine ⟨_, e1, _, hsplit, rfl, rfl, ?_, ?_⟩
  · show (shiftIndexes _ _ ++ [bot, top]).length = _
    rw [List.length_append]
    unfold shiftIndexes
    rw [List.length_map, List.length_set]
    rfl
  · intro j hj
    have hj2 : j < (g.network.set (randomIndex (e.draws e.drawn) g.network.length)
        { g.network.getD (randomIndex (e.draws e.drawn) g.network.length) default with
          enabled := false }).length := by
      rw [List.length_set]
      exact hj
    have hj3 : j < (shiftIndexes
        (min (g.network.getD (randomIndex (e.draws e.drawn) g.network.length) default).to_
          (g.total_neurons - OUTPUTS))
        (g.network.set (randomIndex (e.draws e.drawn) g.network.length)
          { g.network.getD (randomIndex (e.draws e.drawn) g.network.length) default with
            enabled := false })).length := by
      unfold shiftIndexes
      rw [List.length_map]
      exact hj2
    have hnew : ∀ (l2 : List (Gene α)),
        (shiftIndexes
          (min (g.network.getD (randomIndex (e.draws e.drawn) g.network.length) default).to_
            (g.total_neurons - OUTPUTS))
          (g.network.set (randomIndex (e.draws e.drawn) g.network.length)
            { g.network.getD (randomIndex (e.draws e.drawn) g.network.length) default with
              enabled := false }) ++ l2).getD j default =
        (shiftIndexes
          (min (g.network.getD (randomIndex (e.draws e.drawn) g.network.length) default).to_
            (g.total_neurons - OUTPUTS))
          (g.network.set (randomIndex (e.draws e.drawn) g.network.length)
            { g.network.getD (randomIndex (e.draws e.drawn) g.network.length) default with
              enabled := false })).getD j default := by
      intro l2
      rw [List.getD_append _ _ _ _ hj3]
    have hset : (g.network.set (randomIndex (e.draws e.drawn) g.network.length)
          { g.network.getD (randomIndex (e.draws e.drawn) g.network.length) default with
            enabled := false }).getD j default =
        { g.network.getD j default with
          enabled := if j = randomIndex (e.draws e.drawn) g.network.length then false
            else (g.network.getD j default).enabled } := by
      rw [List.getD_eq_getElem _ _ hj2, List.getElem_set, List.getD_eq_getElem _ _ hj]
      by_cases hji : randomIndex (e.draws e.drawn) g.network.length = j
      · subst hji
        rw [if_pos rfl, if_pos rfl, List.getD_eq_getElem _ _ hj]
      · rw [if_neg hji, if_neg (fun h => hji h.symm)]
    show ((shiftIndexes _ _ ++ [bot, top]).getD j default).innovation = _ ∧ _
    rw [hnew, getD_shiftIndexes _ _ j hj2, hset]
    dsimp only
    have htot := hidx.1
    refine ⟨rfl, rfl, rfl, rfl, rfl, ?_, ?_, ?_⟩
    · split <;> omega
    · split <;> omega
    · intro k hk
      have hmin : min (g.network.getD (randomIndex (e.draws e.drawn) g.network.length)
          default).to_ (g.total_neurons - OUTPUTS) ≤ g.total_neurons - OUTPUTS :=
        min_le_right _ _
      unfold INPUTS OUTPUTS at *
      constructor
      · intro hf
        rw [if_pos (by omega)]
        omega
      · intro ht
        rw [if_pos (by omega)]
        omega

/-- Witness of C33: the one-gene genome `0 → 76`, whose gene is split. -/
theorem mutateNode_renumbering_witness :
    ∃ g1 e1, oneGeneGenome.mutateNode ⟨nodeDraws, 2, 1⟩ = some (g1, e1) ∧
      g1.total_neurons = 83 ∧ g1.network.length = 3 ∧
      (g1.network.getD 0 default).from_ = 0 ∧ (g1.network.getD 0 default).to_ = 77 ∧
      (g1.network.getD 0 default).enabled = false := by
  obtain ⟨g1, e1, pivot, h, hp, ht, hl, hgenes⟩ :=
    mutateNode_renumbering oneGeneGenome ⟨nodeDraws, 2, 1⟩
      (fun n => by
        show 0 ≤ nodeDraws n ∧ nodeDraws n < 1
        unfold nodeDraws
        split
        · norm_num
        · split <;> norm_num)
      oneGeneGenome_indexBounds (by simp [oneGeneGenome]) (by decide!)
  have hpivot : pivot = 76 := by
    rw [hp]
    decide!
  obtain ⟨-, -, h3, h4, h5, -⟩ := hgenes 0 (by decide)
  rw [hpivot] at h4 h5
  refine ⟨g1, e1, h, ht, hl, ?_, ?_, ?_⟩
  · rw [h4]
    decide!
  · rw [h5]
    decide!
  · rw [h3]
    decide!

/-! ## C34: the weight mutations -/

theorem find_isSome_iff_any (gene : Gene α) (other : List (Gene α)) :
    (other.find? (fun og => decide (gene.innovation = og.innovation))).isSome =
      other.any (fun og => decide (gene.innovation = og.innovation)) := by
  induction other with
  | nil => rfl
  | cons x rest ih =>
    by_cases hx : gene.innovation = x.innovation
    · simp [List.find?_cons, hx]
    · simp only [List.find?_cons, hx, decide_False, List.any_cons, Bool.false_or]
      exact ih

/-- The three sums of `compare` in terms of the genes of `self` that have a match in
`other`: the number of unmatched genes, the number of matched genes, and the sum of the weight
differences to the first match. -/
theorem compare_sums (l other : List (Gene α)) :
    (l.map (fun gene =>
        (other.find? (fun og => gene.innovation = og.innovation)).elim 1
          (fun _ => (0 : α)))).sum =
      ((l.length - (l.filter (fun gene =>
        other.any (fun og => decide (gene.innovation = og.innovation)))).length : Nat) : α) ∧
    (l.map (fun gene =>
        (other.find? (fun og => gene.innovation = og.innovation)).elim 0
          (fun _ => (1 : α)))).sum =
      ((l.filter (fun gene =>
        other.any (fun og => decide (gene.innovation = og.innovation)))).length : α) ∧
    (l.map (fun gene =>
        (other.find? (fun og => gene.innovation = og.innovation)).elim 0
          (fun og => |gene.weight - og.weight|))).sum =
      ((l.filter (fun gene =>
          other.any (fun og => decide (gene.innovation = og.innovation)))).map
        (fun gene => |gene.weight -
          ((other.find? (fun og => gene.innovation = og.innovation)).getD default).weight|)).sum
    := by
  induction l with
  | nil => simp
  | cons gene rest ih =>
    obtain ⟨i1, i2, i3⟩ := ih
    have hle := List.length_filter_le
      (fun gene => other.any (fun og => decide (gene.innovation = og.innovation))) rest
    have hany := find_isSome_iff_any gene other
    simp only [List.map_cons, List.sum_cons, List.filter_cons]
    cases hf : other.find? (fun og => decide (gene.innovation = og.innovation)) with
    | none =>
      rw [hf] at hany
      have hno : other.any (fun og => decide (gene.innovation = og.innovation)) = false :=
        hany.symm
      rw [hno, i1, i2, i3]
      simp only [Option.elim_none, Bool.false_eq_true, if_false, List.length_cons, zero_add]
      refine ⟨?_, trivial, trivial⟩
      rw [Nat.succ_sub hle, Nat.cast_succ, add_comm]
    | some og =>
      rw [hf] at hany
      have hyes : other.any (fun og => decide (gene.innovation = og.innovation)) = true :=
        hany.symm
      rw [hyes, i1, i2, i3]
      simp only [Option.elim_some, if_true, List.length_cons, zero_add, Nat.succ_sub_succ,
        Nat.cast_succ, List.map_cons, List.sum_cons, hf, Option.getD_some]
      exact ⟨trivial, add_comm _ _, trivial⟩

/-- The value of `compare` for a caller with genes, in terms of `C`, the number of genes of the
caller whose innovation number occurs in `other`. -/
theorem compare_eq (a b : Genome α) (ha : a.network ≠ []) (d w : α) :
    a.compare b d w =
      ((((a.network.length - (a.network.filter (fun gene =>
            b.network.any (fun og => decide (gene.innovation = og.innovation)))).length : Nat)
          : α) + (b.network.length : α)) /
          ((max a.network.length b.network.length : Nat) : α),
        if (a.network.filter (fun gene =>
            b.network.any (fun og => decide (gene.innovation = og.innovation)))).length = 0
        then 0
        else
          ((a.network.filter (fun gene =>
              b.network.any (fun og => decide (gene.innovation = og.innovation)))).map
            (fun gene => |gene.weight -
              ((b.network.find? (fun og => gene.innovation = og.innovation)).getD
                default).weight|)).sum /
          ((a.network.filter (fun gene =>
            b.network.any (fun og => decide (gene.innovation = og.innovation)))).length : α)) := by
  obtain ⟨s1, s2, s3⟩ := compare_sums a.network b.network
  apply Prod.ext
  · rw [compare_disjoint_eq a b ha, s1]
  · rw [compare_weights_eq a b ha, s2, s3]
    simp only [Nat.cast_eq_zero]

/-- C35: for a caller `self` with genes, with `C` the number of genes of `self` whose
innovation number occurs in `other`, `W` the sum over those genes of the distance between the
weight of the gene and the weight of the first gene of `other` with its number, and
`D_self = |self| - C`, `compare` sets `disjoint = (D_self + |other|) / max(|self|, |other|)`
and `weights = 0` if `C = 0`, `W / C` otherwise; when both networks are empty it leaves both
outputs as the caller passed them. -/
theorem compare_formula (a b : Genome α) (d w : α) :
    (a.network ≠ [] →
      a.compare b d w =
        ((((a.network.length - (a.network.filter (fun gene =>
              b.network.any (fun og => decide (gene.innovation = og.innovation)))).length : Nat)
            : α) + (b.network.length : α)) /
            ((max a.network.length b.network.length : Nat) : α),
          if (a.network.filter (fun gene =>
              b.network.any (fun og => decide (gene.innovation = og.innovation)))).length = 0
          then 0
          else
            ((a.network.filter (fun gene =>
                b.network.any (fun og => decide (gene.innovation = og.innovation)))).map
              (fun gene => |gene.weight -
                ((b.network.find? (fun og => gene.innovation = og.innovation)).getD
                  default).weight|)).sum /
            ((a.network.filter (fun gene =>
              b.network.any (fun og => decide (gene.innovation = og.innovation)))).length
                : α))) ∧
    (a.network = [] → b.network = [] → a.compare b d w = (d, w)) := by
  refine ⟨fun ha => compare_eq a b ha d w, fun ha hb => ?_⟩
  unfold Genome.compare
  rw [if_pos ⟨by rw [ha]; rfl, by rw [hb]; rfl⟩]

/-- Witness of C35: two one-gene genomes with the same innovation number, whose weights are
`1/2` and `2⁻²⁰`; and two genomes without genes. -/
theorem compare_formula_witness :
    oneGeneGenome.compare tinyWeightGenome 0 0 = (1, 1 / 2 - 1 / 1048576) ∧
    emptyGenome.compare emptyGenome 3 4 = (3, 4) := by
  obtain ⟨h1, -⟩ := compare_formula oneGeneGenome tinyWeightGenome 0 0
  obtain ⟨-, h2⟩ := compare_formula emptyGenome emptyGenome 3 4
  refine ⟨?_, h2 rfl rfl⟩
  rw [h1 (by simp [oneGeneGenome])]
  apply Prod.ext <;> decide!

/-- With pairwise distinct innovation numbers in `self`, the genes of `self` that have a match
in `other` are at most as many as the genes of `other`. -/
theorem matched_length_le (l other : List (Gene α)) (hnd : (l.map Gene.innovation).Nodup) :
    (l.filter (fun gene =>
      other.any (fun og => decide (gene.innovation = og.innovation)))).length ≤ other.length := by
  have hsub : ((l.filter (fun gene =>
      other.any (fun og => decide (gene.innovation = og.innovation)))).map Gene.innovation).Sublist
      (l.map Gene.innovation) := List.Sublist.map _ (List.filter_sublist _)
  have hnd2 := hnd.sublist hsub
  have hsubset : (l.filter (fun gene =>
      other.any (fun og => decide (gene.innovation = og.innovation)))).map Gene.innovation ⊆
      other.map Gene.innovation := by
    intro i hi
    obtain ⟨gene, hg, rfl⟩ := List.mem_map.1 hi
    have hany := (List.mem_filter.1 hg).2
    obtain ⟨og, hog, heq⟩ := List.any_eq_true.1 hany
    exact List.mem_map.2 ⟨og, hog, (of_decide_eq_true heq).symm⟩
  have hlen := (List.subperm_of_subset hnd2 hsubset).length_le
  rw [List.length_map, List.length_map] at hlen
  exact hlen

/-- C37: for a caller with genes whose innovation numbers are pairwise distinct, and any
`other`, the `disjoint` value set by `compare` lies in `[1, 2]`; so a species whose first
genome is such a genome can accept a genome only when `0.6 * weights < 0.1`. -/
theorem compare_disjoint_one_two (a b : Genome α) (ha : a.network ≠ [])
    (hu : a.UniqueInnovations) (d w : α) :
    1 ≤ (a.compare b d w).1 ∧ (a.compare b d w).1 ≤ 2 ∧
    ∀ species : Species α, species.genomes.head? = some a → species.fromSpecies b = true →
      SPECIES_DELTA_WEIGHTS α * (a.compare b 0 0).2 < 1 / 10 := by
  have hC := matched_length_le a.network b.network hu
  have hCn := List.length_filter_le
    (fun gene => b.network.any (fun og => decide (gene.innovation = og.innovation))) a.network
  have hlen : 0 < a.network.length := List.length_pos.2 ha
  have hmax : (0 : α) < ((max a.network.length b.network.length : Nat) : α) := by
    exact_mod_cast lt_of_lt_of_le hlen (le_max_left _ _)
  have hnum : ∀ d w : α, (a.compare b d w).1 =
      ((a.network.length - (a.network.filter (fun gene =>
          b.network.any (fun og => decide (gene.innovation = og.innovation)))).length +
        b.network.length : Nat) : α) / ((max a.network.length b.network.length : Nat) : α) := by
    intro d w
    rw [compare_eq a b ha d w, Nat.cast_add]
  have hlow : ∀ d w : α, 1 ≤ (a.compare b d w).1 := by
    intro d w
    rw [hnum, one_le_div hmax]
    have : max a.network.length b.network.length ≤
        a.network.length - (a.network.filter (fun gene =>
          b.network.any (fun og => decide (gene.innovation = og.innovation)))).length +
        b.network.length := by
      apply max_le <;> omega
    exact_mod_cast this
  refine ⟨hlow d w, ?_, ?_⟩
  · rw [hnum, div_le_iff₀ hmax]
    have h1 := le_max_left a.network.length b.network.length
    have h2 := le_max_right a.network.length b.network.length
    have : a.network.length - (a.network.filter (fun gene =>
          b.network.any (fun og => decide (gene.innovation = og.innovation)))).length +
        b.network.length ≤ 2 * max a.network.length b.network.length := by
      omega
    exact_mod_cast this
  · intro species hfirst hacc
    have hget : species.genomes.getD 0 default = a := by
      cases hs : species.genomes with
      | nil => rw [hs] at hfirst; cases hfirst
      | cons x rest =>
        rw [hs] at hfirst
        simp only [List.head?_cons, Option.some.injEq] at hfirst
        rw [List.getD_cons_zero, hfirst]
    unfold Species.fromSpecies at hacc
    rw [hget] at hacc
    have hlt := of_decide_eq_true hacc
    have h1 := hlow 0 0
    unfold SPECIES_DELTA_DIJOINT SPECIES_DELTA_THRESHOLD at hlt
    linarith

/-- Witness of C37: the one-gene genome `0 → 76` compared with the one-gene genome `1 → 76`. -/
theorem compare_disjoint_one_two_witness :
    1 ≤ (oneGeneGenome.compare secondGeneGenome 0 0).1 ∧
    (oneGeneGenome.compare secondGeneGenome 0 0).1 ≤ 2 :=
  ⟨(compare_disjoint_one_two oneGeneGenome secondGeneGenome (by simp [oneGeneGenome])
      (by simp [Genome.UniqueInnovations, oneGeneGenome]) 0 0).1,
    (compare_disjoint_one_two oneGeneGenome secondGeneGenome (by simp [oneGeneGenome])
      (by simp [Genome.UniqueInnovations, oneGeneGenome]) 0 0).2.1⟩

/-! ## C36: placement of a genome in the species list -/

theorem addToSpecies_placement (genome : Genome α) (l : List (Species α)) :
    (∃ front target back, l = front ++ target :: back ∧
        (∀ species ∈ front, species.fromSpecies genome = false) ∧
        target.fromSpecies genome = true ∧
        addToSpecies genome l = front ++ ⟨target.genomes ++ [genome]⟩ :: back) ∨
      ((∀ species ∈ l, species.fromSpecies genome = false) ∧
        addToSpecies genome l = l ++ [⟨[genome]⟩]) := by
  induction l with
  | nil => exact Or.inr ⟨fun _ h => absurd h (List.not_mem_nil _), rfl⟩
  | cons species rest ih =>
    by_cases hs : species.fromSpecies genome = true
    · refine Or.inl ⟨[], species, rest, rfl, fun _ h => absurd h (List.not_mem_nil _), hs, ?_⟩
      rw [addToSpecies, if_pos hs]
      rfl
    · have hs2 : species.fromSpecies genome = false := by simpa using hs
      have hstep : addToSpecies genome (species :: rest) =
          species :: addToSpecies genome rest := by
        rw [addToSpecies, if_neg hs]
      rcases ih with ⟨front, target, back, hl, hf, ht, hadd⟩ | ⟨hall, hadd⟩
      · refine Or.inl ⟨species :: front, target, back, by rw [hl]; rfl, ?_, ht, ?_⟩
        · intro s hm
          rcases List.mem_cons.1 hm with rfl | hm
          · exact hs2
          · exact hf s hm
        · rw [hstep, hadd]
          rfl
      · refine Or.inr ⟨?_, by rw [hstep, hadd]; rfl⟩
        intro s hm
        rcases List.mem_cons.1 hm with rfl | hm
        · exact hs2
        · exact hall s hm

/-- C36: `addGenomeToRespectiveSpecies` appends the genome to the first species of the list
that accepts it under `fromSpecies` (the species before it reject it), or, when no species
accepts it, appends a new species holding the genome alone at the end of the list.  Either way
the other species, the genomes already there and their order are as before, the gym holds
exactly one genome more, and its other fields are unchanged. -/
theorem addGenome_placement (gym : Gym α) (genome : Genome α) :
    ((∃ front target back, gym.all_species = front ++ target :: back ∧
        (∀ species ∈ front, species.fromSpecies genome = false) ∧
        target.fromSpecies genome = true ∧
        (gym.addGenomeToRespectiveSpecies genome).all_species =
          front ++ ⟨target.genomes ++ [genome]⟩ :: back) ∨
      ((∀ species ∈ gym.all_species, species.fromSpecies genome = false) ∧
        (gym.addGenomeToRespectiveSpecies genome).all_species =
          gym.all_species ++ [⟨[genome]⟩])) ∧
    (gym.addGenomeToRespectiveSpecies genome).population = gym.population + 1 ∧
    (gym.addGenomeToRespectiveSpecies genome).current_species = gym.current_species ∧
    (gym.addGenomeToRespectiveSpecies genome).current_genome = gym.current_genome ∧
    (gym.addGenomeToRespectiveSpecies genome).generation = gym.generation ∧
    (gym.addGenomeToRespectiveSpecies genome).top_fitness_genome = gym.top_fitness_genome := by
  have hplace := addToSpecies_placement genome gym.all_species
  refine ⟨hplace, ?_, rfl, rfl, rfl, rfl⟩
  unfold Gym.population
  show ((addToSpecies genome gym.all_species).map (fun species => species.genomes.length)).sum
    = _
  rcases hplace with ⟨front, target, back, hl, -, -, hadd⟩ | ⟨-, hadd⟩
  · rw [hadd, hl]
    simp only [List.map_append, List.map_cons, List.sum_append, List.sum_cons,
      List.length_append, List.length_singleton]
    omega
  · rw [hadd]
    simp

/-! ## C38: crossover with a partner that brings nothing new -/

theorem eqv_self (gene : Gene α) : gene.eqv gene = true := by
  unfold Gene.eqv
  rw [if_pos rfl]

/-- When every gene of `other` is gene-equal to a gene of `self` and `other` has at most as
many neurons as `self`, `crossover` returns `self` and draws no value. -/
theorem crossover_of_subsumed (g other : Genome α) (e : Env α)
    (hsub : ∀ other_gene ∈ other.network, ∃ gene ∈ g.network, other_gene.eqv gene = true)
    (htot : other.total_neurons ≤ g.total_neurons) : g.crossover other e = (g, e) := by
  have hfilter : other.network.filter
      (fun other_gene => !g.network.any (fun gene => other_gene.eqv gene)) = [] := by
    apply List.filter_eq_nil_iff.2
    intro other_gene hm
    obtain ⟨gene, hg, heq⟩ := hsub other_gene hm
    have hany : g.network.any (fun gene => other_gene.eqv gene) = true :=
      List.any_eq_true.2 ⟨gene, hg, heq⟩
    rw [hany]
    simp
  have hadd : crossoverAdditions g.network other.network e = ([], e) := by
    rw [crossoverAdditions_eq, hfilter]
    rfl
  unfold Genome.crossover
  split
  · rfl
  · have hmax : (if other.total_neurons < g.total_neurons then g.total_neurons
        else other.total_neurons) = g.total_neurons := by
      split
      · rfl
      · omega
    show (({ g with
        total_neurons := if other.total_neurons < g.total_neurons then g.total_neurons
          else other.total_neurons
        network := g.network ++ (crossoverAdditions g.network other.network e).1 } : Genome α),
      (crossoverAdditions g.network other.network e).2) = (g, e)
    rw [hadd, hmax, List.append_nil]

/-- C38: for a genome `other` each of whose genes is gene-equal to a gene of `self` and whose
`total_neurons` is at most that of `self`, `self.crossover(other)` is `self` (genes,
`total_neurons`, fitness, generation) on every stream of draws, and no value is drawn.  In
particular `g.crossover(g) = g`, which is what `breedChild` returns when it takes the crossover
branch and picks element `0` as second parent. -/
theorem crossover_subsumed [FloorRing α] (g other : Genome α) (e : Env α)
    (species : Species α) :
    ((∀ other_gene ∈ other.network, ∃ gene ∈ g.network, other_gene.eqv gene = true) →
      other.total_neurons ≤ g.total_neurons → g.crossover other e = (g, e)) ∧
    g.crossover g e = (g, e) ∧
    (e.draws e.drawn < CROSSOVER_CHANCE α →
      randomIndex (e.draws (e.drawn + 1)) species.genomes.length = 0 →
      species.breedChild e =
        (species.genomes.getD 0 default, { e with drawn := e.drawn + 2 })) := by
  have hself : ∀ (x : Genome α) (e2 : Env α), x.crossover x e2 = (x, e2) := fun x e2 =>
    crossover_of_subsumed x x e2 (fun gene hm => ⟨gene, hm, eqv_self gene⟩) (le_refl _)
  refine ⟨crossover_of_subsumed g other e, hself g e, ?_⟩
  intro hchance hzero
  unfold Species.breedChild
  simp only [generateRandom]
  rw [if_pos hchance, hzero, hself]

/-- Witness of C38: the one-gene genome `0 → 76` crossed with a genome that holds the same
gene with another weight. -/
theorem crossover_subsumed_witness :
    oneGeneGenome.crossover tinyWeightGenome ⟨halfDraws, 0, 1⟩ =
      (oneGeneGenome, ⟨halfDraws, 0, 1⟩) :=
  (crossover_subsumed oneGeneGenome tinyWeightGenome ⟨halfDraws, 0, 1⟩ ⟨[oneGeneGenome]⟩).1
    (fun other_gene hm => ⟨⟨1, 0, 76, 1 / 2, true⟩, List.mem_singleton.2 rfl, by
      rw [List.mem_singleton.1 hm]
      rfl⟩)
    (le_refl _)

/-! ## C39: node mutations and the input block -/

/-- C39 (defect of `mutateNode`): in a fresh process the default genome is built and mutated
once, by a node mutation on its first gene `0 → 76`; the second gene this mutation appends is
the reversed gene `76 → 0`, enabled.  A further `mutateNode` that picks this gene takes
`min(0, total_neurons - OUTPUTS) = 0` as pivot, inside the input block, and raises every
endpoint of every gene: the gene `1 → 77` becomes `2 → 78`, so the endpoint `1 < INPUTS` has
changed. -/
theorem mutateNode_shifts_inputs :
    (((Genome.ctor true none (Env.initial inputShiftDraws)).1.mutate
        (Genome.ctor true none (Env.initial inputShiftDraws)).2).bind
      (fun once => (once.1.mutateNode once.2).map
        (fun twice =>
          [once.1.total_neurons, once.1.network.length,
            (once.1.network.getD 457 default).from_, (once.1.network.getD 457 default).to_,
            randomIndex (once.2.draws once.2.drawn) once.1.network.length,
            (once.1.network.getD 1 default).from_, (once.1.network.getD 1 default).to_,
            (twice.1.network.getD 1 default).from_, (twice.1.network.getD 1 default).to_,
            twice.1.total_neurons]))) =
      some [83, 458, 76, 0, 457, 1, 77, 2, 78, 84] := by
  decide!

/-! ## C10, C40: the weight distance in the arithmetic of the machine -/

/-- With the identity as rounding, `compareRounded` is `compare`. -/
theorem compareRounded_id (a b : Genome α) (d w : α) :
    a.compareRounded id b d w = a.compare b d w := by
  have hstep : compareStepRounded (id : α → α) b.network = compareStep b.network := by
    funext acc gene
    unfold compareStepRounded compareStep
    cases b.network.find? (fun other_gene => decide (gene.innovation = other_gene.innovation))
      <;> rfl
  unfold Genome.compareRounded Genome.compare
  rw [hstep]
  rfl

/-- The loop of `compare` adds the differences of `matchedDifferences`, in their order, to
`weights`, and counts them in `coincident`. -/
theorem foldl_compareStepRounded (rnd : α → α) (other l : List (Gene α)) (acc : α × α × α) :
    (l.foldl (compareStepRounded rnd other) acc).2 =
      (matchedDifferences rnd l other).foldl
        (fun p x => (rnd (p.1 + x), rnd (p.2 + 1))) acc.2 := by
  induction l generalizing acc with
  | nil => rfl
  | cons gene rest ih =>
    rw [List.foldl_cons, ih]
    unfold matchedDifferences
    rw [List.filterMap_cons]
    unfold compareStepRounded
    cases other.find? (fun other_gene => decide (gene.innovation = other_gene.innovation)) with
    | none => rfl
    | some other_gene => rfl

theorem foldl_differences (rnd : α → α) (l : List α) (p : α × α) :
    (l.foldl (fun p x => (rnd (p.1 + x), rnd (p.2 + 1))) p).1 =
        l.foldl (fun s x => rnd (s + x)) p.1 ∧
    (l.foldl (fun p x => (rnd (p.1 + x), rnd (p.2 + 1))) p).2 =
        (fun c => rnd (c + 1))^[l.length] p.2 := by
  induction l generalizing p with
  | nil => exact ⟨rfl, rfl⟩
  | cons x rest ih =>
    rw [List.foldl_cons, List.foldl_cons, List.length_cons, Function.iterate_succ_apply]
    exact ih _

/-- With pairwise distinct innovation numbers in `l`, the difference `compare` adds for a gene
of a part `part` of `l` depends on the innovation number of the gene only. -/
theorem matchedDifferences_eq (rnd : α → α) (l other part : List (Gene α))
    (hl : (l.map Gene.innovation).Nodup) (hpart : ∀ gene ∈ part, gene ∈ l) :
    matchedDifferences rnd part other =
      (sharedInnovations part other).map (fun i =>
        |rnd (((l.find? (fun gene => decide (i = gene.innovation))).getD default).weight -
          ((other.find? (fun gene => decide (i = gene.innovation))).getD default).weight)|) := by
  induction part with
  | nil => rfl
  | cons gene rest ih =>
    have ih2 := ih (fun x hx => hpart x (List.mem_cons_of_mem _ hx))
    have hany := find_isSome_iff_any gene other
    have hself := find_self_of_nodup l hl gene (hpart gene (List.mem_cons_self _ _))
    unfold matchedDifferences sharedInnovations at *
    rw [List.filterMap_cons, List.filter_cons]
    cases hf : other.find? (fun og => decide (gene.innovation = og.innovation)) with
    | none =>
      rw [hf] at hany
      have hno : other.any (fun og => decide (gene.innovation = og.innovation)) = false :=
        hany.symm
      rw [hno]
      exact ih2
    | some og =>
      rw [hf] at hany
      have hyes : other.any (fun og => decide (gene.innovation = og.innovation)) = true :=
        hany.symm
      rw [hyes]
      simp only [Option.map_some', if_true, List.map_cons]
      rw [ih2, hself, hf]
      rfl

theorem mem_sharedInnovations (l other : List (Gene α)) (i : Nat) :
    i ∈ sharedInnovations l other ↔
      i ∈ l.map Gene.innovation ∧ i ∈ other.map Gene.innovation := by
  unfold sharedInnovations
  constructor
  · intro h
    obtain ⟨gene, hg, rfl⟩ := List.mem_map.1 h
    obtain ⟨hm, hany⟩ := List.mem_filter.1 hg
    obtain ⟨og, hog, heq⟩ := List.any_eq_true.1 hany
    exact ⟨List.mem_map_of_mem _ hm,
      List.mem_map.2 ⟨og, hog, (of_decide_eq_true heq).symm⟩⟩
  · rintro ⟨h1, h2⟩
    obtain ⟨gene, hg, rfl⟩ := List.mem_map.1 h1
    obtain ⟨og, hog, heq⟩ := List.mem_map.1 h2
    apply List.mem_map_of_mem
    apply List.mem_filter.2
    exact ⟨hg, List.any_eq_true.2 ⟨og, hog, decide_eq_true heq.symm⟩⟩

theorem sharedInnovations_nodup (l other : List (Gene α))
    (hl : (l.map Gene.innovation).Nodup) : (sharedInnovations l other).Nodup :=
  hl.sublist (List.Sublist.map _ (List.filter_sublist _))

/-- The two calls add the same differences: for a rounding that commutes with the change of
sign, the difference of a shared innovation number is the same in both directions. -/
theorem matchedDifferences_symm (rnd : α → α) (hodd : ∀ x, rnd (-x) = -rnd x)
    (a b : List (Gene α)) (ha : (a.map Gene.innovation).Nodup)
    (hb : (b.map Gene.innovation).Nodup) :
    (matchedDifferences rnd a b).Perm (matchedDifferences rnd b a) ∧
    (sharedInnovations a b = sharedInnovations b a →
      matchedDifferences rnd a b = matchedDifferences rnd b a) := by
  have hsymm : ∀ i : Nat,
      |rnd (((a.find? (fun gene => decide (i = gene.innovation))).getD default).weight -
          ((b.find? (fun gene => decide (i = gene.innovation))).getD default).weight)| =
      |rnd (((b.find? (fun gene => decide (i = gene.innovation))).getD default).weight -
          ((a.find? (fun gene => decide (i = gene.innovation))).getD default).weight)| := by
    intro i
    rw [← neg_sub, hodd, abs_neg]
  rw [matchedDifferences_eq rnd a b a ha (fun _ h => h),
    matchedDifferences_eq rnd b a b hb (fun _ h => h)]
  have hfun : (fun i : Nat =>
      |rnd (((b.find? (fun gene => decide (i = gene.innovation))).getD default).weight -
          ((a.find? (fun gene => decide (i = gene.innovation))).getD default).weight)|) =
      (fun i : Nat =>
      |rnd (((a.find? (fun gene => decide (i = gene.innovation))).getD default).weight -
          ((b.find? (fun gene => decide (i = gene.innovation))).getD default).weight)|) :=
    funext (fun i => (hsymm i).symm)
  rw [hfun]
  constructor
  · apply List.Perm.map
    apply (List.perm_ext_iff_of_nodup (sharedInnovations_nodup a b ha)
      (sharedInnovations_nodup b a hb)).2
    intro i
    rw [mem_sharedInnovations, mem_sharedInnovations]
    exact and_comm
  · intro horder
    rw [horder]

/-- The `weights` value of `compareRounded` for a caller with genes. -/
theorem compareRounded_weights_eq (rnd : α → α) (a b : Genome α) (ha : a.network ≠ [])
    (d w : α) :
    (a.compareRounded rnd b d w).2 =
      if (a.network.foldl (compareStepRounded rnd b.network) (0, 0, 0)).2.2 = 0 then 0
      else rnd ((a.network.foldl (compareStepRounded rnd b.network) (0, 0, 0)).2.1 /
        (a.network.foldl (compareStepRounded rnd b.network) (0, 0, 0)).2.2) := by
  have hemp : a.network.isEmpty = false := by
    cases h : a.network with
    | nil => exact absurd h ha
    | cons x l => rfl
  unfold Genome.compareRounded
  simp only [hemp, Bool.false_eq_true, false_and, if_false]

/-- For a rounding that commutes with the change of sign and two genomes with genes, pairwise
distinct innovation numbers and their shared genes in the same order, the two directions of
`compareRounded` give the same `weights`. -/
theorem compareRounded_weights_symm (rnd : α → α) (hodd : ∀ x, rnd (-x) = -rnd x)
    (a b : Genome α) (ha : a.UniqueInnovations) (hb : b.UniqueInnovations)
    (hna : a.network ≠ []) (hnb : b.network ≠ [])
    (horder : sharedInnovations a.network b.network = sharedInnovations b.network a.network)
    (d w d1 w1 : α) :
    (a.compareRounded rnd b d w).2 = (b.compareRounded rnd a d1 w1).2 := by
  rw [compareRounded_weights_eq rnd a b hna, compareRounded_weights_eq rnd b a hnb,
    foldl_compareStepRounded, foldl_compareStepRounded,
    (matchedDifferences_symm rnd hodd a.network b.network ha hb).2 horder]

/-- C10, amended: for two genomes whose innovation numbers are pairwise distinct within each
genome, whose networks are both empty or both non-empty and whose shared genes (the genes
whose innovation number occurs in both genomes) stand in the same order in both, with
`disjoint` and `weights` initialised to `0` by the caller, `a.compare(b)` and `b.compare(a)`
produce the same `weights` value in the binary32 arithmetic of the machine. -/
theorem compare_weights_symm [FloorRing α] (a b : Genome α) (ha : a.UniqueInnovations)
    (hb : b.UniqueInnovations) (hemp : a.network = [] ↔ b.network = [])
    (horder : sharedInnovations a.network b.network = sharedInnovations b.network a.network) :
    (a.compareRounded toFloat32 b 0 0).2 = (b.compareRounded toFloat32 a 0 0).2 := by
  by_cases hne : a.network = []
  · have hbe := hemp.1 hne
    simp [Genome.compareRounded, hne, hbe]
  · exact compareRounded_weights_symm toFloat32 toFloat32_neg a b ha hb hne
      (fun h => hne (hemp.2 h)) horder 0 0 0 0

/-- Witness of the amended C10: `decimalGenome`, with the weights `0.1f`, `0.2f`, `1.0f`, and
`alignedGenome`, which holds the same three innovation numbers in the same order. -/
theorem compare_weights_symm_witness :
    (decimalGenome.compareRounded toFloat32 alignedGenome 0 0).2 =
      (alignedGenome.compareRounded toFloat32 decimalGenome 0 0).2 :=
  compare_weights_symm decimalGenome alignedGenome (by decide!) (by decide!)
    (by simp [decimalGenome, alignedGenome]) (by decide!)

/-- C40 as stated fails in the arithmetic of the machine.  `decimalGenome` and
`oppositeGenome` hold the innovation numbers `1, 2, 3`, in opposite orders; the weights differ
by `0.1f`, `0.2f` and `1.0f`.  One call adds `(0.1f + 0.2f) + 1.0f`, the other
`(1.0f + 0.2f) + 0.1f`, and in binary32 the two sums differ: the `weights` values are
`14540253 / 2 ^ 25` and `14540255 / 2 ^ 25`. -/
theorem compare_rounding_asymmetric :
    decimalGenome.network.map Gene.innovation = [1, 2, 3] ∧
    oppositeGenome.network.map Gene.innovation = [3, 2, 1] ∧
    (decimalGenome.compareRounded toFloat32 oppositeGenome 0 0).2 = 14540253 / 33554432 ∧
    (oppositeGenome.compareRounded toFloat32 decimalGenome 0 0).2 = 14540255 / 33554432 ∧
    (decimalGenome.compareRounded toFloat32 oppositeGenome 0 0).2 ≠
      (oppositeGenome.compareRounded toFloat32 decimalGenome 0 0).2 := by
  decide!

/-- C40, amended: for two genomes that both have genes and pairwise distinct innovation
numbers, in the binary32 arithmetic of the machine `a.compare(b)` and `b.compare(a)` end their
loops with the same `coincident` count; the `weights` sum of each call is the sum, taken from
`0` in the order of the genes of the caller, of the absolute weight differences of the shared
genes, and the differences added by the two calls are the same up to their order; when the
shared genes stand in the same order in both genomes, the two calls produce the same `weights`
value, whatever the outputs held before the calls. -/
theorem compare_coincident_symm [FloorRing α] (a b : Genome α) (ha : a.UniqueInnovations)
    (hb : b.UniqueInnovations) (hna : a.network ≠ []) (hnb : b.network ≠ [])
    (d w d1 w1 : α) :
    (a.network.foldl (compareStepRounded toFloat32 b.network) (0, 0, 0)).2.2 =
      (b.network.foldl (compareStepRounded toFloat32 a.network) (0, 0, 0)).2.2 ∧
    (a.network.foldl (compareStepRounded toFloat32 b.network) (0, 0, 0)).2.1 =
      (matchedDifferences toFloat32 a.network b.network).foldl
        (fun s x => toFloat32 (s + x)) 0 ∧
    (b.network.foldl (compareStepRounded toFloat32 a.network) (0, 0, 0)).2.1 =
      (matchedDifferences toFloat32 b.network a.network).foldl
        (fun s x => toFloat32 (s + x)) 0 ∧
    (matchedDifferences toFloat32 a.network b.network).Perm
      (matchedDifferences toFloat32 b.network a.network) ∧
    (sharedInnovations a.network b.network = sharedInnovations b.network a.network →
      (a.compareRounded toFloat32 b d w).2 = (b.compareRounded toFloat32 a d1 w1).2) := by
  obtain ⟨hperm, -⟩ := matchedDifferences_symm toFloat32 toFloat32_neg a.network b.network ha hb
  refine ⟨?_, ?_, ?_, hperm, fun horder =>
    compareRounded_weights_symm toFloat32 toFloat32_neg a b ha hb hna hnb horder d w d1 w1⟩
  · rw [foldl_compareStepRounded, foldl_compareStepRounded,
      (foldl_differences toFloat32 _ _).2, (foldl_differences toFloat32 _ _).2,
      hperm.length_eq]
  · rw [foldl_compareStepRounded, (foldl_differences toFloat32 _ _).1]
  · rw [foldl_compareStepRounded, (foldl_differences toFloat32 _ _).1]

/-- Witness of the amended C40: `decimalGenome` and `alignedGenome` hold the innovation numbers
`1, 2, 3` in the same order, and the two calls produce the same `weights` value;
`decimalGenome` and `oppositeGenome` hold them in opposite orders, and the two calls count
the same three coincident genes. -/
theorem compare_coincident_symm_witness :
    (decimalGenome.compareRounded toFloat32 alignedGenome 0 0).2 =
      (alignedGenome.compareRounded toFloat32 decimalGenome 0 0).2 ∧
    (decimalGenome.network.foldl (compareStepRounded toFloat32 oppositeGenome.network)
        (0, 0, 0)).2.2 =
      (oppositeGenome.network.foldl (compareStepRounded toFloat32 decimalGenome.network)
        (0, 0, 0)).2.2 :=
  ⟨(compare_coincident_symm decimalGenome alignedGenome (by decide!) (by decide!)
      (by simp [decimalGenome]) (by simp [alignedGenome]) 0 0 0 0).2.2.2.2 (by decide!),
    (compare_coincident_symm decimalGenome oppositeGenome (by decide!) (by decide!)
      (by simp [decimalGenome]) (by simp [oppositeGenome]) 0 0 0 0).1⟩

end

end RobotAxel
